import Mathlib

/-!
# A shallow embedding of `cpp-search-server`

The development follows `search-server/string_processing.cpp`,
`search-server/concurrent_map.h`, `search-server/search_server.h` and
`search-server/search_server.cpp`.

Modelling conventions.

* A `std::string` / `std::string_view` is a `List Char`; a position inside a
  string is represented by the suffix that starts there and `npos` by the
  empty suffix.
* `double` is a type `α` with the operations that the code applies to it: `0`,
  `1`, `+`, `*`, `/`, `<` and the conversion from `size_t`.  The `<cmath>`
  function `log` is a parameter `log : α → α`.  A statement in exact arithmetic
  takes `α` to be a linearly ordered field (over `ℝ` with `Real.log`); the type
  `Double` below is the arithmetic of the machine, binary64 with rounding to
  nearest, ties to even.
* `std::unordered_map` / `std::unordered_set` are association lists / lists.
  The list order is the iteration order of the container, which C++ leaves
  unspecified; the model puts a freshly inserted key at the front.
* A member function that may throw returns `Except Exception _`; a mutating
  member function that may throw returns the outcome together with the state
  of the object at the moment the call is left.
-/

namespace CppSearchServer

/-! ## Basic types -/

/-- Contents of a `std::string` or a `std::string_view`. -/
abbrev Str := List Char

/-- The alias `using DocumentId = uint32_t`. -/
abbrev DocumentId := Nat

/-- The exceptions thrown by the code: `std::invalid_argument` with its message
and `std::out_of_range` (thrown by `unordered_map::at`). -/
inductive Exception where
  | invalid_argument (what : String)
  | out_of_range
  deriving DecidableEq, Repr

deriving instance DecidableEq for Except

/-! ## `std::unordered_map` and `std::unordered_set` -/

namespace UnorderedMap

variable {K V : Type} [DecidableEq K]

/-- Member `find`: the value stored under `k`, `none` standing for `end()`. -/
def find : List (K × V) → K → Option V
  | [], _ => none
  | (k', v) :: m, k => if k' = k then some v else find m k

/-- Member `count`. -/
def count (m : List (K × V)) (k : K) : Nat :=
  match find m k with
  | some _ => 1
  | none => 0

/-- Member `size`. -/
def size (m : List (K × V)) : Nat := m.length

/-- Member `at`: throws `std::out_of_range` for a missing key. -/
def «at» (m : List (K × V)) (k : K) : Except Exception V :=
  match find m k with
  | some v => .ok v
  | none => .error .out_of_range

/-- Assignment through the reference to the element stored under `k`. -/
def assign : List (K × V) → K → (V → V) → List (K × V)
  | [], _, _ => []
  | (k', v) :: m, k, f => if k' = k then (k', f v) :: m else (k', v) :: assign m k f

/-- The statement `m[k] = f (m[k])`, where `operator[]` first inserts `dflt`
(the value-initialised `V`) under a missing key. -/
def update (m : List (K × V)) (k : K) (dflt : V) (f : V → V) : List (K × V) :=
  match find m k with
  | none => (k, f dflt) :: m
  | some _ => assign m k f


/-- Member `emplace` / single-element `insert`: no effect when the key is present. -/
def emplace (m : List (K × V)) (k : K) (v : V) : List (K × V) :=
  match find m k with
  | none => (k, v) :: m
  | some _ => m

/-- Range `insert(first, last)`: the elements are inserted one by one. -/
def insertRange (m : List (K × V)) (range : List (K × V)) : List (K × V) :=
  range.foldl (fun acc e => emplace acc e.1 e.2) m

/-- Member `erase(key)`. -/
def erase (m : List (K × V)) (k : K) : List (K × V) :=
  m.filter fun e => e.1 ≠ k

end UnorderedMap

namespace UnorderedSet

variable {K : Type} [DecidableEq K]

/-- Member `count`. -/
def count (s : List K) (k : K) : Nat := if k ∈ s then 1 else 0

/-- Member `insert`: no effect when the element is present. -/
def insert (s : List K) (k : K) : List K := if k ∈ s then s else k :: s

end UnorderedSet

/-! ## `string_processing.cpp` -/

/-- The loop of `SplitIntoWords`.  `rest` is the suffix of `str` at `pos`
(`str.find_first_not_of(" ")` already applied), `fuel` bounds the number of
iterations. -/
def SplitIntoWordsLoop : Nat → Str → List Str
  | 0, _ => []
  | fuel + 1, rest =>
    match rest with
    | [] => []                                        -- pos == npos
    | _ :: _ =>
      -- space = str.find(' ', pos); the word is str.substr(pos, space - pos)
      let word := rest.takeWhile (fun c => c ≠ ' ')
      let atSpace := rest.dropWhile (fun c => c ≠ ' ')
      -- pos = str.find_first_not_of(" ", space)
      word :: SplitIntoWordsLoop fuel (atSpace.dropWhile (fun c => c = ' '))

/-- Function `SplitIntoWords`. -/
def SplitIntoWords (str : Str) : List Str :=
  SplitIntoWordsLoop (str.length + 1) (str.dropWhile (fun c => c = ' '))

/-- Function `UniqueNonEmptyStrings`. -/
def UniqueNonEmptyStrings (strings : List Str) : List Str :=
  strings.foldl (fun non_empty_strings str =>
    if str ≠ [] then UnorderedSet.insert non_empty_strings str else non_empty_strings) []


/-! ## `concurrent_map.h` -/

/-- Class template `ConcurrentMap<Key, Value>` for an unsigned integer `Key`:
the vector `buckets_` of the per-bucket maps (the mutexes carry no data). -/
structure ConcurrentMap (V : Type) where
  buckets_ : List (List (Nat × V))
  deriving DecidableEq, Repr

namespace ConcurrentMap

variable {V : Type}

/-- Constructor `ConcurrentMap(size_t bucket_count)`. -/
def create (bucket_count : Nat) : ConcurrentMap V :=
  { buckets_ := List.replicate bucket_count [] }

/-- Access to `buckets_[index]` by reference: `f` is applied to that bucket. -/
def atBucket (f : List (Nat × V) → List (Nat × V)) : Nat → List (List (Nat × V)) → List (List (Nat × V))
  | _, [] => []
  | 0, bucket :: rest => f bucket :: rest
  | index + 1, bucket :: rest => bucket :: atBucket f index rest

/-- The statement `result[key].ref_to_value += x`: `operator[]` picks the bucket
`key % buckets_.size()`, `Access` locks it and takes `bucket.map[key]`, and the
caller adds `x` through the reference while the guard is alive. -/
def addAt [Add V] [Zero V] (cm : ConcurrentMap V) (key : Nat) (x : V) : ConcurrentMap V :=
  let index := key % cm.buckets_.length
  { buckets_ := atBucket (fun map => UnorderedMap.update map key 0 (fun v => v + x)) index cm.buckets_ }

/-- Member `BuildOrdinaryMap`. -/
def BuildOrdinaryMap (cm : ConcurrentMap V) : List (Nat × V) :=
  cm.buckets_.foldl (fun result map => UnorderedMap.insertRange result map) []

end ConcurrentMap

/-! ## `search_server.h`, `search_server.cpp` -/

/-- Struct `SearchServer::Result`. -/
structure Result (α : Type) where
  id : DocumentId
  relevance : α
  deriving DecidableEq, Repr

/-- Struct `SearchServer::Query`. -/
structure Query where
  plus_words : List Str
  minus_words : List Str
  deriving DecidableEq, Repr

/-- Struct `SearchServer::QueryWord`. -/
structure QueryWord where
  data : Str
  is_minus : Bool
  is_stop : Bool
  deriving DecidableEq, Repr

/-- The data members of class `SearchServer`. -/
structure SearchServer (α : Type) where
  stop_words_ : List Str := []
  word_to_document_freqs_ : List (Str × List (DocumentId × α)) := []
  documents_ : List (DocumentId × Str) := []
  deriving DecidableEq, Repr

namespace SearchServer

variable {α : Type}

/-- Static member `IsValidWord`: no character `c` with `c >= 0 && c < 32`. -/
def IsValidWord (word : Str) : Bool :=
  !word.any fun c => decide (c.toNat ≥ 0) && decide (c.toNat < 32)

/-- Member `IsStopWord`. -/
def IsStopWord (srv : SearchServer α) (word : Str) : Bool :=
  decide (UnorderedSet.count srv.stop_words_ word > 0)

/-- Constructor `SearchServer(const std::string& stop_words)`. -/
def create (stop_words : Str) : Except Exception (SearchServer α) :=
  let stop_words_sv := UniqueNonEmptyStrings (SplitIntoWords stop_words)
  if !stop_words_sv.all IsValidWord then
    .error (.invalid_argument "Some of stop words are invalid")
  else
    .ok { stop_words_ := stop_words_sv.foldl (fun s stop_word_sv => UnorderedSet.insert s stop_word_sv) [] }

/-- The loop of `SplitIntoWordsNoStop` over the remaining words, `words` being
the vector filled so far. -/
def SplitIntoWordsNoStopLoop (srv : SearchServer α) : List Str → List Str → Except Exception (List Str)
  | [], words => .ok words
  | word :: rest, words =>
    if !IsValidWord word then
      .error (.invalid_argument ("Word " ++ String.mk word ++ " is invalid"))
    else if !srv.IsStopWord word then
      SplitIntoWordsNoStopLoop srv rest (words ++ [word])
    else
      SplitIntoWordsNoStopLoop srv rest words

/-- Member `SplitIntoWordsNoStop`. -/
def SplitIntoWordsNoStop (srv : SearchServer α) (text : Str) : Except Exception (List Str) :=
  SplitIntoWordsNoStopLoop srv (SplitIntoWords text) []

/-- The statement `word_to_document_freqs_[word_sv][document_id] += inv_word_count`. -/
def AddWordFreq [Add α] [Zero α] (freqs : List (Str × List (DocumentId × α))) (word_sv : Str)
    (document_id : DocumentId) (inv_word_count : α) : List (Str × List (DocumentId × α)) :=
  UnorderedMap.update freqs word_sv []
    (fun postings => UnorderedMap.update postings document_id 0 (fun v => v + inv_word_count))

/-- Member `AddDocument`.  The second component is the state of the server when
the call returns or throws. -/
def AddDocument [Zero α] [One α] [Add α] [Div α] [NatCast α] (srv : SearchServer α)
    (document_id : DocumentId) (document : Str) : Except Exception Unit × SearchServer α :=
  if UnorderedMap.count srv.documents_ document_id > 0 then
    (.error (.invalid_argument "Invalid document_id"), srv)
  else
    let stored : SearchServer α :=
      { srv with documents_ := UnorderedMap.emplace srv.documents_ document_id document }
    match stored.SplitIntoWordsNoStop document with
    | .error e => (.error e, stored)
    | .ok words_sv =>
      let inv_word_count : α := 1 / (words_sv.length : α)
      (.ok (),
        { stored with
          word_to_document_freqs_ :=
            words_sv.foldl
              (fun freqs word_sv => AddWordFreq freqs word_sv document_id inv_word_count)
              stored.word_to_document_freqs_ })

/-- Member `ParseQueryWord`. -/
def ParseQueryWord (srv : SearchServer α) (word : Str) : Except Exception QueryWord :=
  if word = [] then
    .error (.invalid_argument "Query word is empty")
  else
    let is_minus : Bool := decide (word.head? = some '-')
    -- word = word.substr(1) when the first character is the minus sign
    let word : Str := if is_minus then word.drop 1 else word
    if word = [] ∨ word.head? = some '-' ∨ IsValidWord word = false then
      .error (.invalid_argument ("Query word " ++ String.mk word ++ " is invalid"))
    else
      .ok { data := word, is_minus := is_minus, is_stop := srv.IsStopWord word }

/-- The loop of `ParseQuery` over the remaining words, with the two sets filled
so far. -/
def ParseQueryLoop (srv : SearchServer α) : List Str → List Str → List Str → Except Exception Query
  | [], plus_words, minus_words => .ok { plus_words := plus_words, minus_words := minus_words }
  | word :: rest, plus_words, minus_words =>
    match srv.ParseQueryWord word with
    | .error e => .error e
    | .ok query_word =>
      if !query_word.is_stop then
        if query_word.is_minus then
          ParseQueryLoop srv rest plus_words (UnorderedSet.insert minus_words query_word.data)
        else
          ParseQueryLoop srv rest (UnorderedSet.insert plus_words query_word.data) minus_words
      else
        ParseQueryLoop srv rest plus_words minus_words

/-- Member `ParseQuery`. -/
def ParseQuery (srv : SearchServer α) (text : Str) : Except Exception Query :=
  ParseQueryLoop srv (SplitIntoWords text) [] []

/-- Member `ComputeWordInverseDocumentFreq`. -/
def ComputeWordInverseDocumentFreq [One α] [Mul α] [Div α] [NatCast α] (log : α → α)
    (srv : SearchServer α) (word : Str) : Except Exception α :=
  match UnorderedMap.at srv.word_to_document_freqs_ word with
  | .error e => .error e
  | .ok postings =>
    .ok (log ((UnorderedMap.size srv.documents_ : α) * 1 / (UnorderedMap.size postings : α)))

/-- Algorithm `std::for_each` with a body that may throw; `state` is what the
body captures by reference. -/
def for_each {σ β : Type} (f : σ → β → Except Exception σ) : List β → σ → Except Exception σ
  | [], state => .ok state
  | x :: rest, state =>
    match f state x with
    | .error e => .error e
    | .ok state => for_each f rest state

/-- The lambda of `FindDocumentsWithPlusWords` (sequenced overload). -/
def PlusWordLambda [Zero α] [One α] [Add α] [Mul α] [Div α] [NatCast α] (log : α → α)
    (srv : SearchServer α) (result : List (DocumentId × α)) (word : Str) : Except Exception (List (DocumentId × α)) :=
  match UnorderedMap.find srv.word_to_document_freqs_ word with
  | none => .ok result
  | some postings =>
    match srv.ComputeWordInverseDocumentFreq log word with
    | .error e => .error e
    | .ok inverse_document_freq =>
      .ok (postings.foldl
        (fun result e => UnorderedMap.update result e.1 0 (fun v => v + e.2 * inverse_document_freq))
        result)

/-- The lambda of `FindDocumentsWithPlusWords` (parallel overload), as the list
of the statements `result[document_id].ref_to_value += x` it executes, each
given by `(document_id, x)`. -/
def PlusWordLambdaPar [One α] [Mul α] [Div α] [NatCast α] (log : α → α) (srv : SearchServer α)
    (word : Str) : Except Exception (List (DocumentId × α)) :=
  match UnorderedMap.find srv.word_to_document_freqs_ word with
  | none => .ok []
  | some postings =>
    match srv.ComputeWordInverseDocumentFreq log word with
    | .error e => .error e
    | .ok inverse_document_freq =>
      .ok (postings.map fun e => (e.1, e.2 * inverse_document_freq))

/-- All the updates issued by the tasks of the parallel `std::for_each`, task
after task. -/
def ParUpdates [One α] [Mul α] [Div α] [NatCast α] (log : α → α) (srv : SearchServer α) :
    List Str → Except Exception (List (DocumentId × α))
  | [] => .ok []
  | word :: rest =>
    match srv.PlusWordLambdaPar log word with
    | .error e => .error e
    | .ok updates =>
      match ParUpdates log srv rest with
      | .error e => .error e
      | .ok more => .ok (updates ++ more)

end SearchServer

/-- The execution policies `std::execution::seq` and `std::execution::par`.
The parallel policy carries what the run time decides: `interleave` gives the
order in which the locked updates of the tasks take effect.  `bucket_count` is
the constant of the parallel overload, 100 in the source. -/
inductive ExecutionPolicy (α : Type) where
  | seq
  | par (interleave : List (DocumentId × α) → List (DocumentId × α)) (bucket_count : Nat)

namespace SearchServer

variable {α : Type}

/-- Member `FindDocumentsWithPlusWords`, both overloads. -/
def FindDocumentsWithPlusWords [Zero α] [One α] [Add α] [Mul α] [Div α] [NatCast α]
    (log : α → α) (srv : SearchServer α) (policy : ExecutionPolicy α) (query : Query) : Except Exception (List (DocumentId × α)) :=
  match policy with
  | .seq => for_each (srv.PlusWordLambda log) query.plus_words []
  | .par interleave bucket_count =>
    match srv.ParUpdates log query.plus_words with
    | .error e => .error e
    | .ok updates =>
      .ok ((interleave updates).foldl (fun result u => result.addAt u.1 u.2)
        (ConcurrentMap.create bucket_count)).BuildOrdinaryMap

/-- Member `EraseDocumentsWithMinusWords`. -/
def EraseDocumentsWithMinusWords (srv : SearchServer α)
    (document_to_relevance : List (DocumentId × α)) (minus_words : List Str) :
    List (DocumentId × α) :=
  minus_words.foldl
    (fun document_to_relevance word =>
      match UnorderedMap.find srv.word_to_document_freqs_ word with
      | none => document_to_relevance
      | some postings =>
        postings.foldl (fun document_to_relevance e => UnorderedMap.erase document_to_relevance e.1)
          document_to_relevance)
    document_to_relevance

/-- Member `ConvertToResults`. -/
def ConvertToResults (document_to_relevance : List (DocumentId × α)) : List (Result α) :=
  document_to_relevance.map fun e => { id := e.1, relevance := e.2 }

/-- Insertion of `x` into a list sorted by `comp`, before the first element
that does not precede it. -/
def sortInsert {β : Type} (comp : β → β → Bool) (x : β) : List β → List β
  | [] => [x]
  | y :: rest => if comp y x then y :: sortInsert comp x rest else x :: y :: rest

/-- Algorithm `std::sort(first, last, comp)`, as an insertion sort. -/
def sort {β : Type} (comp : β → β → Bool) : List β → List β
  | [] => []
  | x :: rest => sortInsert comp x (sort comp rest)

/-- Static member `LeaveTopResults`. -/
def LeaveTopResults [LT α] [DecidableRel fun a b : α => a < b] (documents : List (Result α))
    (results_num : Nat) : List (Result α) :=
  let documents := sort (fun lhs rhs => decide (lhs.relevance > rhs.relevance)) documents
  if documents.length > results_num then documents.take results_num else documents

/-- Member template `FindAll`. -/
def FindAll [Zero α] [One α] [Add α] [Mul α] [Div α] [NatCast α] (log : α → α)
    (srv : SearchServer α) (policy : ExecutionPolicy α) (query : Query) : Except Exception (List (Result α)) :=
  match srv.FindDocumentsWithPlusWords log policy query with
  | .error e => .error e
  | .ok document_to_relevance =>
    .ok (ConvertToResults (srv.EraseDocumentsWithMinusWords document_to_relevance query.minus_words))

/-- Member template `Find(policy, raw_query, results_num)`. -/
def FindWith [Zero α] [One α] [Add α] [Mul α] [Div α] [NatCast α] [LT α]
    [DecidableRel fun a b : α => a < b] (log : α → α) (srv : SearchServer α)
    (policy : ExecutionPolicy α) (raw_query : Str) (results_num : Nat) :
    Except Exception (List (Result α)) :=
  match srv.ParseQuery raw_query with
  | .error e => .error e
  | .ok query =>
    match srv.FindAll log policy query with
    | .error e => .error e
    | .ok results => .ok (LeaveTopResults results results_num)

/-- Member `Find(raw_query, results_num)`. -/
def Find [Zero α] [One α] [Add α] [Mul α] [Div α] [NatCast α] [LT α]
    [DecidableRel fun a b : α => a < b] (log : α → α) (srv : SearchServer α) (raw_query : Str)
    (results_num : Nat) : Except Exception (List (Result α)) :=
  srv.FindWith log .seq raw_query results_num

end SearchServer

/-! ## Reachable states -/

namespace SearchServer

variable {α : Type}

/-- The states of a server object: built by one of the two constructors and
then changed by calls of `AddDocument`, whether they return or throw. -/
inductive Reachable [LinearOrderedField α] : SearchServer α → Prop where
  | default : Reachable {}
  | create (stop_words : Str) (srv : SearchServer α) :
      SearchServer.create stop_words = .ok srv → Reachable srv
  | AddDocument (srv : SearchServer α) (document_id : DocumentId) (document : Str) :
      Reachable srv → Reachable (srv.AddDocument document_id document).2

/-- The identifiers stored in `documents_`. -/
def StoredIds (srv : SearchServer α) : List DocumentId := srv.documents_.map Prod.fst

/-- The term frequency recorded for `document_id` in the postings of one term,
0 when there is none. -/
def TermFreq [Zero α] (postings : List (DocumentId × α)) (document_id : DocumentId) : α :=
  (UnorderedMap.find postings document_id).getD 0

/-- The sum, over all terms of the inverted mapping, of the term frequencies
recorded for `document_id`. -/
def TermFreqSum [LinearOrderedField α] (srv : SearchServer α) (document_id : DocumentId) : α :=
  (srv.word_to_document_freqs_.map fun e => TermFreq e.2 document_id).sum

/-- The score `tf(t, d) * log (N / df(t))` of the term `word` for the document
`d`: `N` is the number of stored documents, `df` the number of postings of the
term, and the score is 0 when `d` is not in the postings of the term. -/
def TermScore [LinearOrderedField α] (log : α → α) (srv : SearchServer α) (word : Str)
    (d : DocumentId) : α :=
  match UnorderedMap.find srv.word_to_document_freqs_ word with
  | none => 0
  | some postings =>
    match UnorderedMap.find postings d with
    | none => 0
    | some tf => tf * log ((srv.documents_.length : α) / (postings.length : α))

/-- The distinct plus terms of a raw query: its tokens without a leading minus
sign that are not stop words, each taken once. -/
def PlusTerms (srv : SearchServer α) (raw_query : Str) : List Str :=
  ((SplitIntoWords raw_query).filter fun word =>
    decide (word.head? ≠ some '-') && !srv.IsStopWord word).dedup

/-- The relevance of the document `d` for a raw query, by the TF-IDF formula. -/
def FormulaRelevance [LinearOrderedField α] (log : α → α) (srv : SearchServer α)
    (raw_query : Str) (d : DocumentId) : α :=
  ((PlusTerms srv raw_query).map fun word => TermScore log srv word d).sum

/-- A malformed token of a query: the token `-`, a token that begins with `--`,
or a token with a control character (code 0..31). -/
def MalformedToken (word : Str) : Prop :=
  word = ['-'] ∨ (∃ rest, word = '-' :: '-' :: rest) ∨ ∃ c ∈ word, c.toNat < 32

/-- The text has a word with a control character (code 0..31). -/
def HasInvalidWord (text : Str) : Prop :=
  ∃ word ∈ SplitIntoWords text, ∃ c ∈ word, c.toNat < 32

end SearchServer

/-! ## Auxiliary definitions -/

namespace ConcurrentMap

variable {V : Type}

/-- The keys of the bucket at position `offset + j` are congruent to
`offset + j` modulo `n`. -/
def Routed (n : Nat) : Nat → List (List (Nat × V)) → Prop
  | _, [] => True
  | offset, bucket :: rest => (∀ k ∈ bucket.map Prod.fst, k % n = offset) ∧ Routed n (offset + 1) rest

end ConcurrentMap

namespace SearchServer

variable {α : Type}

/-- The identifiers in the postings of every term are stored identifiers. -/
def PostingsStored (srv : SearchServer α) : Prop :=
  ∀ e ∈ srv.word_to_document_freqs_, ∀ d ∈ e.2.map Prod.fst, d ∈ srv.StoredIds

/-- The postings of every term have pairwise distinct identifiers. -/
def PostingsNodup (srv : SearchServer α) : Prop :=
  ∀ e ∈ srv.word_to_document_freqs_, (e.2.map Prod.fst).Nodup

/-- The inverse document frequency of a term of the inverted mapping, 0 standing
for a term that is not there. -/
def Idf [LinearOrderedField α] (log : α → α) (srv : SearchServer α) (word : Str) : α :=
  match UnorderedMap.find srv.word_to_document_freqs_ word with
  | none => 0
  | some postings => log ((srv.documents_.length : α) * 1 / (postings.length : α))

/-- The updates that the lambda of `FindDocumentsWithPlusWords` makes for one
plus word. -/
def WordUpdates [LinearOrderedField α] (log : α → α) (srv : SearchServer α) (word : Str) :
    List (DocumentId × α) :=
  match UnorderedMap.find srv.word_to_document_freqs_ word with
  | none => []
  | some postings => postings.map fun e => (e.1, e.2 * Idf log srv word)

/-- One update `result[document_id] += x` of the sequenced overload. -/
def applyUpdate [LinearOrderedField α] (result : List (DocumentId × α)) (u : DocumentId × α) :
    List (DocumentId × α) :=
  UnorderedMap.update result u.1 0 (fun v => v + u.2)

/-- All the updates of a query, plus word after plus word. -/
def AllUpdates [LinearOrderedField α] (log : α → α) (srv : SearchServer α)
    (plus_words : List Str) : List (DocumentId × α) :=
  (plus_words.map (WordUpdates log srv)).flatten

/-- What `FindDocumentsWithPlusWords` returns under each policy. -/
def PlusWordsMap [LinearOrderedField α] (log : α → α) (srv : SearchServer α)
    (policy : ExecutionPolicy α) (query : Query) : List (DocumentId × α) :=
  match policy with
  | .seq => (AllUpdates log srv query.plus_words).foldl applyUpdate []
  | .par interleave bucket_count =>
    ((interleave (AllUpdates log srv query.plus_words)).foldl
      (fun result u => result.addAt u.1 u.2) (ConcurrentMap.create bucket_count)).BuildOrdinaryMap

/-- The sum of the increments that a list of updates gives to the key `d`. -/
def Total [LinearOrderedField α] (updates : List (DocumentId × α)) (d : DocumentId) : α :=
  (updates.map fun u => if u.1 = d then u.2 else 0).sum

end SearchServer

/-- Scenario of C8: the documents 0 = `a`, 1 = `a` and 2 = `b` on a server
without stop words. -/
def tieServer (α : Type) [LinearOrderedField α] : SearchServer α :=
  (((({} : SearchServer α).AddDocument 0 "a".toList).2.AddDocument 1 "a".toList).2.AddDocument 2
    "b".toList).2

/-- The words of a text as the specification describes them: the text split
at every space character, the empty pieces removed. -/
def SplitAtSpaces (str : Str) : List Str :=
  (str.splitOn ' ').filter fun piece => decide (piece ≠ [])

namespace SearchServer

/-- The term frequency recorded in an inverted mapping for the pair of the term
`word` and the document `d`, `none` when there is no such posting. -/
def PostingOf {α : Type} (freqs : List (Str × List (DocumentId × α))) (word : Str)
    (d : DocumentId) : Option α :=
  (UnorderedMap.find freqs word).bind fun postings => UnorderedMap.find postings d

end SearchServer

namespace SearchServer

/-- The identifiers of the stored documents are pairwise distinct. -/
def DocumentsNodup {α : Type} (srv : SearchServer α) : Prop := srv.StoredIds.Nodup

/-- Every term of the inverted mapping has at least one posting. -/
def PostingsNonempty {α : Type} (srv : SearchServer α) : Prop :=
  ∀ e ∈ srv.word_to_document_freqs_, e.2 ≠ []

/-- Every recorded term frequency is positive. -/
def TermFreqsPositive {α : Type} [LinearOrderedField α] (srv : SearchServer α) : Prop :=
  ∀ e ∈ srv.word_to_document_freqs_, ∀ p ∈ e.2, 0 < p.2

/-- Every term of the inverted mapping is a word: it is not empty, has neither
a space nor a control character, and is not a stop word. -/
def TermsAreWords {α : Type} (srv : SearchServer α) : Prop :=
  ∀ e ∈ srv.word_to_document_freqs_,
    e.1 ≠ [] ∧ ' ' ∉ e.1 ∧ IsValidWord e.1 = true ∧ srv.IsStopWord e.1 = false

end SearchServer

/-- Scenario of the specification: the server with the stop words `the a` that
holds only document 0 = `the cat sat`. -/
def catServer (α : Type) [LinearOrderedField α] : SearchServer α :=
  (({ stop_words_ := ["the".toList, "a".toList] } : SearchServer α).AddDocument 0
    "the cat sat".toList).2

/-- Scenario of the specification: the documents 0 = `a b c` and 1 = `a b` on
a server without stop words. -/
def twoDocServer (α : Type) [LinearOrderedField α] : SearchServer α :=
  ((({} : SearchServer α).AddDocument 0 "a b c".toList).2.AddDocument 1 "a b".toList).2

/-- Scenario: the document 0 = `-` on a server without stop words. -/
def minusDocServer (α : Type) [LinearOrderedField α] : SearchServer α :=
  (({} : SearchServer α).AddDocument 0 "-".toList).2

namespace SearchServer

/-- The words of a text that `AddDocument` indexes: the words that are not stop
words. -/
def IndexedWords {α : Type} (srv : SearchServer α) (document : Str) : List Str :=
  (SplitIntoWords document).filter fun w => !srv.IsStopWord w

/-- The inverted mapping after the loop of `AddDocument` over the words
`words_sv` of the document `document_id`. -/
def IndexWords {α : Type} [LinearOrderedField α] (freqs : List (Str × List (DocumentId × α)))
    (document_id : DocumentId) (words_sv : List Str) : List (Str × List (DocumentId × α)) :=
  words_sv.foldl
    (fun freqs word_sv => AddWordFreq freqs word_sv document_id (1 / (words_sv.length : α)))
    freqs

/-- The state that a successful call of `AddDocument` leaves. -/
def Added {α : Type} [LinearOrderedField α] (srv : SearchServer α) (document_id : DocumentId)
    (document : Str) : SearchServer α :=
  { srv with
    documents_ := (document_id, document) :: srv.documents_
    word_to_document_freqs_ :=
      IndexWords srv.word_to_document_freqs_ document_id (srv.IndexedWords document) }

end SearchServer

namespace SearchServer

/-- Two states hold the same stop words, the same stored documents and the same
inverted mapping, the two mappings being compared as finite maps: the same
terms, and under each term the same postings up to their order. -/
def SameIndex {α : Type} (s₁ s₂ : SearchServer α) : Prop :=
  s₁.stop_words_ = s₂.stop_words_ ∧
  s₁.documents_.Perm s₂.documents_ ∧
  (∀ d, UnorderedMap.find s₁.documents_ d = UnorderedMap.find s₂.documents_ d) ∧
  ∀ w, (UnorderedMap.find s₁.word_to_document_freqs_ w = none ∧
        UnorderedMap.find s₂.word_to_document_freqs_ w = none) ∨
      ∃ p₁ p₂, UnorderedMap.find s₁.word_to_document_freqs_ w = some p₁ ∧
        UnorderedMap.find s₂.word_to_document_freqs_ w = some p₂ ∧
        p₁.Perm p₂ ∧ ∀ d, UnorderedMap.find p₁ d = UnorderedMap.find p₂ d

end SearchServer

/-! ## The arithmetic of `double` -/

/-- The number of binary digits of `n` (0 for `n = 0`); `fuel` bounds the
number of halvings. -/
def bitLengthLoop : Nat → Nat → Nat
  | 0, _ => 0
  | fuel + 1, n => if n = 0 then 0 else bitLengthLoop fuel (n / 2) + 1

/-- The number of binary digits of `n`: `2 ^ (bitLength n - 1) ≤ n < 2 ^ bitLength n`
for `n > 0`. -/
def bitLength (n : Nat) : Nat := bitLengthLoop n n

/-- The integer nearest to `num / den`, the even one of the two when `num / den`
is half-way between them. -/
def roundHalfEven (num den : Nat) : Nat :=
  let q := num / den
  let r := num % den
  if 2 * r < den then q else if den < 2 * r then q + 1 else if q % 2 = 0 then q else q + 1

/-- A finite value of the type `double` (IEEE 754 binary64): the number
`mant * 2 ^ exp`, where `2 ^ 52 ≤ |mant| < 2 ^ 53` for a value other than zero
and `mant = 0`, `exp = 0` for zero.  The exponent is not bounded: infinities,
NaN, overflow and subnormal numbers are left out, and a quotient by zero is
zero.  The values that `AddDocument` and `Find` compute from an index of fewer
than `2 ^ 64` words lie far inside the range of the normal numbers. -/
structure Double where
  mant : Int
  exp : Int
  deriving DecidableEq, Repr

namespace Double

/-- The `double` nearest to `(n / d) * 2 ^ x`, negated when `negative` is set;
ties go to the even significand. -/
def round (negative : Bool) (n d : Nat) (x : Int) : Double :=
  if n = 0 ∨ d = 0 then
    ⟨0, 0⟩
  else
    -- e is the exponent of the quotient: 2 ^ e ≤ n / d < 2 ^ (e + 1)
    let e : Int :=
      if d * 2 ^ bitLength n ≤ n * 2 ^ bitLength d then (bitLength n : Int) - bitLength d
      else (bitLength n : Int) - bitLength d - 1
    -- the quotient is scaled by 2 ^ s into the interval [2 ^ 52, 2 ^ 53)
    let s : Int := 52 - e
    let m : Nat :=
      if 0 ≤ s then roundHalfEven (n * 2 ^ s.toNat) d else roundHalfEven n (d * 2 ^ (-s).toNat)
    if m = 2 ^ 53 then
      ⟨if negative then -(2 ^ 52) else 2 ^ 52, x - s + 1⟩
    else
      ⟨if negative then -(m : Int) else m, x - s⟩

/-- The sum `a + b`, rounded. -/
def add (a b : Double) : Double :=
  let e := min a.exp b.exp
  let sum : Int := a.mant * 2 ^ (a.exp - e).toNat + b.mant * 2 ^ (b.exp - e).toNat
  round (decide (sum < 0)) sum.natAbs 1 e

/-- The product `a * b`, rounded. -/
def mul (a b : Double) : Double :=
  round (decide (a.mant * b.mant < 0)) (a.mant * b.mant).natAbs 1 (a.exp + b.exp)

/-- The quotient `a / b`, rounded. -/
def div (a b : Double) : Double :=
  round (decide (a.mant * b.mant < 0)) a.mant.natAbs b.mant.natAbs (a.exp - b.exp)

/-- The comparison `a < b`. -/
def lt (a b : Double) : Prop :=
  a.mant * 2 ^ (a.exp - min a.exp b.exp).toNat < b.mant * 2 ^ (b.exp - min a.exp b.exp).toNat

/-- The comparison is computed on the integers. -/
def decLt (a b : Double) : Decidable (lt a b) :=
  Int.decLt (a.mant * 2 ^ (a.exp - min a.exp b.exp).toNat)
    (b.mant * 2 ^ (b.exp - min a.exp b.exp).toNat)

instance : Zero Double := ⟨⟨0, 0⟩⟩

instance : One Double := ⟨⟨2 ^ 52, -52⟩⟩

instance : Add Double := ⟨add⟩

instance : Mul Double := ⟨mul⟩

instance : Div Double := ⟨div⟩

instance : NatCast Double := ⟨fun n => round false n 1 0⟩

instance : LT Double := ⟨lt⟩

instance : DecidableRel fun a b : Double => a < b := decLt

end Double

/-- The runs of a policy that the library allows: the parallel policy works on
at least one bucket and lets every update take effect once, in any order. -/
def ExecutionPolicy.Fair {α : Type} : ExecutionPolicy α → Prop
  | .seq => True
  | .par interleave bucket_count =>
    1 ≤ bucket_count ∧ ∀ updates, (interleave updates).Perm updates

namespace SearchServer

/-- The identifiers in the postings of a term, none for a term that is not in
the inverted mapping. -/
def PostingIds {α : Type} (srv : SearchServer α) (word : Str) : List DocumentId :=
  ((UnorderedMap.find srv.word_to_document_freqs_ word).getD []).map Prod.fst

/-- The minus terms of a raw query: its tokens with a leading minus sign, taken
without the sign, that are not stop words. -/
def MinusTerms {α : Type} (srv : SearchServer α) (raw_query : Str) : List Str :=
  ((SplitIntoWords raw_query).filterMap fun word =>
    if word.head? = some '-' then some (word.drop 1) else none).filter
    fun word => !srv.IsStopWord word

/-- The documents that match a raw query, as the specification describes them:
the identifiers, each taken once, that are in the postings of some plus term of
the query and in the postings of none of its minus terms. -/
def MatchingIds {α : Type} (srv : SearchServer α) (raw_query : Str) : List DocumentId :=
  (((PlusTerms srv raw_query).flatMap (PostingIds srv)).dedup).filter fun d =>
    (MinusTerms srv raw_query).all fun word => decide (d ∉ PostingIds srv word)

end SearchServer

/-- Scenario of C6: the documents 0 = `cat dog`, 1 = `cat`, 2 = `cat a b`,
3 = `emu cat` and 4 = `fox` on a server without stop words. -/
def rankServer (α : Type) [Zero α] [One α] [Add α] [Div α] [NatCast α] : SearchServer α :=
  ((((((({} : SearchServer α).AddDocument 0 "cat dog".toList).2.AddDocument 1
    "cat".toList).2.AddDocument 2 "cat a b".toList).2.AddDocument 3
    "emu cat".toList).2.AddDocument 4 "fox".toList).2)

theorem bitLengthLoop_zero (fuel : Nat) : bitLengthLoop fuel 0 = 0 := by
  cases fuel <;> simp [bitLengthLoop]

/-- The fuel `n` is enough for `n`: the loop returns the number of binary
digits. -/
theorem bitLengthLoop_spec (fuel n : Nat) (h : n ≤ fuel) :
    n < 2 ^ bitLengthLoop fuel n ∧ (0 < n → 2 ^ (bitLengthLoop fuel n - 1) ≤ n) := by
  induction fuel generalizing n with
  | zero =>
    have hn : n = 0 := by omega
    subst hn
    simp [bitLengthLoop]
  | succ fuel ih =>
    by_cases hn : n = 0
    · subst hn
      simp [bitLengthLoop]
    · obtain ⟨h1, h2⟩ := ih (n / 2) (by omega)
      simp only [bitLengthLoop, hn, if_false, Nat.add_sub_cancel]
      refine ⟨?_, fun _ => ?_⟩
      · rw [pow_succ]
        omega
      · by_cases hhalf : n / 2 = 0
        · rw [hhalf, bitLengthLoop_zero]
          simp
          omega
        · have hk : bitLengthLoop fuel (n / 2) ≠ 0 := by
            intro hk
            rw [hk] at h1
            simp at h1
            exact hhalf h1
          have h3 := h2 (by omega)
          obtain ⟨k, hk'⟩ := Nat.exists_eq_succ_of_ne_zero hk
          rw [hk'] at h3 ⊢
          simp only [Nat.succ_sub_one] at h3
          rw [pow_succ]
          omega

theorem bitLength_spec (n : Nat) (h : 0 < n) :
    2 ^ (bitLength n - 1) ≤ n ∧ n < 2 ^ bitLength n :=
  ⟨(bitLengthLoop_spec n n (le_refl n)).2 h, (bitLengthLoop_spec n n (le_refl n)).1⟩

/-! ## Facts about the containers -/

namespace UnorderedMap

variable {K V : Type} [DecidableEq K]

theorem find_eq_none_iff (m : List (K × V)) (k : K) :
    find m k = none ↔ k ∉ m.map Prod.fst := by
  induction m with
  | nil => simp [find]
  | cons e m ih =>
    obtain ⟨k', v⟩ := e
    by_cases h : k' = k
    · simp [find, h]
    · simp only [find, h, if_false, ih, List.map_cons, List.mem_cons]
      constructor
      · intro hm hk
        rcases hk with hk | hk
        · exact h hk.symm
        · exact hm hk
      · intro hm hk
        exact hm (Or.inr hk)

theorem count_pos_iff (m : List (K × V)) (k : K) :
    count m k > 0 ↔ k ∈ m.map Prod.fst := by
  unfold count
  cases h : find m k with
  | none => simpa using (find_eq_none_iff m k).1 h
  | some v =>
    have : ¬ find m k = none := by simp [h]
    rw [find_eq_none_iff] at this
    simpa using this

theorem find_assign (m : List (K × V)) (k k' : K) (f : V → V) :
    find (assign m k f) k' = if k' = k then (find m k).map f else find m k' := by
  induction m with
  | nil => simp [assign, find]
  | cons e m ih =>
    obtain ⟨k0, v⟩ := e
    by_cases h0 : k0 = k
    · subst h0
      by_cases h1 : k' = k0
      · subst h1; simp [assign, find]
      · have h2 : ¬ k0 = k' := fun h => h1 h.symm
        simp [assign, find, h1, h2]
    · by_cases h1 : k' = k
      · subst h1; simp [assign, find, h0, ih]
      · by_cases h2 : k0 = k'
        · simp [assign, find, h0, h1, h2]
        · simp [assign, find, h0, h1, h2, ih]

theorem find_update (m : List (K × V)) (k k' : K) (dflt : V) (f : V → V) :
    find (update m k dflt f) k' =
      if k' = k then some (f ((find m k).getD dflt)) else find m k' := by
  unfold update
  cases h : find m k with
  | none =>
    by_cases h1 : k' = k
    · subst h1; simp [find]
    · have h2 : ¬ k = k' := fun h => h1 h.symm
      simp [find, h1, h2]
  | some v =>
    simp only [find_assign, h, Option.map_some', Option.getD_some]

theorem assign_keys (m : List (K × V)) (k : K) (f : V → V) :
    (assign m k f).map Prod.fst = m.map Prod.fst := by
  induction m with
  | nil => rfl
  | cons e m ih =>
    obtain ⟨k0, v⟩ := e
    by_cases h0 : k0 = k
    · simp [assign, h0]
    · simp [assign, h0, ih]

theorem update_keys (m : List (K × V)) (k : K) (dflt : V) (f : V → V) :
    (update m k dflt f).map Prod.fst =
      if k ∈ m.map Prod.fst then m.map Prod.fst else k :: m.map Prod.fst := by
  unfold update
  cases h : find m k with
  | none =>
    have := (find_eq_none_iff m k).1 h
    simp only [List.map_cons, if_neg this]
  | some v =>
    have : k ∈ m.map Prod.fst := by
      by_contra hc
      rw [(find_eq_none_iff m k).2 hc] at h
      cases h
    simp only [assign_keys, if_pos this]

theorem update_keys_nodup (m : List (K × V)) (k : K) (dflt : V) (f : V → V)
    (h : (m.map Prod.fst).Nodup) : ((update m k dflt f).map Prod.fst).Nodup := by
  rw [update_keys]
  split
  · exact h
  · exact List.nodup_cons.2 ⟨by assumption, h⟩

theorem mem_keys_update (m : List (K × V)) (k k' : K) (dflt : V) (f : V → V) :
    k' ∈ (update m k dflt f).map Prod.fst ↔ k' = k ∨ k' ∈ m.map Prod.fst := by
  rw [update_keys]
  split
  · constructor
    · intro h; exact Or.inr h
    · rintro (h | h)
      · subst h; assumption
      · exact h
  · simp

theorem mem_assign (m : List (K × V)) (k : K) (f : V → V) (e : K × V)
    (h : e ∈ assign m k f) : e ∈ m ∨ ∃ v, (k, v) ∈ m ∧ e = (k, f v) := by
  induction m with
  | nil => simp [assign] at h
  | cons e0 m ih =>
    obtain ⟨k0, v0⟩ := e0
    by_cases h0 : k0 = k
    · subst h0
      simp only [assign, if_true, List.mem_cons] at h
      rcases h with h | h
      · exact Or.inr ⟨v0, List.mem_cons_self _ _, h⟩
      · exact Or.inl (List.mem_cons_of_mem _ h)
    · simp only [assign, h0, if_false, List.mem_cons] at h
      rcases h with h | h
      · exact Or.inl (h ▸ List.mem_cons_self _ _)
      · rcases ih h with h | ⟨v, hv, he⟩
        · exact Or.inl (List.mem_cons_of_mem _ h)
        · exact Or.inr ⟨v, List.mem_cons_of_mem _ hv, he⟩

theorem mem_update (m : List (K × V)) (k : K) (dflt : V) (f : V → V) (e : K × V)
    (h : e ∈ update m k dflt f) :
    e ∈ m ∨ e = (k, f dflt) ∨ ∃ v, (k, v) ∈ m ∧ e = (k, f v) := by
  unfold update at h
  cases hf : find m k with
  | none =>
    simp only [hf, List.mem_cons] at h
    rcases h with h | h
    · exact Or.inr (Or.inl h)
    · exact Or.inl h
  | some v =>
    simp only [hf] at h
    rcases mem_assign m k f e h with h | h
    · exact Or.inl h
    · exact Or.inr (Or.inr h)

theorem find_eq_some_of_mem (m : List (K × V)) (h : (m.map Prod.fst).Nodup) (k : K) (v : V)
    (hm : (k, v) ∈ m) : find m k = some v := by
  induction m with
  | nil => simp at hm
  | cons e m ih =>
    obtain ⟨k0, v0⟩ := e
    simp only [List.map_cons, List.nodup_cons] at h
    rcases List.mem_cons.1 hm with heq | hm
    · cases heq; simp [find]
    · have hne : ¬ k0 = k := by
        intro hk
        subst hk
        exact h.1 (List.mem_map_of_mem Prod.fst hm)
      simp only [find, hne, if_false]
      exact ih h.2 hm

theorem mem_of_find_eq_some (m : List (K × V)) (k : K) (v : V) (h : find m k = some v) :
    (k, v) ∈ m := by
  induction m with
  | nil => simp [find] at h
  | cons e m ih =>
    obtain ⟨k0, v0⟩ := e
    by_cases h0 : k0 = k
    · subst h0
      simp only [find, if_true, Option.some.injEq] at h
      subst h
      exact List.mem_cons_self _ _
    · simp only [find, h0, if_false] at h
      exact List.mem_cons_of_mem _ (ih h)

theorem find_append (l₁ l₂ : List (K × V)) (k : K) :
    find (l₁ ++ l₂) k = (find l₁ k).or (find l₂ k) := by
  induction l₁ with
  | nil => simp [find]
  | cons e l₁ ih =>
    obtain ⟨k0, v⟩ := e
    by_cases h : k0 = k
    · simp [find, h]
    · simp [find, h, ih]

theorem find_emplace (m : List (K × V)) (k k' : K) (v : V) :
    find (emplace m k v) k' = (find m k').or (if k = k' then some v else none) := by
  unfold emplace
  cases h : find m k with
  | none =>
    by_cases hk : k = k'
    · subst hk; simp [find, h]
    · simp [find, hk, Option.or_none]
  | some v0 =>
    by_cases hk : k = k'
    · subst hk; simp [h]
    · simp [hk, Option.or_none]

theorem emplace_keys_nodup (m : List (K × V)) (k : K) (v : V)
    (h : (m.map Prod.fst).Nodup) : ((emplace m k v).map Prod.fst).Nodup := by
  unfold emplace
  cases hf : find m k with
  | none =>
    exact List.nodup_cons.2 ⟨(find_eq_none_iff m k).1 hf, h⟩
  | some v0 => exact h

theorem find_insertRange (range m : List (K × V)) (k : K) :
    find (insertRange m range) k = (find m k).or (find range k) := by
  unfold insertRange
  induction range generalizing m with
  | nil => simp [find, Option.or_none]
  | cons e range ih =>
    obtain ⟨k0, v⟩ := e
    rw [List.foldl_cons, ih, find_emplace]
    by_cases h : k0 = k
    · cases hm : find m k <;> simp [find, h]
    · cases hm : find m k <;> simp [find, h]

theorem insertRange_keys_nodup (range m : List (K × V))
    (h : (m.map Prod.fst).Nodup) : ((insertRange m range).map Prod.fst).Nodup := by
  unfold insertRange
  induction range generalizing m with
  | nil => exact h
  | cons e range ih =>
    rw [List.foldl_cons]
    exact ih _ (emplace_keys_nodup m e.1 e.2 h)

/-- Two maps with the same lookups hold the same elements. -/
theorem perm_of_find_eq (m₁ m₂ : List (K × V)) (h₁ : (m₁.map Prod.fst).Nodup)
    (h₂ : (m₂.map Prod.fst).Nodup) (h : ∀ k, find m₁ k = find m₂ k) : m₁.Perm m₂ := by
  classical
  rw [List.perm_ext_iff_of_nodup (List.Nodup.of_map _ h₁) (List.Nodup.of_map _ h₂)]
  intro e
  obtain ⟨k, v⟩ := e
  constructor
  · intro he
    have := find_eq_some_of_mem m₁ h₁ k v he
    rw [h] at this
    exact mem_of_find_eq_some m₂ k v this
  · intro he
    have := find_eq_some_of_mem m₂ h₂ k v he
    rw [← h] at this
    exact mem_of_find_eq_some m₁ k v this

end UnorderedMap

/-! ## Facts about `ConcurrentMap` -/

namespace ConcurrentMap

variable {V : Type}

theorem Routed.find_eq_none {n : Nat} {buckets : List (List (Nat × V))} {offset : Nat}
    (h : Routed n offset buckets) (k : Nat) (hk : k % n < offset) :
    UnorderedMap.find buckets.flatten k = none := by
  induction buckets generalizing offset with
  | nil => simp [UnorderedMap.find]
  | cons bucket rest ih =>
    obtain ⟨h1, h2⟩ := h
    rw [List.flatten_cons, UnorderedMap.find_append]
    have hb : UnorderedMap.find bucket k = none := by
      rw [UnorderedMap.find_eq_none_iff]
      intro hmem
      have := h1 k hmem
      omega
    rw [hb, Option.none_or]
    exact ih h2 (by omega)

theorem Routed_replicate (n count offset : Nat) :
    Routed n offset (List.replicate count ([] : List (Nat × V))) := by
  induction count generalizing offset with
  | zero => trivial
  | succ count ih =>
    rw [List.replicate_succ]
    exact ⟨by simp, ih _⟩

/-- The effect of one locked update on the buckets: the routing is kept and the
lookups change as they do for one update of a plain map. -/
theorem atBucket_update [Add V] [Zero V] (n : Nat) (key : Nat) (x : V)
    (buckets : List (List (Nat × V))) (offset index : Nat)
    (hr : Routed n offset buckets) (hindex : index < buckets.length)
    (hkey : key % n = offset + index) :
    Routed n offset
      (atBucket (fun map => UnorderedMap.update map key 0 (fun v => v + x)) index buckets) ∧
    ∀ d, UnorderedMap.find
        (atBucket (fun map => UnorderedMap.update map key 0 (fun v => v + x)) index
          buckets).flatten d
      = if d = key then some ((UnorderedMap.find buckets.flatten key).getD 0 + x)
        else UnorderedMap.find buckets.flatten d := by
  induction buckets generalizing offset index with
  | nil => simp at hindex
  | cons bucket rest ih =>
    obtain ⟨h1, h2⟩ := hr
    cases index with
    | zero =>
      simp only [atBucket, List.flatten_cons, UnorderedMap.find_append]
      refine ⟨⟨?_, h2⟩, ?_⟩
      · intro k hk
        rw [UnorderedMap.mem_keys_update] at hk
        rcases hk with hk | hk
        · rw [hk]; simpa using hkey
        · exact h1 k hk
      · intro d
        rw [UnorderedMap.find_update]
        have hrest : UnorderedMap.find rest.flatten key = none :=
          h2.find_eq_none key (by omega)
        by_cases hd : d = key
        · subst hd
          simp only [if_true, Option.or_some, hrest, Option.or_none]
        · simp only [hd, if_false]
    | succ index =>
      simp only [atBucket, List.flatten_cons, UnorderedMap.find_append]
      have hlen : index < rest.length := by simpa using hindex
      obtain ⟨ih1, ih2⟩ := ih (offset + 1) index h2 hlen (by omega)
      refine ⟨⟨h1, ih1⟩, ?_⟩
      intro d
      rw [ih2]
      have hb : UnorderedMap.find bucket key = none := by
        rw [UnorderedMap.find_eq_none_iff]
        intro hmem
        have := h1 key hmem
        omega
      by_cases hd : d = key
      · subst hd
        simp only [if_true, hb, Option.none_or]
      · simp only [hd, if_false]

theorem create_flatten (bucket_count : Nat) :
    (create bucket_count : ConcurrentMap V).buckets_.flatten = [] := by
  unfold create
  simp only
  induction bucket_count with
  | zero => rfl
  | succ n ih => rw [List.replicate_succ, List.flatten_cons, ih, List.nil_append]

theorem atBucket_length (f : List (Nat × V) → List (Nat × V)) (index : Nat)
    (buckets : List (List (Nat × V))) : (atBucket f index buckets).length = buckets.length := by
  induction buckets generalizing index with
  | nil => cases index <;> rfl
  | cons bucket rest ih =>
    cases index with
    | zero => rfl
    | succ index => simp [atBucket, ih]

theorem find_BuildOrdinaryMap_aux (buckets : List (List (Nat × V))) (result : List (Nat × V))
    (k : Nat) :
    UnorderedMap.find
        (buckets.foldl (fun result map => UnorderedMap.insertRange result map) result) k
      = (UnorderedMap.find result k).or (UnorderedMap.find buckets.flatten k) := by
  induction buckets generalizing result with
  | nil => simp [UnorderedMap.find, Option.or_none]
  | cons bucket rest ih =>
    rw [List.foldl_cons, ih, UnorderedMap.find_insertRange, List.flatten_cons,
      UnorderedMap.find_append]
    cases UnorderedMap.find result k <;> simp

/-- `BuildOrdinaryMap` keeps the value that each key has in its bucket. -/
theorem find_BuildOrdinaryMap (cm : ConcurrentMap V) (k : Nat) :
    UnorderedMap.find cm.BuildOrdinaryMap k = UnorderedMap.find cm.buckets_.flatten k := by
  unfold BuildOrdinaryMap
  rw [find_BuildOrdinaryMap_aux]
  simp [UnorderedMap.find]

theorem BuildOrdinaryMap_keys_nodup (cm : ConcurrentMap V) :
    (cm.BuildOrdinaryMap.map Prod.fst).Nodup := by
  unfold BuildOrdinaryMap
  suffices h : ∀ (buckets : List (List (Nat × V))) (result : List (Nat × V)),
      (result.map Prod.fst).Nodup →
      ((buckets.foldl (fun result map => UnorderedMap.insertRange result map) result).map
        Prod.fst).Nodup from h _ _ (by simp)
  intro buckets
  induction buckets with
  | nil => intro result h; exact h
  | cons bucket rest ih =>
    intro result h
    rw [List.foldl_cons]
    exact ih _ (UnorderedMap.insertRange_keys_nodup bucket result h)

/-- The locked updates of any schedule leave in the buckets of a map with at
least one bucket the lookups that the same updates leave in a plain map. -/
theorem find_foldl_addAt [Add V] [Zero V] (updates : List (Nat × V)) (cm : ConcurrentMap V)
    (m : List (Nat × V)) (hpos : 0 < cm.buckets_.length)
    (hr : Routed cm.buckets_.length 0 cm.buckets_)
    (h : ∀ d, UnorderedMap.find cm.buckets_.flatten d = UnorderedMap.find m d) :
    ∀ d, UnorderedMap.find
        (updates.foldl (fun result u => result.addAt u.1 u.2) cm).buckets_.flatten d
      = UnorderedMap.find
        (updates.foldl (fun m u => UnorderedMap.update m u.1 0 (fun v => v + u.2)) m) d := by
  induction updates generalizing cm m with
  | nil => exact h
  | cons u updates ih =>
    rw [List.foldl_cons, List.foldl_cons]
    have hstep := atBucket_update cm.buckets_.length u.1 u.2 cm.buckets_ 0
      (u.1 % cm.buckets_.length) hr (Nat.mod_lt _ hpos) (by omega)
    have hlen : (cm.addAt u.1 u.2).buckets_.length = cm.buckets_.length :=
      atBucket_length _ _ _
    apply ih
    · rw [hlen]; exact hpos
    · rw [hlen]; exact hstep.1
    · intro d
      rw [UnorderedMap.find_update, ← h, ← h]
      exact hstep.2 d

end ConcurrentMap

/-! ## Facts about `AddDocument` -/

namespace SearchServer

variable {α : Type}

theorem IsValidWord_eq_false_iff (word : Str) :
    IsValidWord word = false ↔ ∃ c ∈ word, c.toNat < 32 := by
  simp [IsValidWord]

theorem SplitIntoWordsNoStopLoop_invalid (srv : SearchServer α) (rest words : List Str)
    (h : ∃ word ∈ rest, IsValidWord word = false) :
    ∃ e, SplitIntoWordsNoStopLoop srv rest words = .error e := by
  induction rest generalizing words with
  | nil => simp at h
  | cons word rest ih =>
    unfold SplitIntoWordsNoStopLoop
    by_cases hv : IsValidWord word = false
    · simp [hv]
    · have hrest : ∃ word ∈ rest, IsValidWord word = false := by
        obtain ⟨w, hw, hwv⟩ := h
        rcases List.mem_cons.1 hw with rfl | hw
        · exact absurd hwv hv
        · exact ⟨w, hw, hwv⟩
      simp only [Bool.not_eq_false] at hv
      simp only [hv, Bool.not_true, Bool.false_eq_true, if_false]
      split
      · exact ih _ hrest
      · exact ih _ hrest

theorem SplitIntoWordsNoStop_invalid (srv : SearchServer α) (text : Str)
    (h : HasInvalidWord text) : ∃ e, srv.SplitIntoWordsNoStop text = .error e := by
  obtain ⟨w, hw, hc⟩ := h
  exact SplitIntoWordsNoStopLoop_invalid srv _ _ ⟨w, hw, (IsValidWord_eq_false_iff w).2 hc⟩

theorem SplitIntoWordsNoStopLoop_congr (srv srv' : SearchServer α)
    (h : srv'.stop_words_ = srv.stop_words_) (rest words : List Str) :
    SplitIntoWordsNoStopLoop srv' rest words = SplitIntoWordsNoStopLoop srv rest words := by
  induction rest generalizing words with
  | nil => rfl
  | cons word rest ih =>
    simp only [SplitIntoWordsNoStopLoop, IsStopWord, h, ih]

/-- The three ways in which a call of `AddDocument` ends. -/
theorem AddDocument_cases [Zero α] [One α] [Add α] [Div α] [NatCast α] (srv : SearchServer α)
    (document_id : DocumentId) (document : Str) :
    (document_id ∈ srv.StoredIds ∧
      srv.AddDocument document_id document
        = (.error (.invalid_argument "Invalid document_id"), srv)) ∨
    (document_id ∉ srv.StoredIds ∧ ∃ e, srv.SplitIntoWordsNoStop document = .error e ∧
      srv.AddDocument document_id document
        = (.error e, { srv with documents_ := (document_id, document) :: srv.documents_ })) ∨
    (document_id ∉ srv.StoredIds ∧ ∃ words_sv, srv.SplitIntoWordsNoStop document = .ok words_sv ∧
      srv.AddDocument document_id document
        = (.ok (),
            { srv with
              documents_ := (document_id, document) :: srv.documents_
              word_to_document_freqs_ :=
                words_sv.foldl
                  (fun freqs word_sv =>
                    AddWordFreq freqs word_sv document_id (1 / (words_sv.length : α)))
                  srv.word_to_document_freqs_ })) := by
  by_cases hstored : document_id ∈ srv.StoredIds
  · left
    refine ⟨hstored, ?_⟩
    have hcount : UnorderedMap.count srv.documents_ document_id > 0 :=
      (UnorderedMap.count_pos_iff _ _).2 hstored
    unfold AddDocument
    rw [if_pos hcount]
  · right
    have hcount : ¬ UnorderedMap.count srv.documents_ document_id > 0 := by
      rw [UnorderedMap.count_pos_iff]; exact hstored
    have hfind : UnorderedMap.find srv.documents_ document_id = none :=
      (UnorderedMap.find_eq_none_iff _ _).2 hstored
    have hsplit : SplitIntoWordsNoStop
        ({ srv with documents_ := UnorderedMap.emplace srv.documents_ document_id document })
        document = srv.SplitIntoWordsNoStop document :=
      SplitIntoWordsNoStopLoop_congr srv
        ({ srv with documents_ := UnorderedMap.emplace srv.documents_ document_id document })
        rfl _ _
    cases hw : srv.SplitIntoWordsNoStop document with
    | error e =>
      left
      refine ⟨hstored, e, rfl, ?_⟩
      unfold AddDocument
      rw [if_neg hcount]
      simp only [hsplit, hw]
      simp [UnorderedMap.emplace, hfind]
    | ok words_sv =>
      right
      refine ⟨hstored, words_sv, rfl, ?_⟩
      unfold AddDocument
      rw [if_neg hcount]
      simp only [hsplit, hw]
      simp [UnorderedMap.emplace, hfind]

theorem TermFreq_update [LinearOrderedField α] (postings : List (DocumentId × α))
    (document_id d : DocumentId) (x : α) :
    TermFreq (UnorderedMap.update postings document_id 0 (fun v => v + x)) d
      = TermFreq postings d + (if d = document_id then x else 0) := by
  unfold TermFreq
  rw [UnorderedMap.find_update]
  by_cases h : d = document_id
  · subst h; simp
  · simp [h]

theorem TermFreq_sum_assign [LinearOrderedField α]
    (freqs : List (Str × List (DocumentId × α))) (word_sv : Str) (document_id : DocumentId)
    (x : α) (h : UnorderedMap.find freqs word_sv ≠ none) :
    ((UnorderedMap.assign freqs word_sv
        (fun postings => UnorderedMap.update postings document_id 0 (fun v => v + x))).map
      fun e => TermFreq e.2 document_id).sum
      = (freqs.map fun e => TermFreq e.2 document_id).sum + x := by
  induction freqs with
  | nil => simp [UnorderedMap.find] at h
  | cons e freqs ih =>
    obtain ⟨w0, p0⟩ := e
    by_cases h0 : w0 = word_sv
    · simp only [UnorderedMap.assign, h0, if_true, List.map_cons, List.sum_cons,
        TermFreq_update]
      ring
    · have h' : UnorderedMap.find freqs word_sv ≠ none := by
        simpa [UnorderedMap.find, h0] using h
      simp only [UnorderedMap.assign, h0, if_false, List.map_cons, List.sum_cons, ih h']
      ring

theorem TermFreq_sum_AddWordFreq [LinearOrderedField α]
    (freqs : List (Str × List (DocumentId × α))) (word_sv : Str) (document_id : DocumentId)
    (x : α) :
    ((AddWordFreq freqs word_sv document_id x).map fun e => TermFreq e.2 document_id).sum
      = (freqs.map fun e => TermFreq e.2 document_id).sum + x := by
  unfold AddWordFreq UnorderedMap.update
  cases h : UnorderedMap.find freqs word_sv with
  | none =>
    simp only [List.map_cons, List.sum_cons, TermFreq_update]
    simp [TermFreq, UnorderedMap.find, add_comm]
  | some postings =>
    exact TermFreq_sum_assign freqs word_sv document_id x (by simp [h])

theorem TermFreq_sum_foldl [LinearOrderedField α] (words_sv : List Str)
    (freqs : List (Str × List (DocumentId × α))) (document_id : DocumentId) (x : α) :
    ((words_sv.foldl (fun freqs word_sv => AddWordFreq freqs word_sv document_id x) freqs).map
        fun e => TermFreq e.2 document_id).sum
      = (freqs.map fun e => TermFreq e.2 document_id).sum + (words_sv.length : α) * x := by
  induction words_sv generalizing freqs with
  | nil => simp
  | cons word_sv rest ih =>
    simp only [List.foldl_cons, ih, TermFreq_sum_AddWordFreq, List.length_cons]
    push_cast
    ring

theorem AddWordFreq_postings_ids [LinearOrderedField α]
    (freqs : List (Str × List (DocumentId × α))) (word_sv : Str) (document_id : DocumentId)
    (x : α) (P : DocumentId → Prop) (hP : P document_id)
    (h : ∀ e ∈ freqs, ∀ d ∈ e.2.map Prod.fst, P d) :
    ∀ e ∈ AddWordFreq freqs word_sv document_id x, ∀ d ∈ e.2.map Prod.fst, P d := by
  intro e he d hd
  rcases UnorderedMap.mem_update _ _ _ _ _ he with hmem | heq | ⟨v, hv, heq⟩
  · exact h e hmem d hd
  · subst heq
    rw [UnorderedMap.mem_keys_update] at hd
    rcases hd with hd | hd
    · exact hd ▸ hP
    · simp at hd
  · subst heq
    rw [UnorderedMap.mem_keys_update] at hd
    rcases hd with hd | hd
    · exact hd ▸ hP
    · exact h _ hv d hd

theorem foldl_AddWordFreq_postings_ids [LinearOrderedField α] (words_sv : List Str)
    (freqs : List (Str × List (DocumentId × α))) (document_id : DocumentId)
    (x : α) (P : DocumentId → Prop) (hP : P document_id)
    (h : ∀ e ∈ freqs, ∀ d ∈ e.2.map Prod.fst, P d) :
    ∀ e ∈ words_sv.foldl (fun freqs word_sv => AddWordFreq freqs word_sv document_id x) freqs,
      ∀ d ∈ e.2.map Prod.fst, P d := by
  induction words_sv generalizing freqs with
  | nil => exact h
  | cons word_sv rest ih =>
    exact ih _ (AddWordFreq_postings_ids freqs word_sv document_id x P hP h)

theorem create_word_to_document_freqs (stop_words : Str) (srv : SearchServer α)
    (h : SearchServer.create stop_words = .ok srv) :
    srv.word_to_document_freqs_ = [] ∧ srv.documents_ = [] := by
  unfold SearchServer.create at h
  simp only at h
  split at h
  · cases h
  · cases h
    exact ⟨rfl, rfl⟩

theorem Reachable.postingsStored [LinearOrderedField α] {srv : SearchServer α}
    (h : Reachable srv) : PostingsStored srv := by
  induction h with
  | default => intro e he; simp at he
  | create stop_words srv hc =>
    intro e he
    rw [(create_word_to_document_freqs stop_words srv hc).1] at he
    simp at he
  | AddDocument srv document_id document _ ih =>
    rcases AddDocument_cases srv document_id document with
      ⟨_, h⟩ | ⟨_, e, _, h⟩ | ⟨_, words_sv, _, h⟩
    · rw [h]; exact ih
    · rw [h]
      intro e he d hd
      exact List.mem_cons_of_mem _ (ih e he d hd)
    · rw [h]
      exact foldl_AddWordFreq_postings_ids words_sv _ document_id _
        (fun d => d ∈ document_id :: srv.StoredIds) (List.mem_cons_self _ _)
        (fun e he d hd => List.mem_cons_of_mem _ (ih e he d hd))

theorem TermFreqSum_eq_zero [LinearOrderedField α] (srv : SearchServer α)
    (h : PostingsStored srv) (document_id : DocumentId) (hfresh : document_id ∉ srv.StoredIds) :
    TermFreqSum srv document_id = 0 := by
  unfold TermFreqSum
  apply List.sum_eq_zero
  intro x hx
  obtain ⟨e, he, rfl⟩ := List.mem_map.1 hx
  have : UnorderedMap.find e.2 document_id = none :=
    (UnorderedMap.find_eq_none_iff _ _).2 (fun hd => hfresh (h e he _ hd))
  simp [TermFreq, this]

theorem SplitIntoWordsNoStopLoop_length (srv : SearchServer α) (rest words result : List Str)
    (h : SplitIntoWordsNoStopLoop srv rest words = .ok result) :
    result.length = words.length + (rest.filter fun w => !srv.IsStopWord w).length := by
  induction rest generalizing words with
  | nil =>
    simp only [SplitIntoWordsNoStopLoop, Except.ok.injEq] at h
    subst h; simp
  | cons word rest ih =>
    unfold SplitIntoWordsNoStopLoop at h
    by_cases hv : IsValidWord word = true
    · by_cases hs : srv.IsStopWord word = true
      · simp only [hv, hs, Bool.not_true, Bool.false_eq_true, if_false] at h
        rw [ih _ h]
        simp [List.filter_cons, hs]
      · simp only [Bool.not_eq_true] at hs
        simp only [hv, hs, Bool.not_true, Bool.not_false, Bool.false_eq_true, if_false,
          if_true] at h
        rw [ih _ h]
        simp [List.filter_cons, hs]
        omega
    · simp only [Bool.not_eq_true] at hv
      simp [hv] at h

/-! ## Facts about `Find` -/

theorem ComputeWordInverseDocumentFreq_eq [LinearOrderedField α] (log : α → α)
    (srv : SearchServer α) (word : Str) (postings : List (DocumentId × α))
    (h : UnorderedMap.find srv.word_to_document_freqs_ word = some postings) :
    srv.ComputeWordInverseDocumentFreq log word
      = .ok (log ((srv.documents_.length : α) * 1 / (postings.length : α))) := by
  simp [ComputeWordInverseDocumentFreq, UnorderedMap.at, h, UnorderedMap.size]

theorem PlusWordLambda_eq [LinearOrderedField α] (log : α → α) (srv : SearchServer α)
    (result : List (DocumentId × α)) (word : Str) :
    srv.PlusWordLambda log result word
      = .ok ((WordUpdates log srv word).foldl applyUpdate result) := by
  unfold PlusWordLambda WordUpdates
  cases h : UnorderedMap.find srv.word_to_document_freqs_ word with
  | none => rfl
  | some postings =>
    simp only [ComputeWordInverseDocumentFreq_eq log srv word postings h, List.foldl_map]
    simp only [Idf, h]
    rfl

theorem PlusWordLambdaPar_eq [LinearOrderedField α] (log : α → α) (srv : SearchServer α)
    (word : Str) :
    srv.PlusWordLambdaPar log word = .ok (WordUpdates log srv word) := by
  unfold PlusWordLambdaPar WordUpdates
  cases h : UnorderedMap.find srv.word_to_document_freqs_ word with
  | none => rfl
  | some postings =>
    simp only [ComputeWordInverseDocumentFreq_eq log srv word postings h]
    simp only [Idf, h]

theorem for_each_PlusWordLambda [LinearOrderedField α] (log : α → α) (srv : SearchServer α)
    (plus_words : List Str) (result : List (DocumentId × α)) :
    for_each (srv.PlusWordLambda log) plus_words result
      = .ok ((AllUpdates log srv plus_words).foldl applyUpdate result) := by
  induction plus_words generalizing result with
  | nil => rfl
  | cons word rest ih =>
    simp only [for_each, PlusWordLambda_eq, ih, AllUpdates, List.map_cons, List.flatten_cons,
      List.foldl_append]

theorem ParUpdates_eq [LinearOrderedField α] (log : α → α) (srv : SearchServer α)
    (plus_words : List Str) :
    srv.ParUpdates log plus_words = .ok (AllUpdates log srv plus_words) := by
  induction plus_words with
  | nil => rfl
  | cons word rest ih =>
    simp only [ParUpdates, PlusWordLambdaPar_eq, ih, AllUpdates, List.map_cons, List.flatten_cons]

theorem FindDocumentsWithPlusWords_eq [LinearOrderedField α] (log : α → α)
    (srv : SearchServer α) (policy : ExecutionPolicy α) (query : Query) :
    srv.FindDocumentsWithPlusWords log policy query = .ok (PlusWordsMap log srv policy query) := by
  cases policy with
  | seq => simp only [FindDocumentsWithPlusWords, for_each_PlusWordLambda, PlusWordsMap]
  | par interleave bucket_count =>
    simp only [FindDocumentsWithPlusWords, ParUpdates_eq, PlusWordsMap]

theorem FindAll_eq [LinearOrderedField α] (log : α → α) (srv : SearchServer α)
    (policy : ExecutionPolicy α) (query : Query) :
    srv.FindAll log policy query
      = .ok (ConvertToResults
          (srv.EraseDocumentsWithMinusWords (PlusWordsMap log srv policy query)
            query.minus_words)) := by
  simp only [FindAll, FindDocumentsWithPlusWords_eq]

theorem FindWith_eq [LinearOrderedField α] (log : α → α) (srv : SearchServer α)
    (policy : ExecutionPolicy α) (raw_query : Str) (results_num : Nat) (query : Query)
    (h : srv.ParseQuery raw_query = .ok query) :
    srv.FindWith log policy raw_query results_num
      = .ok (LeaveTopResults
          (ConvertToResults
            (srv.EraseDocumentsWithMinusWords (PlusWordsMap log srv policy query)
              query.minus_words))
          results_num) := by
  simp only [FindWith, h, FindAll_eq]

theorem FindWith_error [LinearOrderedField α] (log : α → α) (srv : SearchServer α)
    (policy : ExecutionPolicy α) (raw_query : Str) (results_num : Nat) (e : Exception)
    (h : srv.ParseQuery raw_query = .error e) :
    srv.FindWith log policy raw_query results_num = .error e := by
  simp only [FindWith, h]

/-! ### The accumulated relevance -/

theorem Total_perm [LinearOrderedField α] (us vs : List (DocumentId × α)) (h : us.Perm vs)
    (d : DocumentId) : Total us d = Total vs d :=
  (h.map _).sum_eq

theorem Total_eq_zero [LinearOrderedField α] (us : List (DocumentId × α)) (d : DocumentId)
    (h : d ∉ us.map Prod.fst) : Total us d = 0 := by
  unfold Total
  apply List.sum_eq_zero
  intro x hx
  obtain ⟨u, hu, rfl⟩ := List.mem_map.1 hx
  have : ¬ u.1 = d := fun hd => h (hd ▸ List.mem_map_of_mem Prod.fst hu)
  simp [this]

theorem getD_applyUpdate [LinearOrderedField α] (m : List (DocumentId × α))
    (u : DocumentId × α) (d : DocumentId) :
    (UnorderedMap.find (applyUpdate m u) d).getD 0
      = (UnorderedMap.find m d).getD 0 + (if u.1 = d then u.2 else 0) := by
  unfold applyUpdate
  rw [UnorderedMap.find_update]
  by_cases h : d = u.1
  · subst h; simp
  · have h' : ¬ u.1 = d := fun hd => h hd.symm
    simp [h, h']

theorem getD_foldl_applyUpdate [LinearOrderedField α] (us m : List (DocumentId × α))
    (d : DocumentId) :
    (UnorderedMap.find (us.foldl applyUpdate m) d).getD 0
      = (UnorderedMap.find m d).getD 0 + Total us d := by
  induction us generalizing m with
  | nil => simp [Total]
  | cons u us ih =>
    rw [List.foldl_cons, ih, getD_applyUpdate]
    simp only [Total, List.map_cons, List.sum_cons]
    ring

theorem keys_foldl_applyUpdate [LinearOrderedField α] (us m : List (DocumentId × α))
    (d : DocumentId) :
    d ∈ (us.foldl applyUpdate m).map Prod.fst ↔ d ∈ m.map Prod.fst ∨ d ∈ us.map Prod.fst := by
  induction us generalizing m with
  | nil => simp
  | cons u us ih =>
    rw [List.foldl_cons, ih]
    unfold applyUpdate
    rw [UnorderedMap.mem_keys_update]
    simp only [List.map_cons, List.mem_cons]
    tauto

theorem nodup_foldl_applyUpdate [LinearOrderedField α] (us m : List (DocumentId × α))
    (h : (m.map Prod.fst).Nodup) : ((us.foldl applyUpdate m).map Prod.fst).Nodup := by
  induction us generalizing m with
  | nil => exact h
  | cons u us ih =>
    rw [List.foldl_cons]
    exact ih _ (UnorderedMap.update_keys_nodup _ _ _ _ h)

/-- The value of a key of the sequential accumulator is the sum of the updates
made to it. -/
theorem find_foldl_applyUpdate [LinearOrderedField α] (us : List (DocumentId × α))
    (d : DocumentId) (r : α) (h : (d, r) ∈ us.foldl applyUpdate []) : r = Total us d := by
  have hfind := UnorderedMap.find_eq_some_of_mem _
    (nodup_foldl_applyUpdate us [] List.nodup_nil) d r h
  have := getD_foldl_applyUpdate us [] d
  rw [hfind] at this
  simpa [UnorderedMap.find] using this

theorem AddWordFreq_postings_nodup [LinearOrderedField α]
    (freqs : List (Str × List (DocumentId × α))) (word_sv : Str) (document_id : DocumentId)
    (x : α) (h : ∀ e ∈ freqs, (e.2.map Prod.fst).Nodup) :
    ∀ e ∈ AddWordFreq freqs word_sv document_id x, (e.2.map Prod.fst).Nodup := by
  intro e he
  rcases UnorderedMap.mem_update _ _ _ _ _ he with hmem | heq | ⟨v, hv, heq⟩
  · exact h e hmem
  · subst heq
    exact UnorderedMap.update_keys_nodup [] document_id 0 (fun v => v + x) (by simp)
  · subst heq
    exact UnorderedMap.update_keys_nodup v document_id 0 (fun v => v + x) (h _ hv)

theorem foldl_AddWordFreq_postings_nodup [LinearOrderedField α] (words_sv : List Str)
    (freqs : List (Str × List (DocumentId × α))) (document_id : DocumentId)
    (x : α) (h : ∀ e ∈ freqs, (e.2.map Prod.fst).Nodup) :
    ∀ e ∈ words_sv.foldl (fun freqs word_sv => AddWordFreq freqs word_sv document_id x) freqs,
      (e.2.map Prod.fst).Nodup := by
  induction words_sv generalizing freqs with
  | nil => exact h
  | cons word_sv rest ih =>
    exact ih _ (AddWordFreq_postings_nodup freqs word_sv document_id x h)

theorem Reachable.postingsNodup [LinearOrderedField α] {srv : SearchServer α}
    (h : Reachable srv) : PostingsNodup srv := by
  induction h with
  | default => intro e he; simp at he
  | create stop_words srv hc =>
    intro e he
    rw [(create_word_to_document_freqs stop_words srv hc).1] at he
    simp at he
  | AddDocument srv document_id document _ ih =>
    rcases AddDocument_cases srv document_id document with
      ⟨_, h⟩ | ⟨_, e, _, h⟩ | ⟨_, words_sv, _, h⟩
    · rw [h]; exact ih
    · rw [h]; exact ih
    · rw [h]
      exact foldl_AddWordFreq_postings_nodup words_sv _ document_id _ ih

theorem mem_foldl_erase (postings : List (DocumentId × α)) (m : List (DocumentId × α))
    (e : DocumentId × α) :
    e ∈ postings.foldl (fun m p => UnorderedMap.erase m p.1) m
      ↔ e ∈ m ∧ e.1 ∉ postings.map Prod.fst := by
  induction postings generalizing m with
  | nil => simp
  | cons p rest ih =>
    rw [List.foldl_cons, ih]
    simp only [UnorderedMap.erase, List.mem_filter, List.map_cons, List.mem_cons, not_or,
      decide_eq_true_eq]
    tauto

theorem mem_EraseDocumentsWithMinusWords (srv : SearchServer α) (minus_words : List Str)
    (m : List (DocumentId × α)) (e : DocumentId × α) :
    e ∈ srv.EraseDocumentsWithMinusWords m minus_words
      ↔ e ∈ m ∧ ∀ word ∈ minus_words, ∀ postings,
          UnorderedMap.find srv.word_to_document_freqs_ word = some postings →
          e.1 ∉ postings.map Prod.fst := by
  unfold EraseDocumentsWithMinusWords
  induction minus_words generalizing m with
  | nil => simp
  | cons word rest ih =>
    rw [List.foldl_cons, ih]
    cases h : UnorderedMap.find srv.word_to_document_freqs_ word with
    | none =>
      simp only [List.mem_cons, forall_eq_or_imp, h]
      constructor
      · rintro ⟨h1, h2⟩
        exact ⟨h1, (by intro postings hp; cases hp), h2⟩
      · rintro ⟨h1, _, h2⟩
        exact ⟨h1, h2⟩
    | some postings =>
      simp only [mem_foldl_erase, List.mem_cons, forall_eq_or_imp, h, Option.some.injEq]
      constructor
      · rintro ⟨⟨h1, h2⟩, h3⟩
        exact ⟨h1, (by intro p hp; subst hp; exact h2), h3⟩
      · rintro ⟨h1, h2, h3⟩
        exact ⟨⟨h1, h2 postings rfl⟩, h3⟩

theorem mem_ConvertToResults (m : List (DocumentId × α)) (r : Result α) :
    r ∈ ConvertToResults m ↔ (r.id, r.relevance) ∈ m := by
  unfold ConvertToResults
  constructor
  · intro h
    obtain ⟨e, he, rfl⟩ := List.mem_map.1 h
    exact he
  · intro h
    exact List.mem_map.2 ⟨_, h, rfl⟩

/-! ### Sorting and truncation -/

theorem sortInsert_perm {β : Type} (comp : β → β → Bool) (x : β) (l : List β) :
    (sortInsert comp x l).Perm (x :: l) := by
  induction l with
  | nil => exact List.Perm.refl _
  | cons y rest ih =>
    unfold sortInsert
    split
    · exact ((List.Perm.cons y ih).trans (List.Perm.swap x y rest))
    · exact List.Perm.refl _

theorem sort_perm {β : Type} (comp : β → β → Bool) (l : List β) : (sort comp l).Perm l := by
  induction l with
  | nil => exact List.Perm.refl _
  | cons x rest ih =>
    exact (sortInsert_perm comp x _).trans (List.Perm.cons x ih)

theorem sortInsert_pairwise [LinearOrderedField α] (x : Result α) (l : List (Result α))
    (h : l.Pairwise fun a b => a.relevance ≥ b.relevance) :
    (sortInsert (fun lhs rhs : Result α => decide (lhs.relevance > rhs.relevance)) x l).Pairwise
      fun a b => a.relevance ≥ b.relevance := by
  induction l with
  | nil => simp [sortInsert]
  | cons y rest ih =>
    rw [List.pairwise_cons] at h
    unfold sortInsert
    by_cases hc : y.relevance > x.relevance
    · simp only [hc, decide_True, if_true]
      rw [List.pairwise_cons]
      refine ⟨?_, ih h.2⟩
      intro a ha
      rcases List.mem_cons.1 ((sortInsert_perm _ x rest).subset ha) with rfl | ha
      · exact le_of_lt hc
      · exact h.1 a ha
    · simp only [hc, decide_False, Bool.false_eq_true, if_false]
      have hxy : x.relevance ≥ y.relevance := not_lt.1 hc
      rw [List.pairwise_cons, List.pairwise_cons]
      refine ⟨?_, h.1, h.2⟩
      intro a ha
      rcases List.mem_cons.1 ha with rfl | ha
      · exact hxy
      · exact le_trans (h.1 a ha) hxy

theorem sort_pairwise [LinearOrderedField α] (l : List (Result α)) :
    (sort (fun lhs rhs : Result α => decide (lhs.relevance > rhs.relevance)) l).Pairwise
      fun a b => a.relevance ≥ b.relevance := by
  induction l with
  | nil => simp [sort]
  | cons x rest ih => exact sortInsert_pairwise x _ ih

theorem LeaveTopResults_eq [LinearOrderedField α] (documents : List (Result α))
    (results_num : Nat) :
    LeaveTopResults documents results_num
      = (sort (fun lhs rhs : Result α => decide (lhs.relevance > rhs.relevance))
          documents).take results_num := by
  unfold LeaveTopResults
  simp only
  split
  · rfl
  · rw [List.take_of_length_le (by omega)]

/-! ### The two execution policies -/

theorem find_foldl_applyUpdate_eq [LinearOrderedField α] (us : List (DocumentId × α))
    (d : DocumentId) :
    UnorderedMap.find (us.foldl applyUpdate []) d
      = if d ∈ us.map Prod.fst then some (Total us d) else none := by
  by_cases hd : d ∈ us.map Prod.fst
  · rw [if_pos hd]
    have hkey : d ∈ (us.foldl applyUpdate []).map Prod.fst :=
      (keys_foldl_applyUpdate us [] d).2 (Or.inr hd)
    have hget := getD_foldl_applyUpdate us [] d
    cases hf : UnorderedMap.find (us.foldl applyUpdate []) d with
    | none => exact absurd hkey ((UnorderedMap.find_eq_none_iff _ _).1 hf)
    | some v =>
      rw [hf] at hget
      simp only [Option.getD_some, UnorderedMap.find, Option.getD_none, zero_add] at hget
      rw [hget]
  · rw [if_neg hd, UnorderedMap.find_eq_none_iff, keys_foldl_applyUpdate]
    simpa using hd

theorem find_foldl_applyUpdate_perm [LinearOrderedField α] (us vs : List (DocumentId × α))
    (h : us.Perm vs) (d : DocumentId) :
    UnorderedMap.find (us.foldl applyUpdate []) d = UnorderedMap.find (vs.foldl applyUpdate []) d := by
  rw [find_foldl_applyUpdate_eq, find_foldl_applyUpdate_eq, Total_perm us vs h d]
  have : d ∈ us.map Prod.fst ↔ d ∈ vs.map Prod.fst := (h.map Prod.fst).mem_iff
  simp only [this]

/-- With at least one bucket and a schedule that is a rearrangement of the
updates, the parallel overload builds a map with the lookups of the map of
the sequenced overload. -/
theorem find_PlusWordsMap_par [LinearOrderedField α] (log : α → α) (srv : SearchServer α)
    (query : Query) (interleave : List (DocumentId × α) → List (DocumentId × α))
    (bucket_count : Nat) (hbuckets : 1 ≤ bucket_count)
    (hinterleave : ∀ updates, (interleave updates).Perm updates) (d : DocumentId) :
    UnorderedMap.find (PlusWordsMap log srv (.par interleave bucket_count) query) d
      = UnorderedMap.find (PlusWordsMap log srv .seq query) d := by
  unfold PlusWordsMap
  simp only
  rw [ConcurrentMap.find_BuildOrdinaryMap]
  have hlen : (ConcurrentMap.create bucket_count : ConcurrentMap α).buckets_.length
      = bucket_count := by simp [ConcurrentMap.create]
  have hsim := ConcurrentMap.find_foldl_addAt (interleave (AllUpdates log srv query.plus_words))
    (ConcurrentMap.create bucket_count) [] (by omega)
    (by rw [hlen]; exact ConcurrentMap.Routed_replicate _ _ _)
    (by
      intro d
      rw [ConcurrentMap.create_flatten])
  rw [hsim d]
  exact find_foldl_applyUpdate_perm _ _ (hinterleave _) d

theorem PlusWordsMap_keys_nodup [LinearOrderedField α] (log : α → α) (srv : SearchServer α)
    (policy : ExecutionPolicy α) (query : Query) :
    ((PlusWordsMap log srv policy query).map Prod.fst).Nodup := by
  cases policy with
  | seq => exact nodup_foldl_applyUpdate _ [] List.nodup_nil
  | par interleave bucket_count => exact ConcurrentMap.BuildOrdinaryMap_keys_nodup _

theorem EraseDocumentsWithMinusWords_perm (srv : SearchServer α) (minus_words : List Str)
    (m₁ m₂ : List (DocumentId × α)) (h : m₁.Perm m₂) :
    (srv.EraseDocumentsWithMinusWords m₁ minus_words).Perm
      (srv.EraseDocumentsWithMinusWords m₂ minus_words) := by
  unfold EraseDocumentsWithMinusWords
  induction minus_words generalizing m₁ m₂ with
  | nil => exact h
  | cons word rest ih =>
    rw [List.foldl_cons, List.foldl_cons]
    apply ih
    cases UnorderedMap.find srv.word_to_document_freqs_ word with
    | none => exact h
    | some postings =>
      simp only
      clear ih
      induction postings generalizing m₁ m₂ with
      | nil => exact h
      | cons p postings ihp =>
        rw [List.foldl_cons, List.foldl_cons]
        exact ihp _ _ (h.filter _)

theorem sort_relevance_eq_of_perm [LinearOrderedField α] (l₁ l₂ : List (Result α))
    (h : l₁.Perm l₂) :
    (sort (fun lhs rhs : Result α => decide (lhs.relevance > rhs.relevance)) l₁).map
        (fun r => r.relevance)
      = (sort (fun lhs rhs : Result α => decide (lhs.relevance > rhs.relevance)) l₂).map
        (fun r => r.relevance) := by
  apply List.eq_of_perm_of_sorted (r := fun a b : α => a ≥ b)
  · exact (((sort_perm _ l₁).trans h).trans (sort_perm _ l₂).symm).map _
  · exact List.pairwise_map.2 (sort_pairwise l₁)
  · exact List.pairwise_map.2 (sort_pairwise l₂)

end SearchServer

/-! ## Facts about the parsing of a query -/

theorem UnorderedSet.mem_insert {K : Type} [DecidableEq K] (s : List K) (k k' : K) :
    k' ∈ UnorderedSet.insert s k ↔ k' = k ∨ k' ∈ s := by
  unfold UnorderedSet.insert
  split
  · constructor
    · intro h; exact Or.inr h
    · rintro (h | h)
      · subst h; assumption
      · exact h
  · simp

theorem UnorderedSet.nodup_insert {K : Type} [DecidableEq K] (s : List K) (k : K)
    (h : s.Nodup) : (UnorderedSet.insert s k).Nodup := by
  unfold UnorderedSet.insert
  split
  · exact h
  · exact List.nodup_cons.2 ⟨by assumption, h⟩

theorem head_dropWhile_space (l : Str) :
    ∀ c rest, l.dropWhile (fun c => decide (c = ' ')) = c :: rest → c ≠ ' ' := by
  intro c rest h
  induction l with
  | nil => simp at h
  | cons a l ih =>
    by_cases ha : a = ' '
    · simp only [List.dropWhile_cons, ha, decide_True, if_true] at h
      exact ih h
    · simp only [List.dropWhile_cons, ha, decide_False, Bool.false_eq_true, if_false,
        List.cons.injEq] at h
      exact h.1 ▸ ha

theorem SplitIntoWordsLoop_ne_nil (fuel : Nat) (rest : Str)
    (hrest : ∀ c cs, rest = c :: cs → c ≠ ' ') :
    ∀ word ∈ SplitIntoWordsLoop fuel rest, word ≠ [] := by
  induction fuel generalizing rest with
  | zero => intro word h; simp [SplitIntoWordsLoop] at h
  | succ fuel ih =>
    intro word h
    cases rest with
    | nil => simp [SplitIntoWordsLoop] at h
    | cons c cs =>
      simp only [SplitIntoWordsLoop, List.mem_cons] at h
      rcases h with h | h
      · have hc := hrest c cs rfl
        rw [h]
        simp [List.takeWhile_cons, hc]
      · exact ih _ (head_dropWhile_space _) word h

theorem length_dropWhile_dropWhile_lt (c : Char) (cs : Str) :
    (((c :: cs).dropWhile (fun c => decide (c ≠ ' '))).dropWhile
      (fun c => decide (c = ' '))).length ≤ cs.length := by
  by_cases hc : c = ' '
  · subst hc
    have h1 : ((' ' :: cs).dropWhile (fun c => decide (c ≠ ' '))) = ' ' :: cs := by
      simp [List.dropWhile_cons]
    rw [h1]
    have h2 : ((' ' :: cs).dropWhile (fun c => decide (c = ' ')))
        = cs.dropWhile (fun c => decide (c = ' ')) := by
      simp [List.dropWhile_cons]
    rw [h2]
    exact (List.dropWhile_sublist _).length_le
  · have h1 : ((c :: cs).dropWhile (fun c => decide (c ≠ ' ')))
        = cs.dropWhile (fun c => decide (c ≠ ' ')) := by
      simp [List.dropWhile_cons, hc]
    rw [h1]
    exact ((List.dropWhile_sublist _).trans (List.dropWhile_sublist _)).length_le

/-- The loop of `SplitIntoWords` never runs out of fuel: every amount of fuel
above the length of the remaining text gives the same words. -/
theorem SplitIntoWordsLoop_fuel (fuel fuel' : Nat) (rest : Str)
    (h : rest.length < fuel) (h' : rest.length < fuel') :
    SplitIntoWordsLoop fuel rest = SplitIntoWordsLoop fuel' rest := by
  induction fuel generalizing fuel' rest with
  | zero => omega
  | succ fuel ih =>
    cases fuel' with
    | zero => omega
    | succ fuel' =>
      cases rest with
      | nil => rfl
      | cons c cs =>
        simp only [SplitIntoWordsLoop, List.cons.injEq, true_and]
        have hlen := length_dropWhile_dropWhile_lt c cs
        simp only [List.length_cons] at h h'
        exact ih _ _ (by omega) (by omega)

theorem SplitIntoWords_ne_nil (str : Str) : ∀ word ∈ SplitIntoWords str, word ≠ [] :=
  SplitIntoWordsLoop_ne_nil _ _ (head_dropWhile_space str)

namespace SearchServer

variable {α : Type}

/-- What `ParseQueryWord` does with a token without a leading minus sign. -/
theorem ParseQueryWord_plus (srv : SearchServer α) (word : Str) (hne : word ≠ [])
    (hplus : word.head? ≠ some '-') :
    srv.ParseQueryWord word =
      if IsValidWord word = false then
        .error (.invalid_argument ("Query word " ++ String.mk word ++ " is invalid"))
      else .ok { data := word, is_minus := false, is_stop := srv.IsStopWord word } := by
  unfold ParseQueryWord
  simp [hne, hplus]

/-- What `ParseQueryWord` does with a token with a leading minus sign. -/
theorem ParseQueryWord_minus (srv : SearchServer α) (word : Str) :
    srv.ParseQueryWord ('-' :: word) =
      if word = [] ∨ word.head? = some '-' ∨ IsValidWord word = false then
        .error (.invalid_argument ("Query word " ++ String.mk word ++ " is invalid"))
      else .ok { data := word, is_minus := true, is_stop := srv.IsStopWord word } := by
  unfold ParseQueryWord
  simp

theorem head?_eq_minus (word : Str) (h : word.head? = some '-') :
    ∃ rest, word = '-' :: rest := by
  cases word with
  | nil => simp at h
  | cons c cs =>
    simp only [List.head?_cons, Option.some.injEq] at h
    exact ⟨cs, by rw [h]⟩

theorem ParseQueryWord_error_iff (srv : SearchServer α) (word : Str) (hne : word ≠ []) :
    (∃ what, srv.ParseQueryWord word = .error (.invalid_argument what)) ↔ MalformedToken word := by
  by_cases hm : word.head? = some '-'
  · obtain ⟨rest, rfl⟩ := head?_eq_minus word hm
    rw [ParseQueryWord_minus]
    have hvalid : IsValidWord ('-' :: rest) = IsValidWord rest := by
      simp [IsValidWord]
    unfold MalformedToken
    rw [← IsValidWord_eq_false_iff, hvalid]
    constructor
    · intro h
      split at h
      · rename_i hc
        rcases hc with hc | hc | hc
        · left; rw [hc]
        · right; left
          obtain ⟨r, hr⟩ := head?_eq_minus rest hc
          exact ⟨r, by rw [hr]⟩
        · right; right; exact hc
      · obtain ⟨what, hw⟩ := h
        cases hw
    · intro h
      have hc : rest = [] ∨ rest.head? = some '-' ∨ IsValidWord rest = false := by
        rcases h with h | ⟨r, h⟩ | h
        · left; simpa using h
        · right; left
          simp only [List.cons.injEq, true_and] at h
          rw [h]; rfl
        · right; right; exact h
      rw [if_pos hc]
      exact ⟨_, rfl⟩
  · rw [ParseQueryWord_plus srv word hne hm]
    unfold MalformedToken
    rw [← IsValidWord_eq_false_iff]
    constructor
    · intro h
      split at h
      · right; right; assumption
      · obtain ⟨what, hw⟩ := h
        cases hw
    · intro h
      have hv : IsValidWord word = false := by
        rcases h with h | ⟨r, h⟩ | h
        · rw [h] at hm; exact absurd rfl hm
        · rw [h] at hm; exact absurd rfl hm
        · exact h
      rw [if_pos hv]
      exact ⟨_, rfl⟩

theorem ParseQueryWord_ok_or_invalid (srv : SearchServer α) (word : Str) :
    (∃ query_word, srv.ParseQueryWord word = .ok query_word) ∨
    (∃ what, srv.ParseQueryWord word = .error (.invalid_argument what)) := by
  by_cases hne : word = []
  · right
    unfold ParseQueryWord
    rw [if_pos hne]
    exact ⟨_, rfl⟩
  · by_cases hm : word.head? = some '-'
    · obtain ⟨rest, rfl⟩ := head?_eq_minus word hm
      rw [ParseQueryWord_minus]
      split
      · exact Or.inr ⟨_, rfl⟩
      · exact Or.inl ⟨_, rfl⟩
    · rw [ParseQueryWord_plus srv word hne hm]
      split
      · exact Or.inr ⟨_, rfl⟩
      · exact Or.inl ⟨_, rfl⟩

theorem ParseQueryLoop_error_iff (srv : SearchServer α) (rest plus_words minus_words : List Str) :
    (∃ what, srv.ParseQueryLoop rest plus_words minus_words = .error (.invalid_argument what))
      ↔ ∃ word ∈ rest, ∃ what, srv.ParseQueryWord word = .error (.invalid_argument what) := by
  induction rest generalizing plus_words minus_words with
  | nil => simp [ParseQueryLoop]
  | cons word rest ih =>
    unfold ParseQueryLoop
    rcases ParseQueryWord_ok_or_invalid srv word with ⟨qw, hqw⟩ | ⟨what, hwhat⟩
    · simp only [hqw, List.mem_cons, exists_eq_or_imp]
      have hno : ¬ ∃ what, (Except.ok qw : Except Exception QueryWord)
          = .error (.invalid_argument what) := by
        rintro ⟨w, hw⟩; cases hw
      split
      · split
        · rw [ih]; simp [hno]
        · rw [ih]; simp [hno]
      · rw [ih]; simp [hno]
    · simp only [hwhat, List.mem_cons, exists_eq_or_imp]
      constructor
      · intro _; exact Or.inl ⟨what, rfl⟩
      · intro _; exact ⟨what, rfl⟩

theorem ParseQueryLoop_ok_or_invalid (srv : SearchServer α)
    (rest plus_words minus_words : List Str) :
    (∃ query, srv.ParseQueryLoop rest plus_words minus_words = .ok query) ∨
    (∃ what, srv.ParseQueryLoop rest plus_words minus_words = .error (.invalid_argument what)) := by
  induction rest generalizing plus_words minus_words with
  | nil => exact Or.inl ⟨_, rfl⟩
  | cons word rest ih =>
    unfold ParseQueryLoop
    rcases ParseQueryWord_ok_or_invalid srv word with ⟨qw, hqw⟩ | ⟨what, hwhat⟩
    · simp only [hqw]
      split
      · split
        · exact ih _ _
        · exact ih _ _
      · exact ih _ _
    · simp only [hwhat]
      exact Or.inr ⟨what, rfl⟩

theorem ParseQueryLoop_cons_error (srv : SearchServer α) (word : Str)
    (rest plus_words minus_words : List Str) (e : Exception)
    (h : srv.ParseQueryWord word = .error e) :
    srv.ParseQueryLoop (word :: rest) plus_words minus_words = .error e := by
  rw [ParseQueryLoop, h]

theorem ParseQueryLoop_cons_stop (srv : SearchServer α) (word data : Str) (is_minus : Bool)
    (rest plus_words minus_words : List Str)
    (h : srv.ParseQueryWord word = .ok { data := data, is_minus := is_minus, is_stop := true }) :
    srv.ParseQueryLoop (word :: rest) plus_words minus_words
      = srv.ParseQueryLoop rest plus_words minus_words := by
  rw [ParseQueryLoop, h]
  rfl

theorem ParseQueryLoop_cons_minus (srv : SearchServer α) (word data : Str)
    (rest plus_words minus_words : List Str)
    (h : srv.ParseQueryWord word = .ok { data := data, is_minus := true, is_stop := false }) :
    srv.ParseQueryLoop (word :: rest) plus_words minus_words
      = srv.ParseQueryLoop rest plus_words (UnorderedSet.insert minus_words data) := by
  rw [ParseQueryLoop, h]
  rfl

theorem ParseQueryLoop_cons_plus (srv : SearchServer α) (word data : Str)
    (rest plus_words minus_words : List Str)
    (h : srv.ParseQueryWord word = .ok { data := data, is_minus := false, is_stop := false }) :
    srv.ParseQueryLoop (word :: rest) plus_words minus_words
      = srv.ParseQueryLoop rest (UnorderedSet.insert plus_words data) minus_words := by
  rw [ParseQueryLoop, h]
  rfl

/-- The plus words collected by the loop of `ParseQuery`. -/
theorem ParseQueryLoop_plus_words (srv : SearchServer α)
    (rest plus_words minus_words : List Str) (query : Query)
    (h : srv.ParseQueryLoop rest plus_words minus_words = .ok query) :
    (∀ w, w ∈ query.plus_words ↔
      w ∈ plus_words ∨ (w ∈ rest ∧ w.head? ≠ some '-' ∧ srv.IsStopWord w = false)) ∧
    (plus_words.Nodup → query.plus_words.Nodup) := by
  induction rest generalizing plus_words minus_words with
  | nil =>
    simp only [ParseQueryLoop, Except.ok.injEq] at h
    subst h
    simp
  | cons word rest ih =>
    by_cases hne : word = []
    · have : srv.ParseQueryWord word = .error (.invalid_argument "Query word is empty") := by
        unfold ParseQueryWord; rw [if_pos hne]
      rw [ParseQueryLoop_cons_error srv word rest _ _ _ this] at h
      cases h
    · by_cases hm : word.head? = some '-'
      · obtain ⟨w', rfl⟩ := head?_eq_minus word hm
        have hrest : ∀ w, (w ∈ ('-' :: w') :: rest ∧ w.head? ≠ some '-' ∧
            srv.IsStopWord w = false) ↔ (w ∈ rest ∧ w.head? ≠ some '-' ∧
            srv.IsStopWord w = false) := by
          intro w
          constructor
          · rintro ⟨hw, hh, hs⟩
            rcases List.mem_cons.1 hw with rfl | hw
            · exact absurd rfl hh
            · exact ⟨hw, hh, hs⟩
          · rintro ⟨hw, hh, hs⟩
            exact ⟨List.mem_cons_of_mem _ hw, hh, hs⟩
        simp only [hrest]
        have hword := ParseQueryWord_minus srv w'
        by_cases hc : w' = [] ∨ w'.head? = some '-' ∨ IsValidWord w' = false
        · rw [if_pos hc] at hword
          rw [ParseQueryLoop_cons_error srv _ rest _ _ _ hword] at h
          cases h
        · rw [if_neg hc] at hword
          cases hs : srv.IsStopWord w' with
          | true =>
            rw [hs] at hword
            rw [ParseQueryLoop_cons_stop srv _ _ _ rest _ _ hword] at h
            exact ih _ _ h
          | false =>
            rw [hs] at hword
            rw [ParseQueryLoop_cons_minus srv _ _ rest _ _ hword] at h
            exact ih _ _ h
      · have hword := ParseQueryWord_plus srv word hne hm
        by_cases hc : IsValidWord word = false
        · rw [if_pos hc] at hword
          rw [ParseQueryLoop_cons_error srv _ rest _ _ _ hword] at h
          cases h
        · rw [if_neg hc] at hword
          cases hs : srv.IsStopWord word with
          | true =>
            rw [hs] at hword
            rw [ParseQueryLoop_cons_stop srv _ _ _ rest _ _ hword] at h
            obtain ⟨h1, h2⟩ := ih _ _ h
            refine ⟨?_, h2⟩
            intro w
            rw [h1]
            constructor
            · rintro (hw | ⟨hw, hh, hst⟩)
              · exact Or.inl hw
              · exact Or.inr ⟨List.mem_cons_of_mem _ hw, hh, hst⟩
            · rintro (hw | ⟨hw, hh, hst⟩)
              · exact Or.inl hw
              · rcases List.mem_cons.1 hw with rfl | hw
                · rw [hs] at hst; cases hst
                · exact Or.inr ⟨hw, hh, hst⟩
          | false =>
            rw [hs] at hword
            rw [ParseQueryLoop_cons_plus srv _ _ rest _ _ hword] at h
            obtain ⟨h1, h2⟩ := ih _ _ h
            refine ⟨?_, fun hnd => h2 (UnorderedSet.nodup_insert _ _ hnd)⟩
            intro w
            rw [h1, UnorderedSet.mem_insert]
            constructor
            · rintro ((hw | hw) | ⟨hw, hh, hst⟩)
              · subst hw
                exact Or.inr ⟨List.mem_cons_self _ _, hm, hs⟩
              · exact Or.inl hw
              · exact Or.inr ⟨List.mem_cons_of_mem _ hw, hh, hst⟩
            · rintro (hw | ⟨hw, hh, hst⟩)
              · exact Or.inl (Or.inr hw)
              · rcases List.mem_cons.1 hw with rfl | hw
                · exact Or.inl (Or.inl rfl)
                · exact Or.inr ⟨hw, hh, hst⟩

/-- The minus words collected by the loop of `ParseQuery`. -/
theorem ParseQueryLoop_minus_words (srv : SearchServer α)
    (rest plus_words minus_words : List Str) (query : Query)
    (h : srv.ParseQueryLoop rest plus_words minus_words = .ok query) :
    (∀ w, w ∈ query.minus_words ↔
      w ∈ minus_words ∨ (('-' :: w) ∈ rest ∧ srv.IsStopWord w = false)) ∧
    (minus_words.Nodup → query.minus_words.Nodup) := by
  induction rest generalizing plus_words minus_words with
  | nil =>
    simp only [ParseQueryLoop, Except.ok.injEq] at h
    subst h
    simp
  | cons word rest ih =>
    by_cases hne : word = []
    · have : srv.ParseQueryWord word = .error (.invalid_argument "Query word is empty") := by
        unfold ParseQueryWord; rw [if_pos hne]
      rw [ParseQueryLoop_cons_error srv word rest _ _ _ this] at h
      cases h
    · by_cases hm : word.head? = some '-'
      · obtain ⟨w', rfl⟩ := head?_eq_minus word hm
        have hword := ParseQueryWord_minus srv w'
        by_cases hc : w' = [] ∨ w'.head? = some '-' ∨ IsValidWord w' = false
        · rw [if_pos hc] at hword
          rw [ParseQueryLoop_cons_error srv _ rest _ _ _ hword] at h
          cases h
        · rw [if_neg hc] at hword
          cases hs : srv.IsStopWord w' with
          | true =>
            rw [hs] at hword
            rw [ParseQueryLoop_cons_stop srv _ _ _ rest _ _ hword] at h
            obtain ⟨h1, h2⟩ := ih _ _ h
            refine ⟨?_, h2⟩
            intro w
            rw [h1]
            constructor
            · rintro (hw | ⟨hw, hst⟩)
              · exact Or.inl hw
              · exact Or.inr ⟨List.mem_cons_of_mem _ hw, hst⟩
            · rintro (hw | ⟨hw, hst⟩)
              · exact Or.inl hw
              · rcases List.mem_cons.1 hw with heq | hw
                · simp only [List.cons.injEq, true_and] at heq
                  subst heq
                  rw [hs] at hst; cases hst
                · exact Or.inr ⟨hw, hst⟩
          | false =>
            rw [hs] at hword
            rw [ParseQueryLoop_cons_minus srv _ _ rest _ _ hword] at h
            obtain ⟨h1, h2⟩ := ih _ _ h
            refine ⟨?_, fun hnd => h2 (UnorderedSet.nodup_insert _ _ hnd)⟩
            intro w
            rw [h1, UnorderedSet.mem_insert]
            constructor
            · rintro ((hw | hw) | ⟨hw, hst⟩)
              · subst hw
                exact Or.inr ⟨List.mem_cons_self _ _, hs⟩
              · exact Or.inl hw
              · exact Or.inr ⟨List.mem_cons_of_mem _ hw, hst⟩
            · rintro (hw | ⟨hw, hst⟩)
              · exact Or.inl (Or.inr hw)
              · rcases List.mem_cons.1 hw with heq | hw
                · simp only [List.cons.injEq, true_and] at heq
                  exact Or.inl (Or.inl heq)
                · exact Or.inr ⟨hw, hst⟩
      · have hrest : ∀ w, (('-' :: w) ∈ word :: rest ∧ srv.IsStopWord w = false) ↔
            (('-' :: w) ∈ rest ∧ srv.IsStopWord w = false) := by
          intro w
          constructor
          · rintro ⟨hw, hs⟩
            rcases List.mem_cons.1 hw with heq | hw
            · rw [← heq] at hm; exact absurd rfl hm
            · exact ⟨hw, hs⟩
          · rintro ⟨hw, hs⟩
            exact ⟨List.mem_cons_of_mem _ hw, hs⟩
        simp only [hrest]
        have hword := ParseQueryWord_plus srv word hne hm
        by_cases hc : IsValidWord word = false
        · rw [if_pos hc] at hword
          rw [ParseQueryLoop_cons_error srv _ rest _ _ _ hword] at h
          cases h
        · rw [if_neg hc] at hword
          cases hs : srv.IsStopWord word with
          | true =>
            rw [hs] at hword
            rw [ParseQueryLoop_cons_stop srv _ _ _ rest _ _ hword] at h
            exact ih _ _ h
          | false =>
            rw [hs] at hword
            rw [ParseQueryLoop_cons_plus srv _ _ rest _ _ hword] at h
            exact ih _ _ h

/-- The minus words of a parsed query are the tokens with a leading minus sign,
without that sign, that are not stop words. -/
theorem ParseQuery_minus_words (srv : SearchServer α) (raw_query : Str) (query : Query)
    (h : srv.ParseQuery raw_query = .ok query) (w : Str) :
    w ∈ query.minus_words ↔
      ('-' :: w) ∈ SplitIntoWords raw_query ∧ srv.IsStopWord w = false := by
  rw [(ParseQueryLoop_minus_words srv _ _ _ _ h).1]
  simp

/-- The plus words of a parsed query are the distinct plus terms of the raw
query, in some order. -/
theorem ParseQuery_plus_words_perm (srv : SearchServer α) (raw_query : Str) (query : Query)
    (h : srv.ParseQuery raw_query = .ok query) :
    query.plus_words.Perm (PlusTerms srv raw_query) := by
  obtain ⟨h1, h2⟩ := ParseQueryLoop_plus_words srv _ _ _ _ h
  unfold PlusTerms
  rw [List.perm_ext_iff_of_nodup (h2 List.nodup_nil) (List.nodup_dedup _)]
  intro w
  rw [h1]
  simp [List.mem_dedup, List.mem_filter]

/-- `ParseQuery` throws exactly when a token of the query is malformed. -/
theorem ParseQuery_error_iff (srv : SearchServer α) (text : Str) :
    (∃ what, srv.ParseQuery text = .error (.invalid_argument what))
      ↔ ∃ word ∈ SplitIntoWords text, MalformedToken word := by
  unfold ParseQuery
  rw [ParseQueryLoop_error_iff]
  constructor
  · rintro ⟨word, hw, h⟩
    exact ⟨word, hw, (ParseQueryWord_error_iff srv word (SplitIntoWords_ne_nil text word hw)).1 h⟩
  · rintro ⟨word, hw, h⟩
    exact ⟨word, hw, (ParseQueryWord_error_iff srv word (SplitIntoWords_ne_nil text word hw)).2 h⟩

end SearchServer

/-! ## Facts about `SplitIntoWords` -/

theorem splitOn_space_cons (c : Char) (cs : Str) :
    (c :: cs).splitOn ' ' =
      if c = ' ' then [] :: cs.splitOn ' ' else (cs.splitOn ' ').modifyHead (List.cons c) := by
  unfold List.splitOn
  rw [List.splitOnP_cons]
  by_cases h : c = ' '
  · simp [h]
  · simp [h]

/-- The first piece of a split is the text up to the first space. -/
theorem splitOn_space_eq (l : Str) :
    l.splitOn ' ' = l.takeWhile (fun c => decide (c ≠ ' ')) ::
      (match l.dropWhile (fun c => decide (c ≠ ' ')) with
        | [] => []
        | _ :: tl => tl.splitOn ' ') := by
  induction l with
  | nil => rfl
  | cons c cs ih =>
    rw [splitOn_space_cons]
    by_cases h : c = ' '
    · subst h
      simp [List.takeWhile_cons, List.dropWhile_cons]
    · rw [if_neg h, ih]
      simp [List.takeWhile_cons, List.dropWhile_cons, h]

theorem SplitAtSpaces_nil : SplitAtSpaces [] = [] := by
  simp [SplitAtSpaces]

theorem SplitAtSpaces_space (cs : Str) : SplitAtSpaces (' ' :: cs) = SplitAtSpaces cs := by
  unfold SplitAtSpaces
  rw [splitOn_space_cons]
  simp

theorem SplitAtSpaces_dropWhile (l : Str) :
    SplitAtSpaces (l.dropWhile (fun c => decide (c = ' '))) = SplitAtSpaces l := by
  induction l with
  | nil => rfl
  | cons c cs ih =>
    by_cases h : c = ' '
    · subst h
      rw [SplitAtSpaces_space]
      simpa [List.dropWhile_cons] using ih
    · simp [List.dropWhile_cons, h]

theorem head_dropWhile_not_space (l : Str) (d : Char) (tl : Str)
    (h : l.dropWhile (fun c => decide (c ≠ ' ')) = d :: tl) : d = ' ' := by
  induction l with
  | nil => simp at h
  | cons c cs ih =>
    by_cases hc : c = ' '
    · subst hc
      simp only [List.dropWhile_cons, ne_eq, not_true_eq_false, decide_False, Bool.false_eq_true,
        if_false, List.cons.injEq] at h
      exact h.1.symm
    · simp only [List.dropWhile_cons, ne_eq, hc, not_false_eq_true, decide_True, if_true] at h
      exact ih h

/-- The words of a text that begins with a character other than the space: its
first run, then the words of what follows the run. -/
theorem SplitAtSpaces_cons (c : Char) (cs : Str) (hc : c ≠ ' ') :
    SplitAtSpaces (c :: cs) = (c :: cs).takeWhile (fun c => decide (c ≠ ' ')) ::
      SplitAtSpaces ((c :: cs).dropWhile (fun c => decide (c ≠ ' '))) := by
  have hne : (c :: cs).takeWhile (fun c => decide (c ≠ ' ')) ≠ [] := by
    simp [List.takeWhile_cons, hc]
  have hsplit := splitOn_space_eq (c :: cs)
  cases hd : (c :: cs).dropWhile (fun c => decide (c ≠ ' ')) with
  | nil =>
    rw [hd] at hsplit
    simp only at hsplit
    rw [SplitAtSpaces_nil]
    unfold SplitAtSpaces
    rw [hsplit]
    simp [hne, hc]
  | cons d tl =>
    have hdsp := head_dropWhile_not_space _ d tl hd
    subst hdsp
    rw [hd] at hsplit
    simp only at hsplit
    rw [SplitAtSpaces_space]
    unfold SplitAtSpaces
    rw [hsplit, List.filter_cons]
    simp [hne, hc]

/-- With enough fuel the loop of `SplitIntoWords` gives the words of the
specification. -/
theorem SplitIntoWordsLoop_eq (fuel : Nat) (rest : Str) (hfuel : rest.length < fuel)
    (hrest : ∀ c cs, rest = c :: cs → c ≠ ' ') :
    SplitIntoWordsLoop fuel rest = SplitAtSpaces rest := by
  induction fuel generalizing rest with
  | zero => omega
  | succ fuel ih =>
    cases rest with
    | nil => rw [SplitAtSpaces_nil]; rfl
    | cons c cs =>
      have hc := hrest c cs rfl
      rw [SplitAtSpaces_cons c cs hc, ← SplitAtSpaces_dropWhile]
      simp only [SplitIntoWordsLoop, List.cons.injEq, true_and]
      have hlen := length_dropWhile_dropWhile_lt c cs
      simp only [List.length_cons] at hfuel
      exact ih _ (by omega) (head_dropWhile_space _)

theorem SplitIntoWords_eq (str : Str) : SplitIntoWords str = SplitAtSpaces str := by
  unfold SplitIntoWords
  rw [SplitIntoWordsLoop_eq _ _ _ (head_dropWhile_space str), SplitAtSpaces_dropWhile]
  have := (List.dropWhile_sublist (fun c => decide (c = ' ')) (l := str)).length_le
  omega

theorem SplitIntoWordsLoop_no_space (fuel : Nat) (rest : Str) :
    ∀ word ∈ SplitIntoWordsLoop fuel rest, ' ' ∉ word := by
  induction fuel generalizing rest with
  | zero => intro word h; simp [SplitIntoWordsLoop] at h
  | succ fuel ih =>
    intro word h
    cases rest with
    | nil => simp [SplitIntoWordsLoop] at h
    | cons c cs =>
      simp only [SplitIntoWordsLoop, List.mem_cons] at h
      rcases h with h | h
      · rw [h]
        intro hmem
        have := List.mem_takeWhile_imp hmem
        simp at this
      · exact ih _ word h

theorem SplitIntoWords_no_space (str : Str) : ∀ word ∈ SplitIntoWords str, ' ' ∉ word :=
  SplitIntoWordsLoop_no_space _ _

/-! ## Facts about the constructor -/

theorem mem_foldl_UniqueNonEmptyStrings (strings acc : List Str) (w : Str) :
    w ∈ strings.foldl (fun non_empty_strings str =>
        if str ≠ [] then UnorderedSet.insert non_empty_strings str else non_empty_strings) acc
      ↔ w ∈ acc ∨ (w ∈ strings ∧ w ≠ []) := by
  induction strings generalizing acc with
  | nil => simp
  | cons str rest ih =>
    rw [List.foldl_cons, ih]
    by_cases h : str = []
    · subst h
      simp only [ne_eq, not_true_eq_false, if_false, List.mem_cons]
      constructor
      · rintro (hw | ⟨hw, hne⟩)
        · exact Or.inl hw
        · exact Or.inr ⟨Or.inr hw, hne⟩
      · rintro (hw | ⟨hw | hw, hne⟩)
        · exact Or.inl hw
        · exact absurd hw hne
        · exact Or.inr ⟨hw, hne⟩
    · simp only [ne_eq, h, not_false_eq_true, if_true, UnorderedSet.mem_insert, List.mem_cons]
      constructor
      · rintro ((hw | hw) | ⟨hw, hne⟩)
        · exact Or.inr ⟨Or.inl hw, hw ▸ h⟩
        · exact Or.inl hw
        · exact Or.inr ⟨Or.inr hw, hne⟩
      · rintro (hw | ⟨hw | hw, hne⟩)
        · exact Or.inl (Or.inr hw)
        · exact Or.inl (Or.inl hw)
        · exact Or.inr ⟨hw, hne⟩

theorem mem_UniqueNonEmptyStrings (strings : List Str) (w : Str) :
    w ∈ UniqueNonEmptyStrings strings ↔ w ∈ strings ∧ w ≠ [] := by
  unfold UniqueNonEmptyStrings
  rw [mem_foldl_UniqueNonEmptyStrings]
  simp

theorem mem_foldl_insert {K : Type} [DecidableEq K] (l acc : List K) (k : K) :
    k ∈ l.foldl (fun s x => UnorderedSet.insert s x) acc ↔ k ∈ acc ∨ k ∈ l := by
  induction l generalizing acc with
  | nil => simp
  | cons x rest ih =>
    rw [List.foldl_cons, ih, UnorderedSet.mem_insert, List.mem_cons]
    tauto

theorem nodup_foldl_insert {K : Type} [DecidableEq K] (l acc : List K) (h : acc.Nodup) :
    (l.foldl (fun s x => UnorderedSet.insert s x) acc).Nodup := by
  induction l generalizing acc with
  | nil => exact h
  | cons x rest ih =>
    rw [List.foldl_cons]
    exact ih _ (UnorderedSet.nodup_insert _ _ h)

namespace SearchServer

variable {α : Type}

theorem IsStopWord_iff (srv : SearchServer α) (word : Str) :
    srv.IsStopWord word = true ↔ word ∈ srv.stop_words_ := by
  unfold IsStopWord UnorderedSet.count
  by_cases h : word ∈ srv.stop_words_
  · simp [h]
  · simp [h]

/-- The two ways in which the constructor ends. -/
theorem create_cases (stop_words : Str) :
    (HasInvalidWord stop_words ∧
      (create stop_words : Except Exception (SearchServer α))
        = .error (.invalid_argument "Some of stop words are invalid")) ∨
    (¬ HasInvalidWord stop_words ∧ ∃ srv : SearchServer α, create stop_words = .ok srv ∧
      (∀ w, w ∈ srv.stop_words_ ↔ w ∈ SplitIntoWords stop_words) ∧ srv.stop_words_.Nodup ∧
      srv.word_to_document_freqs_ = [] ∧ srv.documents_ = []) := by
  have hall : (UniqueNonEmptyStrings (SplitIntoWords stop_words)).all IsValidWord = true
      ↔ ¬ HasInvalidWord stop_words := by
    rw [List.all_eq_true]
    unfold HasInvalidWord
    constructor
    · rintro h ⟨word, hw, hc⟩
      have hv := h word ((mem_UniqueNonEmptyStrings _ _).2
        ⟨hw, SplitIntoWords_ne_nil stop_words word hw⟩)
      rw [(IsValidWord_eq_false_iff word).2 hc] at hv
      cases hv
    · intro h word hw
      by_contra hv
      simp only [Bool.not_eq_true] at hv
      exact h ⟨word, ((mem_UniqueNonEmptyStrings _ _).1 hw).1, (IsValidWord_eq_false_iff word).1 hv⟩
  by_cases hbad : HasInvalidWord stop_words
  · left
    refine ⟨hbad, ?_⟩
    have : (UniqueNonEmptyStrings (SplitIntoWords stop_words)).all IsValidWord = false := by
      cases hv : (UniqueNonEmptyStrings (SplitIntoWords stop_words)).all IsValidWord with
      | false => rfl
      | true => exact absurd hbad (hall.1 hv)
    simp [create, this]
  · right
    refine ⟨hbad,
      { stop_words_ := (UniqueNonEmptyStrings (SplitIntoWords stop_words)).foldl
          (fun s stop_word_sv => UnorderedSet.insert s stop_word_sv) [] },
      ?_, ?_, ?_, rfl, rfl⟩
    · simp only [create, hall.2 hbad, Bool.not_true, Bool.false_eq_true, if_false]
    · intro w
      simp only
      rw [mem_foldl_insert, mem_UniqueNonEmptyStrings]
      constructor
      · rintro (h | ⟨h, _⟩)
        · simp at h
        · exact h
      · intro h
        exact Or.inr ⟨h, SplitIntoWords_ne_nil stop_words w h⟩
    · exact nodup_foldl_insert _ _ List.nodup_nil

end SearchServer

/-! ## Facts about the postings written by `AddDocument` -/

namespace SearchServer

variable {α : Type}

/-- What `SplitIntoWordsNoStop` returns when it does not throw. -/
theorem SplitIntoWordsNoStopLoop_ok (srv : SearchServer α) (rest words result : List Str)
    (h : SplitIntoWordsNoStopLoop srv rest words = .ok result) :
    result = words ++ rest.filter (fun w => !srv.IsStopWord w) ∧
    ∀ w ∈ rest, IsValidWord w = true := by
  induction rest generalizing words with
  | nil =>
    simp only [SplitIntoWordsNoStopLoop, Except.ok.injEq] at h
    subst h; simp
  | cons word rest ih =>
    unfold SplitIntoWordsNoStopLoop at h
    by_cases hv : IsValidWord word = true
    · by_cases hs : srv.IsStopWord word = true
      · simp only [hv, hs, Bool.not_true, Bool.false_eq_true, if_false] at h
        obtain ⟨h1, h2⟩ := ih _ h
        refine ⟨by rw [h1]; simp [List.filter_cons, hs], ?_⟩
        intro w hw
        rcases List.mem_cons.1 hw with rfl | hw
        · exact hv
        · exact h2 w hw
      · simp only [Bool.not_eq_true] at hs
        simp only [hv, hs, Bool.not_true, Bool.not_false, Bool.false_eq_true, if_false,
          if_true] at h
        obtain ⟨h1, h2⟩ := ih _ h
        refine ⟨by rw [h1]; simp [List.filter_cons, hs], ?_⟩
        intro w hw
        rcases List.mem_cons.1 hw with rfl | hw
        · exact hv
        · exact h2 w hw
    · simp only [Bool.not_eq_true] at hv
      simp [hv] at h

theorem SplitIntoWordsNoStop_ok (srv : SearchServer α) (text : Str) (words_sv : List Str)
    (h : srv.SplitIntoWordsNoStop text = .ok words_sv) :
    words_sv = (SplitIntoWords text).filter (fun w => !srv.IsStopWord w) ∧
    ∀ w ∈ SplitIntoWords text, IsValidWord w = true := by
  have := SplitIntoWordsNoStopLoop_ok srv _ _ _ h
  simpa using this

theorem PostingOf_AddWordFreq [Zero α] [Add α]
    (freqs : List (Str × List (DocumentId × α))) (word_sv w : Str)
    (document_id d : DocumentId) (x : α) :
    PostingOf (AddWordFreq freqs word_sv document_id x) w d
      = if w = word_sv ∧ d = document_id then
          some ((PostingOf freqs word_sv document_id).getD 0 + x)
        else PostingOf freqs w d := by
  unfold PostingOf AddWordFreq
  rw [UnorderedMap.find_update]
  by_cases hw : w = word_sv
  · subst hw
    simp only [if_true, Option.some_bind, true_and]
    rw [UnorderedMap.find_update]
    cases hf : UnorderedMap.find freqs w with
    | none =>
      by_cases hd : d = document_id
      · subst hd; simp [UnorderedMap.find]
      · simp [hd, UnorderedMap.find]
    | some postings =>
      by_cases hd : d = document_id
      · subst hd; simp
      · simp [hd]
  · simp only [hw, if_false, false_and]

theorem PostingOf_foldl_AddWordFreq [LinearOrderedField α] (words_sv : List Str)
    (freqs : List (Str × List (DocumentId × α))) (w : Str) (document_id d : DocumentId)
    (x : α) :
    PostingOf (words_sv.foldl (fun freqs word_sv => AddWordFreq freqs word_sv document_id x)
        freqs) w d
      = if w ∈ words_sv ∧ d = document_id then
          some ((PostingOf freqs w document_id).getD 0 + (words_sv.count w : α) * x)
        else PostingOf freqs w d := by
  induction words_sv generalizing freqs with
  | nil => simp
  | cons word_sv rest ih =>
    rw [List.foldl_cons, ih]
    simp only [PostingOf_AddWordFreq, List.mem_cons, List.count_cons]
    by_cases hd : d = document_id
    · subst hd
      by_cases hw : w = word_sv
      · subst hw
        by_cases hr : w ∈ rest
        · simp only [hr, and_self, if_true, true_and, true_or, Option.getD_some, beq_self_eq_true]
          push_cast
          congr 1
          ring
        · simp only [hr, false_and, if_false, and_self, if_true, true_or, beq_self_eq_true]
          rw [List.count_eq_zero_of_not_mem hr]
          push_cast
          congr 1
          ring
      · have hw' : ¬ word_sv = w := fun h => hw h.symm
        by_cases hr : w ∈ rest
        · simp [hr, hw, hw']
        · simp [hr, hw, hw']
    · simp only [hd, and_false, if_false]

/-- Whatever the arithmetic of `α`, the loop of `AddDocument` adds `x` to the
term frequency of `(w, document_id)` once per occurrence of `w`, one addition
after the other. -/
theorem PostingOf_foldl_AddWordFreq_iterate [Zero α] [Add α] (words_sv : List Str)
    (freqs : List (Str × List (DocumentId × α))) (w : Str) (document_id d : DocumentId)
    (x : α) :
    PostingOf (words_sv.foldl (fun freqs word_sv => AddWordFreq freqs word_sv document_id x)
        freqs) w d
      = if w ∈ words_sv ∧ d = document_id then
          some ((fun v => v + x)^[words_sv.count w] ((PostingOf freqs w document_id).getD 0))
        else PostingOf freqs w d := by
  induction words_sv generalizing freqs with
  | nil => simp
  | cons word_sv rest ih =>
    rw [List.foldl_cons, ih]
    simp only [PostingOf_AddWordFreq, List.mem_cons, List.count_cons]
    by_cases hd : d = document_id
    · subst hd
      by_cases hw : w = word_sv
      · subst hw
        by_cases hr : w ∈ rest
        · simp only [hr, and_self, if_true, true_and, true_or, Option.getD_some,
            beq_self_eq_true, Function.iterate_succ_apply]
        · simp only [hr, false_and, if_false, and_self, if_true, true_or, beq_self_eq_true]
          rw [List.count_eq_zero_of_not_mem hr]
          rfl
      · have hw' : ¬ word_sv = w := fun h => hw h.symm
        by_cases hr : w ∈ rest
        · simp [hr, hw, hw']
        · simp [hr, hw, hw']
    · simp only [hd, and_false, if_false]

/-- Whatever the arithmetic of `α`: when `document_id` has no posting before a
call of `AddDocument` that returns, the term frequency recorded for a word `w`
of the text that is not a stop word is `0 + x + ... + x`, with `x = 1 / n` added
once per occurrence of `w`, `n` being the number of words that are not stop
words; no other term gets a posting for `document_id`. -/
theorem AddDocument_records_repeated_sum [Zero α] [One α] [Add α] [Div α] [NatCast α]
    (srv : SearchServer α) (document_id : DocumentId) (document : Str)
    (hfresh : ∀ w, PostingOf srv.word_to_document_freqs_ w document_id = none)
    (hok : (srv.AddDocument document_id document).1 = .ok ()) (w : Str) :
    PostingOf (srv.AddDocument document_id document).2.word_to_document_freqs_ w document_id
      = if w ∈ SplitIntoWords document ∧ srv.IsStopWord w = false then
          some ((fun v => v + 1 / (((SplitIntoWords document).filter
              fun w => !srv.IsStopWord w).length : α))^[(SplitIntoWords document).count w] 0)
        else none := by
  rcases AddDocument_cases srv document_id document with
    ⟨_, h⟩ | ⟨_, e, _, h⟩ | ⟨_, words_sv, hsplit, h⟩
  · rw [h] at hok; cases hok
  · rw [h] at hok; cases hok
  · rw [h]
    simp only
    obtain ⟨hwords, _⟩ := SplitIntoWordsNoStop_ok srv document words_sv hsplit
    rw [PostingOf_foldl_AddWordFreq_iterate, hfresh w]
    have hmem : w ∈ words_sv ↔ w ∈ SplitIntoWords document ∧ srv.IsStopWord w = false := by
      rw [hwords, List.mem_filter]
      simp
    by_cases hin : w ∈ words_sv
    · have hs := (hmem.1 hin).2
      have hcount : words_sv.count w = (SplitIntoWords document).count w := by
        rw [hwords, List.count_filter (by simp [hs])]
      rw [if_pos ⟨hin, rfl⟩, if_pos ((hmem).1 hin), hcount, ← hwords]
      rfl
    · rw [if_neg (fun hc => hin hc.1), if_neg (fun hc => hin (hmem.2 hc))]

theorem PostingOf_eq_none_of_fresh (srv : SearchServer α) (h : PostingsStored srv)
    (document_id : DocumentId) (hfresh : document_id ∉ srv.StoredIds) (w : Str) :
    PostingOf srv.word_to_document_freqs_ w document_id = none := by
  unfold PostingOf
  cases hf : UnorderedMap.find srv.word_to_document_freqs_ w with
  | none => rfl
  | some postings =>
    simp only [Option.some_bind]
    rw [UnorderedMap.find_eq_none_iff]
    intro hd
    exact hfresh (h _ (UnorderedMap.mem_of_find_eq_some _ _ _ hf) _ hd)

end SearchServer

/-! ## Invariants of the reachable states -/

namespace SearchServer

variable {α : Type}

/-- A property of the entries of the inverted mapping that the loop of
`AddDocument` keeps. -/
theorem foldl_AddWordFreq_entries [LinearOrderedField α]
    (Q : Str × List (DocumentId × α) → Prop) (words_sv : List Str)
    (freqs : List (Str × List (DocumentId × α))) (document_id : DocumentId) (x : α)
    (hnew : ∀ w ∈ words_sv, Q (w, UnorderedMap.update [] document_id 0 (fun v => v + x)))
    (hupd : ∀ w ∈ words_sv, ∀ postings, Q (w, postings) →
      Q (w, UnorderedMap.update postings document_id 0 (fun v => v + x)))
    (h : ∀ e ∈ freqs, Q e) :
    ∀ e ∈ words_sv.foldl (fun freqs word_sv => AddWordFreq freqs word_sv document_id x) freqs,
      Q e := by
  induction words_sv generalizing freqs with
  | nil => exact h
  | cons word_sv rest ih =>
    rw [List.foldl_cons]
    apply ih
    · intro w hw; exact hnew w (List.mem_cons_of_mem _ hw)
    · intro w hw; exact hupd w (List.mem_cons_of_mem _ hw)
    · intro e he
      rcases UnorderedMap.mem_update _ _ _ _ _ he with hmem | heq | ⟨v, hv, heq⟩
      · exact h e hmem
      · rw [heq]; exact hnew word_sv (List.mem_cons_self _ _)
      · rw [heq]; exact hupd word_sv (List.mem_cons_self _ _) v (h _ hv)

theorem update_ne_nil [LinearOrderedField α] (postings : List (DocumentId × α))
    (document_id : DocumentId) (x : α) :
    UnorderedMap.update postings document_id 0 (fun v => v + x) ≠ [] := by
  intro h
  have := (UnorderedMap.mem_keys_update postings document_id document_id 0
    (fun v => v + x)).2 (Or.inl rfl)
  rw [h] at this
  simp at this

theorem update_positive [LinearOrderedField α] (postings : List (DocumentId × α))
    (document_id : DocumentId) (x : α) (hx : 0 < x) (h : ∀ p ∈ postings, 0 < p.2) :
    ∀ p ∈ UnorderedMap.update postings document_id 0 (fun v => v + x), 0 < p.2 := by
  intro p hp
  rcases UnorderedMap.mem_update _ _ _ _ _ hp with hmem | heq | ⟨v, hv, heq⟩
  · exact h p hmem
  · rw [heq]; simpa using hx
  · rw [heq]
    have := h _ hv
    simp only at this ⊢
    linarith

theorem Reachable.documentsNodup [LinearOrderedField α] {srv : SearchServer α}
    (h : Reachable srv) : DocumentsNodup srv := by
  induction h with
  | default => simp [DocumentsNodup, StoredIds]
  | create stop_words srv hc =>
    simp [DocumentsNodup, StoredIds, (create_word_to_document_freqs stop_words srv hc).2]
  | AddDocument srv document_id document _ ih =>
    rcases AddDocument_cases srv document_id document with
      ⟨_, h⟩ | ⟨hfresh, e, _, h⟩ | ⟨hfresh, words_sv, _, h⟩
    · rw [h]; exact ih
    · rw [h]; exact List.nodup_cons.2 ⟨hfresh, ih⟩
    · rw [h]; exact List.nodup_cons.2 ⟨hfresh, ih⟩

theorem Reachable.postingsNonempty [LinearOrderedField α] {srv : SearchServer α}
    (h : Reachable srv) : PostingsNonempty srv := by
  induction h with
  | default => intro e he; simp at he
  | create stop_words srv hc =>
    intro e he
    rw [(create_word_to_document_freqs stop_words srv hc).1] at he
    simp at he
  | AddDocument srv document_id document _ ih =>
    rcases AddDocument_cases srv document_id document with
      ⟨_, h⟩ | ⟨_, e, _, h⟩ | ⟨_, words_sv, _, h⟩
    · rw [h]; exact ih
    · rw [h]; exact ih
    · rw [h]
      exact foldl_AddWordFreq_entries (fun e => e.2 ≠ []) words_sv _ document_id _
        (by intro w _; dsimp only; exact update_ne_nil _ _ _)
        (by intro w _ postings _; dsimp only; exact update_ne_nil _ _ _) ih

theorem Reachable.termFreqsPositive [LinearOrderedField α] {srv : SearchServer α}
    (h : Reachable srv) : TermFreqsPositive srv := by
  induction h with
  | default => intro e he; simp at he
  | create stop_words srv hc =>
    intro e he
    rw [(create_word_to_document_freqs stop_words srv hc).1] at he
    simp at he
  | AddDocument srv document_id document _ ih =>
    rcases AddDocument_cases srv document_id document with
      ⟨_, h⟩ | ⟨_, e, _, h⟩ | ⟨_, words_sv, _, h⟩
    · rw [h]; exact ih
    · rw [h]; exact ih
    · rw [h]
      have hx : ∀ w ∈ words_sv, (0 : α) < 1 / (words_sv.length : α) := by
        intro w hw
        have : 0 < words_sv.length := List.length_pos_of_mem hw
        have : (0 : α) < (words_sv.length : α) := by exact_mod_cast this
        exact one_div_pos.2 this
      exact foldl_AddWordFreq_entries (fun e => ∀ p ∈ e.2, 0 < p.2) words_sv _ document_id _
        (by intro w hw; dsimp only; exact update_positive [] document_id _ (hx w hw) (by simp))
        (by
          intro w hw postings hp
          dsimp only at hp ⊢
          exact update_positive postings document_id _ (hx w hw) hp) ih

theorem Reachable.termsAreWords [LinearOrderedField α] {srv : SearchServer α}
    (h : Reachable srv) : TermsAreWords srv := by
  induction h with
  | default => intro e he; simp at he
  | create stop_words srv hc =>
    intro e he
    rw [(create_word_to_document_freqs stop_words srv hc).1] at he
    simp at he
  | AddDocument srv document_id document _ ih =>
    rcases AddDocument_cases srv document_id document with
      ⟨_, h⟩ | ⟨_, e, _, h⟩ | ⟨_, words_sv, hsplit, h⟩
    · rw [h]; exact ih
    · rw [h]; exact ih
    · rw [h]
      obtain ⟨hwords, hvalid⟩ := SplitIntoWordsNoStop_ok srv document words_sv hsplit
      have hw : ∀ w ∈ words_sv,
          w ≠ [] ∧ ' ' ∉ w ∧ IsValidWord w = true ∧ srv.IsStopWord w = false := by
        intro w hw
        rw [hwords, List.mem_filter] at hw
        exact ⟨SplitIntoWords_ne_nil document w hw.1, SplitIntoWords_no_space document w hw.1,
          hvalid w hw.1, by simpa using hw.2⟩
      exact foldl_AddWordFreq_entries
        (fun e => e.1 ≠ [] ∧ ' ' ∉ e.1 ∧ IsValidWord e.1 = true ∧ srv.IsStopWord e.1 = false)
        words_sv _ document_id _ (by intro w hmem; dsimp only; exact hw w hmem)
        (by intro w hmem postings _; dsimp only; exact hw w hmem) ih

/-- In a reachable state a term has at least one posting and at most as many
postings as there are stored documents. -/
theorem Reachable.postings_length [LinearOrderedField α] {srv : SearchServer α}
    (h : Reachable srv) (e : Str × List (DocumentId × α))
    (he : e ∈ srv.word_to_document_freqs_) :
    1 ≤ e.2.length ∧ e.2.length ≤ srv.documents_.length := by
  constructor
  · exact List.length_pos.2 (h.postingsNonempty e he)
  · have hsub : e.2.map Prod.fst ⊆ srv.StoredIds := fun d hd => h.postingsStored e he d hd
    have := (List.subperm_of_subset (h.postingsNodup e he) hsub).length_le
    simpa [StoredIds] using this

end SearchServer

namespace SearchServer

variable {α : Type}

theorem Reachable.one_le_ratio [LinearOrderedField α] {srv : SearchServer α}
    (h : Reachable srv) (e : Str × List (DocumentId × α))
    (he : e ∈ srv.word_to_document_freqs_) :
    (1 : α) ≤ (srv.documents_.length : α) * 1 / (e.2.length : α) := by
  obtain ⟨h1, h2⟩ := h.postings_length e he
  have hpos : (0 : α) < (e.2.length : α) := by exact_mod_cast h1
  rw [mul_one, one_le_div hpos]
  exact_mod_cast h2

theorem Reachable.idf_nonneg [LinearOrderedField α] {srv : SearchServer α}
    (h : Reachable srv) (log : α → α) (hlog : ∀ x, 1 ≤ x → 0 ≤ log x) (word : Str) :
    0 ≤ Idf log srv word := by
  unfold Idf
  cases hf : UnorderedMap.find srv.word_to_document_freqs_ word with
  | none => exact le_refl 0
  | some postings =>
    exact hlog _ (h.one_le_ratio (word, postings) (UnorderedMap.mem_of_find_eq_some _ _ _ hf))

theorem Reachable.updates_nonneg [LinearOrderedField α] {srv : SearchServer α}
    (h : Reachable srv) (log : α → α) (hlog : ∀ x, 1 ≤ x → 0 ≤ log x)
    (plus_words : List Str) :
    ∀ u ∈ AllUpdates log srv plus_words, 0 ≤ u.2 := by
  intro u hu
  unfold AllUpdates at hu
  rw [List.mem_flatten] at hu
  obtain ⟨us, hus, hu⟩ := hu
  obtain ⟨word, _, rfl⟩ := List.mem_map.1 hus
  unfold WordUpdates at hu
  cases hf : UnorderedMap.find srv.word_to_document_freqs_ word with
  | none => rw [hf] at hu; simp at hu
  | some postings =>
    rw [hf] at hu
    obtain ⟨p, hp, rfl⟩ := List.mem_map.1 hu
    have htf := h.termFreqsPositive (word, postings)
      (UnorderedMap.mem_of_find_eq_some _ _ _ hf) p hp
    exact mul_nonneg (le_of_lt htf) (h.idf_nonneg log hlog word)

theorem Total_nonneg [LinearOrderedField α] (us : List (DocumentId × α))
    (h : ∀ u ∈ us, 0 ≤ u.2) (d : DocumentId) : 0 ≤ Total us d := by
  unfold Total
  apply List.sum_nonneg
  intro x hx
  obtain ⟨u, hu, rfl⟩ := List.mem_map.1 hx
  split
  · exact h u hu
  · exact le_refl 0

/-- Every result of `Find` is an entry of the accumulator of the plus words. -/
theorem mem_PlusWordsMap_of_mem_Find [LinearOrderedField α] (log : α → α)
    (srv : SearchServer α) (policy : ExecutionPolicy α) (results_num : Nat)
    (query : Query) (r : Result α)
    (hr : r ∈ LeaveTopResults (ConvertToResults (srv.EraseDocumentsWithMinusWords
      (PlusWordsMap log srv policy query) query.minus_words)) results_num) :
    (r.id, r.relevance) ∈ PlusWordsMap log srv policy query ∧
    ∀ word ∈ query.minus_words, ∀ postings,
      UnorderedMap.find srv.word_to_document_freqs_ word = some postings →
      r.id ∉ postings.map Prod.fst := by
  rw [LeaveTopResults_eq] at hr
  have hall := (sort_perm _ _).subset (List.mem_of_mem_take hr)
  rw [mem_ConvertToResults, mem_EraseDocumentsWithMinusWords] at hall
  exact hall

end SearchServer

namespace SearchServer

variable {α : Type}

theorem EraseDocumentsWithMinusWords_nil (srv : SearchServer α) (minus_words : List Str) :
    srv.EraseDocumentsWithMinusWords [] minus_words = [] := by
  rw [List.eq_nil_iff_forall_not_mem]
  intro e he
  rw [mem_EraseDocumentsWithMinusWords] at he
  simp at he

/-- A query without plus words gives no result. -/
theorem Find_of_plus_words_nil [LinearOrderedField α] (log : α → α) (srv : SearchServer α)
    (raw_query : Str) (results_num : Nat) (query : Query)
    (hparse : srv.ParseQuery raw_query = .ok query) (hplus : query.plus_words = []) :
    srv.Find log raw_query results_num = .ok [] := by
  rw [Find, FindWith_eq log srv .seq raw_query results_num query hparse]
  have hmap : PlusWordsMap log srv .seq query = [] := by
    simp [PlusWordsMap, AllUpdates, hplus]
  rw [hmap, EraseDocumentsWithMinusWords_nil, LeaveTopResults_eq]
  simp [ConvertToResults, sort]

end SearchServer

/-! ## Facts about the set of matching documents -/

namespace SearchServer

variable {α : Type}

theorem PostingOf_ne_none_iff (freqs : List (Str × List (DocumentId × α))) (word : Str)
    (d : DocumentId) :
    PostingOf freqs word d ≠ none ↔
      ∃ postings, UnorderedMap.find freqs word = some postings ∧ d ∈ postings.map Prod.fst := by
  unfold PostingOf
  cases hf : UnorderedMap.find freqs word with
  | none => simp
  | some postings =>
    simp only [Option.some_bind, ne_eq, UnorderedMap.find_eq_none_iff, not_not,
      Option.some.injEq, exists_eq_left']

theorem mem_keys_WordUpdates [LinearOrderedField α] (log : α → α) (srv : SearchServer α)
    (word : Str) (d : DocumentId) :
    d ∈ (WordUpdates log srv word).map Prod.fst
      ↔ PostingOf srv.word_to_document_freqs_ word d ≠ none := by
  rw [PostingOf_ne_none_iff]
  unfold WordUpdates
  cases hf : UnorderedMap.find srv.word_to_document_freqs_ word with
  | none => simp
  | some postings =>
    simp only [List.map_map, Option.some.injEq, exists_eq_left']
    have : (Prod.fst ∘ fun e : DocumentId × α => (e.1, e.2 * Idf log srv word)) = Prod.fst := by
      funext e; rfl
    rw [this]

theorem mem_keys_AllUpdates [LinearOrderedField α] (log : α → α) (srv : SearchServer α)
    (plus_words : List Str) (d : DocumentId) :
    d ∈ (AllUpdates log srv plus_words).map Prod.fst
      ↔ ∃ word ∈ plus_words, PostingOf srv.word_to_document_freqs_ word d ≠ none := by
  induction plus_words with
  | nil => simp [AllUpdates]
  | cons word rest ih =>
    have : AllUpdates log srv (word :: rest)
        = WordUpdates log srv word ++ AllUpdates log srv rest := by
      simp [AllUpdates]
    rw [this, List.map_append, List.mem_append, ih, mem_keys_WordUpdates]
    simp only [List.mem_cons, exists_eq_or_imp]

theorem foldl_erase_sublist (postings m : List (DocumentId × α)) :
    (postings.foldl (fun m p => UnorderedMap.erase m p.1) m).Sublist m := by
  induction postings generalizing m with
  | nil => exact List.Sublist.refl _
  | cons p rest ih =>
    rw [List.foldl_cons]
    exact (ih _).trans (List.filter_sublist _)

theorem EraseDocumentsWithMinusWords_sublist (srv : SearchServer α) (minus_words : List Str)
    (m : List (DocumentId × α)) :
    (srv.EraseDocumentsWithMinusWords m minus_words).Sublist m := by
  unfold EraseDocumentsWithMinusWords
  induction minus_words generalizing m with
  | nil => exact List.Sublist.refl _
  | cons word rest ih =>
    rw [List.foldl_cons]
    refine (ih _).trans ?_
    cases UnorderedMap.find srv.word_to_document_freqs_ word with
    | none => exact List.Sublist.refl _
    | some postings => exact foldl_erase_sublist postings m

theorem ConvertToResults_ids (m : List (DocumentId × α)) :
    (ConvertToResults m).map (fun r => r.id) = m.map Prod.fst := by
  simp [ConvertToResults]

/-- The identifiers of the results of `FindAll` are pairwise distinct. -/
theorem FindAll_ids_nodup [LinearOrderedField α] (log : α → α) (srv : SearchServer α)
    (policy : ExecutionPolicy α) (query : Query) :
    ((ConvertToResults (srv.EraseDocumentsWithMinusWords (PlusWordsMap log srv policy query)
      query.minus_words)).map fun r => r.id).Nodup := by
  rw [ConvertToResults_ids]
  exact ((EraseDocumentsWithMinusWords_sublist srv _ _).map Prod.fst).nodup
    (PlusWordsMap_keys_nodup log srv policy query)

/-- The identifiers of the results of the sequenced `FindAll`. -/
theorem mem_FindAll_ids [LinearOrderedField α] (log : α → α) (srv : SearchServer α)
    (query : Query) (d : DocumentId) :
    d ∈ (ConvertToResults (srv.EraseDocumentsWithMinusWords (PlusWordsMap log srv .seq query)
        query.minus_words)).map (fun r => r.id)
      ↔ (∃ word ∈ query.plus_words, PostingOf srv.word_to_document_freqs_ word d ≠ none) ∧
        ∀ word ∈ query.minus_words, PostingOf srv.word_to_document_freqs_ word d = none := by
  rw [ConvertToResults_ids, ← mem_keys_AllUpdates log]
  have hkeys : d ∈ (PlusWordsMap log srv .seq query).map Prod.fst
      ↔ d ∈ (AllUpdates log srv query.plus_words).map Prod.fst := by
    simp only [PlusWordsMap]
    rw [keys_foldl_applyUpdate]
    simp
  rw [← hkeys]
  have hminus : (∀ word ∈ query.minus_words, PostingOf srv.word_to_document_freqs_ word d = none)
      ↔ ∀ word ∈ query.minus_words, ∀ postings,
          UnorderedMap.find srv.word_to_document_freqs_ word = some postings →
          d ∉ postings.map Prod.fst := by
    constructor
    · intro h word hw postings hf hd
      exact (PostingOf_ne_none_iff _ word d).2 ⟨postings, hf, hd⟩ (h word hw)
    · intro h word hw
      by_contra hne
      obtain ⟨postings, hf, hd⟩ := (PostingOf_ne_none_iff _ word d).1 hne
      exact h word hw postings hf hd
  rw [hminus]
  constructor
  · intro h
    obtain ⟨e, he, rfl⟩ := List.mem_map.1 h
    rw [mem_EraseDocumentsWithMinusWords] at he
    exact ⟨List.mem_map_of_mem Prod.fst he.1, he.2⟩
  · rintro ⟨h1, h2⟩
    obtain ⟨e, he, rfl⟩ := List.mem_map.1 h1
    exact List.mem_map_of_mem Prod.fst
      ((mem_EraseDocumentsWithMinusWords srv _ _ e).2 ⟨he, h2⟩)

/-- In a reachable state the sequenced `FindAll` returns at most as many
results as there are stored documents. -/
theorem Reachable.FindAll_length_le [LinearOrderedField α] {srv : SearchServer α}
    (h : Reachable srv) (log : α → α) (query : Query) :
    (ConvertToResults (srv.EraseDocumentsWithMinusWords (PlusWordsMap log srv .seq query)
      query.minus_words)).length ≤ srv.documents_.length := by
  have hsub : (ConvertToResults (srv.EraseDocumentsWithMinusWords
      (PlusWordsMap log srv .seq query) query.minus_words)).map (fun r => r.id)
      ⊆ srv.StoredIds := by
    intro d hd
    obtain ⟨⟨word, _, hp⟩, _⟩ := (mem_FindAll_ids log srv query d).1 hd
    obtain ⟨postings, hf, hmem⟩ := (PostingOf_ne_none_iff _ word d).1 hp
    exact h.postingsStored _ (UnorderedMap.mem_of_find_eq_some _ _ _ hf) d hmem
  have := (List.subperm_of_subset (FindAll_ids_nodup log srv .seq query) hsub).length_le
  simpa [StoredIds] using this

end SearchServer

/-! ## Facts about a query of one term -/

/-- A word is its own and only word. -/
theorem SplitIntoWords_word (word : Str) (hne : word ≠ []) (hsp : ' ' ∉ word) :
    SplitIntoWords word = [word] := by
  cases word with
  | nil => exact absurd rfl hne
  | cons c cs =>
    have hc : c ≠ ' ' := fun h => hsp (h ▸ List.mem_cons_self _ _)
    have hall : ∀ x ∈ c :: cs, decide (x ≠ ' ') = true := by
      intro x hx
      have : x ≠ ' ' := fun h => hsp (h ▸ hx)
      simpa using this
    have h1 : (c :: cs).dropWhile (fun c => decide (c = ' ')) = c :: cs := by
      simp [List.dropWhile_cons, hc]
    have h2 : (c :: cs).takeWhile (fun c => decide (c ≠ ' ')) = c :: cs :=
      List.takeWhile_eq_self_iff.2 hall
    have h3 : (c :: cs).dropWhile (fun c => decide (c ≠ ' ')) = [] :=
      List.dropWhile_eq_nil_iff.2 hall
    unfold SplitIntoWords
    rw [h1]
    simp only [List.length_cons, SplitIntoWordsLoop, h2, h3, List.dropWhile_nil]

namespace SearchServer

variable {α : Type}

/-- The parse of a query that is one plus word. -/
theorem ParseQuery_word (srv : SearchServer α) (word : Str) (hne : word ≠ [])
    (hsp : ' ' ∉ word) (hvalid : IsValidWord word = true) (hstop : srv.IsStopWord word = false)
    (hplus : word.head? ≠ some '-') :
    srv.ParseQuery word = .ok ⟨[word], []⟩ := by
  unfold ParseQuery
  rw [SplitIntoWords_word word hne hsp]
  have hword := ParseQueryWord_plus srv word hne hplus
  rw [if_neg (by simp [hvalid]), hstop] at hword
  rw [ParseQueryLoop_cons_plus srv _ _ [] _ _ hword]
  simp [ParseQueryLoop, UnorderedSet.insert]

/-- The results of `FindAll` for a term whose postings are as many as the
stored documents, when `log 1 = 0`. -/
theorem Reachable.ubiquitous_term [LinearOrderedField α] {srv : SearchServer α}
    (hreach : Reachable srv) (log : α → α) (hlog : log 1 = 0) (word : Str)
    (postings : List (DocumentId × α))
    (hfind : UnorderedMap.find srv.word_to_document_freqs_ word = some postings)
    (hall : UnorderedMap.size postings = UnorderedMap.size srv.documents_) :
    (∀ e ∈ PlusWordsMap log srv .seq ⟨[word], []⟩, e.2 = 0 ∧ e.1 ∈ postings.map Prod.fst) ∧
    (∀ d ∈ postings.map Prod.fst, (d, (0 : α)) ∈ PlusWordsMap log srv .seq ⟨[word], []⟩) := by
  have hmem := UnorderedMap.mem_of_find_eq_some _ _ _ hfind
  have hpos : 0 < postings.length := List.length_pos.2 (hreach.postingsNonempty _ hmem)
  have hidf : Idf log srv word = 0 := by
    unfold Idf
    rw [hfind]
    simp only [UnorderedMap.size] at hall
    simp only [← hall, mul_one]
    rw [div_self (by exact_mod_cast (Nat.pos_iff_ne_zero.1 hpos)), hlog]
  have hupdates : AllUpdates log srv [word] = postings.map fun e => (e.1, (0 : α)) := by
    simp [AllUpdates, WordUpdates, hfind, hidf]
  have hkeys : (AllUpdates log srv [word]).map Prod.fst = postings.map Prod.fst := by
    rw [hupdates, List.map_map]
    rfl
  have htotal : ∀ d, Total (AllUpdates log srv [word]) d = 0 := by
    intro d
    rw [hupdates]
    unfold Total
    apply List.sum_eq_zero
    intro x hx
    obtain ⟨u, hu, rfl⟩ := List.mem_map.1 hx
    obtain ⟨p, _, rfl⟩ := List.mem_map.1 hu
    simp
  have hfindM : ∀ d, UnorderedMap.find (PlusWordsMap log srv .seq ⟨[word], []⟩) d
      = if d ∈ postings.map Prod.fst then some 0 else none := by
    intro d
    simp only [PlusWordsMap]
    rw [find_foldl_applyUpdate_eq, hkeys, htotal]
  constructor
  · intro e he
    have hf := UnorderedMap.find_eq_some_of_mem _
      (PlusWordsMap_keys_nodup log srv .seq ⟨[word], []⟩) e.1 e.2 he
    rw [hfindM] at hf
    split at hf
    · rename_i hd
      simp only [Option.some.injEq] at hf
      exact ⟨hf.symm, hd⟩
    · cases hf
  · intro d hd
    apply UnorderedMap.mem_of_find_eq_some
    rw [hfindM, if_pos hd]

/-- The general part of the zero-IDF property. -/
theorem Reachable.Find_term_in_all_documents [LinearOrderedField α] {srv : SearchServer α}
    (hreach : Reachable srv) (log : α → α) (hlog : log 1 = 0) (word : Str)
    (postings : List (DocumentId × α)) (results_num : Nat)
    (hfind : UnorderedMap.find srv.word_to_document_freqs_ word = some postings)
    (hall : UnorderedMap.size postings = UnorderedMap.size srv.documents_)
    (hplus : word.head? ≠ some '-') :
    ∃ results, srv.Find log word results_num = .ok results ∧
      (∀ r ∈ results, r.relevance = 0 ∧ r.id ∈ postings.map Prod.fst) ∧
      (UnorderedMap.size postings ≤ results_num →
        ∀ d ∈ postings.map Prod.fst, (⟨d, 0⟩ : Result α) ∈ results) := by
  obtain ⟨h1, h2, h3, h4⟩ := hreach.termsAreWords _ (UnorderedMap.mem_of_find_eq_some _ _ _ hfind)
  have hparse := ParseQuery_word srv word h1 h2 h3 h4 hplus
  obtain ⟨hM1, hM2⟩ := hreach.ubiquitous_term log hlog word postings hfind hall
  refine ⟨_, FindWith_eq log srv .seq word results_num _ hparse, ?_, ?_⟩
  · intro r hr
    exact hM1 _ (mem_PlusWordsMap_of_mem_Find log srv .seq results_num _ r hr).1
  · intro hnum d hd
    have hlen := hreach.FindAll_length_le log ⟨[word], []⟩
    rw [LeaveTopResults_eq, List.take_of_length_le
      (by
        rw [(sort_perm _ _).length_eq]
        simp only [UnorderedMap.size] at hall hnum
        omega),
      (sort_perm _ _).mem_iff, mem_ConvertToResults, mem_EraseDocumentsWithMinusWords]
    exact ⟨hM2 d hd, by simp⟩

end SearchServer

/-! ## Facts about two insertions -/

namespace SearchServer

variable {α : Type}

theorem SplitIntoWordsNoStopLoop_valid (srv : SearchServer α) (rest words : List Str)
    (h : ∀ w ∈ rest, IsValidWord w = true) :
    ∃ result, SplitIntoWordsNoStopLoop srv rest words = .ok result := by
  induction rest generalizing words with
  | nil => exact ⟨_, rfl⟩
  | cons word rest ih =>
    unfold SplitIntoWordsNoStopLoop
    have hv := h word (List.mem_cons_self _ _)
    have hrest : ∀ w ∈ rest, IsValidWord w = true :=
      fun w hw => h w (List.mem_cons_of_mem _ hw)
    simp only [hv, Bool.not_true, Bool.false_eq_true, if_false]
    split
    · exact ih _ hrest
    · exact ih _ hrest

/-- A call of `AddDocument` succeeds exactly for an identifier that is not
stored and a text without invalid word, and then leaves the state `Added`. -/
theorem AddDocument_ok_iff [LinearOrderedField α] (srv : SearchServer α)
    (document_id : DocumentId) (document : Str) :
    (srv.AddDocument document_id document).1 = .ok () ↔
      document_id ∉ srv.StoredIds ∧ ∀ w ∈ SplitIntoWords document, IsValidWord w = true := by
  rcases AddDocument_cases srv document_id document with
    ⟨hs, h⟩ | ⟨hfresh, e, hsplit, h⟩ | ⟨hfresh, words_sv, hsplit, h⟩
  · rw [h]
    constructor
    · intro hc; cases hc
    · intro hc; exact absurd hs hc.1
  · rw [h]
    constructor
    · intro hc; cases hc
    · intro hc
      obtain ⟨result, hr⟩ := SplitIntoWordsNoStopLoop_valid srv _ [] hc.2
      have : srv.SplitIntoWordsNoStop document = .ok result := hr
      rw [this] at hsplit
      cases hsplit
  · rw [h]
    exact ⟨fun _ => ⟨hfresh, (SplitIntoWordsNoStop_ok srv document words_sv hsplit).2⟩,
      fun _ => rfl⟩

theorem AddDocument_ok_state [LinearOrderedField α] (srv : SearchServer α)
    (document_id : DocumentId) (document : Str)
    (hok : (srv.AddDocument document_id document).1 = .ok ()) :
    (srv.AddDocument document_id document).2 = srv.Added document_id document := by
  rcases AddDocument_cases srv document_id document with
    ⟨hs, h⟩ | ⟨hfresh, e, hsplit, h⟩ | ⟨hfresh, words_sv, hsplit, h⟩
  · rw [h] at hok; cases hok
  · rw [h] at hok; cases hok
  · rw [h]
    have hwords := (SplitIntoWordsNoStop_ok srv document words_sv hsplit).1
    simp only [Added, IndexWords, IndexedWords, ← hwords]

theorem mem_keys_AddWordFreq [LinearOrderedField α]
    (freqs : List (Str × List (DocumentId × α))) (word_sv w : Str) (document_id : DocumentId)
    (x : α) :
    w ∈ (AddWordFreq freqs word_sv document_id x).map Prod.fst
      ↔ w = word_sv ∨ w ∈ freqs.map Prod.fst := by
  unfold AddWordFreq
  rw [UnorderedMap.mem_keys_update]

theorem mem_keys_IndexWords [LinearOrderedField α]
    (freqs : List (Str × List (DocumentId × α))) (document_id : DocumentId)
    (words_sv : List Str) (w : Str) :
    w ∈ (IndexWords freqs document_id words_sv).map Prod.fst
      ↔ w ∈ freqs.map Prod.fst ∨ w ∈ words_sv := by
  unfold IndexWords
  generalize (1 / (words_sv.length : α)) = x
  induction words_sv generalizing freqs with
  | nil => simp
  | cons word_sv rest ih =>
    rw [List.foldl_cons, ih, mem_keys_AddWordFreq, List.mem_cons]
    tauto

theorem PostingOf_IndexWords [LinearOrderedField α]
    (freqs : List (Str × List (DocumentId × α))) (document_id : DocumentId)
    (words_sv : List Str) (w : Str) (d : DocumentId) :
    PostingOf (IndexWords freqs document_id words_sv) w d
      = if w ∈ words_sv ∧ d = document_id then
          some ((PostingOf freqs w document_id).getD 0
            + (words_sv.count w : α) * (1 / (words_sv.length : α)))
        else PostingOf freqs w d :=
  PostingOf_foldl_AddWordFreq words_sv freqs w document_id d _

/-- The postings written for two different documents do not depend on the
order of the two insertions. -/
theorem PostingOf_IndexWords_comm [LinearOrderedField α]
    (freqs : List (Str × List (DocumentId × α))) (i j : DocumentId) (hij : i ≠ j)
    (wa wb : List Str) (w : Str) (d : DocumentId) :
    PostingOf (IndexWords (IndexWords freqs i wa) j wb) w d
      = PostingOf (IndexWords (IndexWords freqs j wb) i wa) w d := by
  have hji : j ≠ i := fun h => hij h.symm
  simp only [PostingOf_IndexWords]
  by_cases hdi : d = i
  · subst hdi
    simp [hij, hji]
  · by_cases hdj : d = j
    · subst hdj
      simp [hij, hji]
    · simp [hdi, hdj]

theorem mem_keys_IndexWords_comm [LinearOrderedField α]
    (freqs : List (Str × List (DocumentId × α))) (i j : DocumentId)
    (wa wb : List Str) (w : Str) :
    w ∈ (IndexWords (IndexWords freqs i wa) j wb).map Prod.fst
      ↔ w ∈ (IndexWords (IndexWords freqs j wb) i wa).map Prod.fst := by
  simp only [mem_keys_IndexWords]
  tauto

end SearchServer

namespace SearchServer

variable {α : Type}

/-- Two states with the same lookups in postings without repeated identifiers
hold the same index. -/
theorem SameIndex.of_PostingOf (s₁ s₂ : SearchServer α)
    (hstop : s₁.stop_words_ = s₂.stop_words_) (hdocs : s₁.documents_.Perm s₂.documents_)
    (hfind : ∀ d, UnorderedMap.find s₁.documents_ d = UnorderedMap.find s₂.documents_ d)
    (hn₁ : PostingsNodup s₁) (hn₂ : PostingsNodup s₂)
    (hkeys : ∀ w, w ∈ s₁.word_to_document_freqs_.map Prod.fst
      ↔ w ∈ s₂.word_to_document_freqs_.map Prod.fst)
    (hpost : ∀ w d, PostingOf s₁.word_to_document_freqs_ w d
      = PostingOf s₂.word_to_document_freqs_ w d) :
    SameIndex s₁ s₂ := by
  refine ⟨hstop, hdocs, hfind, ?_⟩
  intro w
  cases h₁ : UnorderedMap.find s₁.word_to_document_freqs_ w with
  | none =>
    left
    refine ⟨rfl, ?_⟩
    rw [UnorderedMap.find_eq_none_iff, ← hkeys, ← UnorderedMap.find_eq_none_iff]
    exact h₁
  | some p₁ =>
    right
    cases h₂ : UnorderedMap.find s₂.word_to_document_freqs_ w with
    | none =>
      rw [UnorderedMap.find_eq_none_iff, ← hkeys, ← UnorderedMap.find_eq_none_iff] at h₂
      rw [h₁] at h₂
      cases h₂
    | some p₂ =>
      have heq : ∀ d, UnorderedMap.find p₁ d = UnorderedMap.find p₂ d := by
        intro d
        have := hpost w d
        simpa [PostingOf, h₁, h₂] using this
      exact ⟨p₁, p₂, rfl, rfl,
        UnorderedMap.perm_of_find_eq p₁ p₂
          (hn₁ _ (UnorderedMap.mem_of_find_eq_some _ _ _ h₁))
          (hn₂ _ (UnorderedMap.mem_of_find_eq_some _ _ _ h₂)) heq, heq⟩

theorem ParseQueryLoop_congr (s₁ s₂ : SearchServer α) (h : s₁.stop_words_ = s₂.stop_words_)
    (rest plus_words minus_words : List Str) :
    s₁.ParseQueryLoop rest plus_words minus_words
      = s₂.ParseQueryLoop rest plus_words minus_words := by
  induction rest generalizing plus_words minus_words with
  | nil => rfl
  | cons word rest ih =>
    simp only [ParseQueryLoop, ParseQueryWord, IsStopWord, h, ih]

theorem SameIndex.ParseQuery_eq {s₁ s₂ : SearchServer α} (h : SameIndex s₁ s₂)
    (raw_query : Str) : s₁.ParseQuery raw_query = s₂.ParseQuery raw_query :=
  ParseQueryLoop_congr s₁ s₂ h.1 _ _ _

theorem SameIndex.PlusTerms_eq {s₁ s₂ : SearchServer α} (h : SameIndex s₁ s₂)
    (raw_query : Str) : PlusTerms s₁ raw_query = PlusTerms s₂ raw_query := by
  simp only [PlusTerms, IsStopWord, h.1]

theorem SameIndex.documents_length {s₁ s₂ : SearchServer α} (h : SameIndex s₁ s₂) :
    s₁.documents_.length = s₂.documents_.length := h.2.1.length_eq

theorem SameIndex.TermScore_eq [LinearOrderedField α] {s₁ s₂ : SearchServer α}
    (h : SameIndex s₁ s₂) (log : α → α) (word : Str) (d : DocumentId) :
    TermScore log s₁ word d = TermScore log s₂ word d := by
  unfold TermScore
  rcases h.2.2.2 word with ⟨h₁, h₂⟩ | ⟨p₁, p₂, h₁, h₂, hperm, hfind⟩
  · rw [h₁, h₂]
  · rw [h₁, h₂]
    simp only [hfind d, h.documents_length, hperm.length_eq]

theorem SameIndex.FormulaRelevance_eq [LinearOrderedField α] {s₁ s₂ : SearchServer α}
    (h : SameIndex s₁ s₂) (log : α → α) (raw_query : Str) (d : DocumentId) :
    FormulaRelevance log s₁ raw_query d = FormulaRelevance log s₂ raw_query d := by
  unfold FormulaRelevance
  rw [h.PlusTerms_eq]
  congr 1
  apply List.map_congr_left
  intro word _
  exact h.TermScore_eq log word d

theorem SameIndex.WordUpdates_perm [LinearOrderedField α] {s₁ s₂ : SearchServer α}
    (h : SameIndex s₁ s₂) (log : α → α) (word : Str) :
    (WordUpdates log s₁ word).Perm (WordUpdates log s₂ word) := by
  unfold WordUpdates Idf
  rcases h.2.2.2 word with ⟨h₁, h₂⟩ | ⟨p₁, p₂, h₁, h₂, hperm, _⟩
  · rw [h₁, h₂]
  · rw [h₁, h₂]
    simp only [h.documents_length, hperm.length_eq]
    exact hperm.map _

theorem SameIndex.AllUpdates_perm [LinearOrderedField α] {s₁ s₂ : SearchServer α}
    (h : SameIndex s₁ s₂) (log : α → α) (plus_words : List Str) :
    (AllUpdates log s₁ plus_words).Perm (AllUpdates log s₂ plus_words) := by
  induction plus_words with
  | nil => exact List.Perm.refl _
  | cons word rest ih =>
    have e₁ : AllUpdates log s₁ (word :: rest)
        = WordUpdates log s₁ word ++ AllUpdates log s₁ rest := by simp [AllUpdates]
    have e₂ : AllUpdates log s₂ (word :: rest)
        = WordUpdates log s₂ word ++ AllUpdates log s₂ rest := by simp [AllUpdates]
    rw [e₁, e₂]
    exact (h.WordUpdates_perm log word).append ih

/-- Two states with the same index give the same results of `FindAll`. -/
theorem SameIndex.mem_FindAll [LinearOrderedField α] {s₁ s₂ : SearchServer α}
    (h : SameIndex s₁ s₂) (log : α → α) (query : Query) (r : Result α) :
    r ∈ ConvertToResults (s₁.EraseDocumentsWithMinusWords (PlusWordsMap log s₁ .seq query)
        query.minus_words)
      ↔ r ∈ ConvertToResults (s₂.EraseDocumentsWithMinusWords (PlusWordsMap log s₂ .seq query)
        query.minus_words) := by
  have hmap : ∀ e : DocumentId × α,
      e ∈ PlusWordsMap log s₁ .seq query ↔ e ∈ PlusWordsMap log s₂ .seq query :=
    fun e => (UnorderedMap.perm_of_find_eq _ _ (PlusWordsMap_keys_nodup log s₁ .seq query)
      (PlusWordsMap_keys_nodup log s₂ .seq query)
      (fun d => find_foldl_applyUpdate_perm _ _ (h.AllUpdates_perm log query.plus_words)
        d)).mem_iff
  have hminus : ∀ d : DocumentId,
      (∀ word ∈ query.minus_words, ∀ postings,
        UnorderedMap.find s₁.word_to_document_freqs_ word = some postings →
        d ∉ postings.map Prod.fst)
      ↔ (∀ word ∈ query.minus_words, ∀ postings,
        UnorderedMap.find s₂.word_to_document_freqs_ word = some postings →
        d ∉ postings.map Prod.fst) := by
    intro d
    constructor
    · intro hm word hw postings hf hd
      rcases h.2.2.2 word with ⟨_, h₂⟩ | ⟨p₁, p₂, h₁, h₂, hperm, _⟩
      · rw [h₂] at hf; cases hf
      · rw [h₂] at hf
        cases hf
        exact hm word hw p₁ h₁ ((hperm.map Prod.fst).mem_iff.2 hd)
    · intro hm word hw postings hf hd
      rcases h.2.2.2 word with ⟨h₁, _⟩ | ⟨p₁, p₂, h₁, h₂, hperm, _⟩
      · rw [h₁] at hf; cases hf
      · rw [h₁] at hf
        cases hf
        exact hm word hw p₂ h₂ ((hperm.map Prod.fst).mem_iff.1 hd)
  rw [mem_ConvertToResults, mem_ConvertToResults, mem_EraseDocumentsWithMinusWords,
    mem_EraseDocumentsWithMinusWords, hmap, hminus]

end SearchServer

namespace SearchServer

variable {α : Type}

/-- The two orders of two successful insertions leave the same index. -/
theorem Added_comm [LinearOrderedField α] (srv : SearchServer α) (i j : DocumentId)
    (a b : Str) (hij : i ≠ j)
    (hn₁ : PostingsNodup ((srv.Added i a).Added j b))
    (hn₂ : PostingsNodup ((srv.Added j b).Added i a)) :
    SameIndex ((srv.Added i a).Added j b) ((srv.Added j b).Added i a) := by
  have hji : ¬ j = i := fun h => hij h.symm
  refine SameIndex.of_PostingOf ((srv.Added i a).Added j b) ((srv.Added j b).Added i a)
    rfl ?_ ?_ hn₁ hn₂ ?_ ?_
  · exact List.Perm.swap _ _ _
  · intro d
    simp only [Added, UnorderedMap.find]
    by_cases hdi : i = d
    · subst hdi
      simp [hji]
    · by_cases hdj : j = d
      · subst hdj
        simp [hdi]
      · simp [hdi, hdj]
  · intro w
    exact mem_keys_IndexWords_comm srv.word_to_document_freqs_ i j
      (srv.IndexedWords a) (srv.IndexedWords b) w
  · intro w d
    exact PostingOf_IndexWords_comm srv.word_to_document_freqs_ i j hij
      (srv.IndexedWords a) (srv.IndexedWords b) w d

end SearchServer

namespace SearchServer

variable {α : Type}

/-- The sequential content of the sharded accumulator: after the locked
updates have taken effect in any order, `BuildOrdinaryMap` maps every updated
key to the sum of the increments made to it, and holds no other key. -/
theorem find_BuildOrdinaryMap_updates [LinearOrderedField α]
    (updates : List (DocumentId × α)) (bucket_count : Nat) (hbuckets : 1 ≤ bucket_count)
    (d : DocumentId) :
    UnorderedMap.find
        (updates.foldl (fun result u => result.addAt u.1 u.2)
          (ConcurrentMap.create bucket_count)).BuildOrdinaryMap d
      = if d ∈ updates.map Prod.fst then some (Total updates d) else none := by
  rw [ConcurrentMap.find_BuildOrdinaryMap]
  have hlen : (ConcurrentMap.create bucket_count : ConcurrentMap α).buckets_.length
      = bucket_count := by simp [ConcurrentMap.create]
  have hsim := ConcurrentMap.find_foldl_addAt updates
    (ConcurrentMap.create bucket_count) [] (by omega)
    (by rw [hlen]; exact ConcurrentMap.Routed_replicate _ _ _)
    (by
      intro d
      rw [ConcurrentMap.create_flatten])
  rw [hsim d]
  exact find_foldl_applyUpdate_eq updates d

end SearchServer

/-! ## The documents that match a query -/

namespace SearchServer

variable {α : Type}

theorem mem_PostingIds (srv : SearchServer α) (word : Str) (d : DocumentId) :
    d ∈ PostingIds srv word ↔ PostingOf srv.word_to_document_freqs_ word d ≠ none := by
  rw [PostingOf_ne_none_iff]
  unfold PostingIds
  cases hf : UnorderedMap.find srv.word_to_document_freqs_ word with
  | none => simp
  | some postings => simp

theorem mem_MinusTerms (srv : SearchServer α) (raw_query : Str) (w : Str) :
    w ∈ MinusTerms srv raw_query
      ↔ ('-' :: w) ∈ SplitIntoWords raw_query ∧ srv.IsStopWord w = false := by
  unfold MinusTerms
  rw [List.mem_filter, List.mem_filterMap]
  constructor
  · rintro ⟨⟨a, ha, h⟩, hs⟩
    refine ⟨?_, by simpa using hs⟩
    cases a with
    | nil => simp at h
    | cons c cs =>
      by_cases hc : c = '-'
      · subst hc
        simp at h
        subst h
        exact ha
      · simp [hc] at h
  · rintro ⟨h, hs⟩
    exact ⟨⟨'-' :: w, h, by simp⟩, by simp [hs]⟩

/-- The matching documents in terms of the parsed query. -/
theorem mem_MatchingIds (srv : SearchServer α) (raw_query : Str) (query : Query)
    (hparse : srv.ParseQuery raw_query = .ok query) (d : DocumentId) :
    d ∈ MatchingIds srv raw_query ↔
      (∃ word ∈ query.plus_words, PostingOf srv.word_to_document_freqs_ word d ≠ none) ∧
      ∀ word ∈ query.minus_words, PostingOf srv.word_to_document_freqs_ word d = none := by
  unfold MatchingIds
  rw [List.mem_filter, List.mem_dedup, List.mem_flatMap, List.all_eq_true]
  have hplus := ParseQuery_plus_words_perm srv raw_query query hparse
  constructor
  · rintro ⟨⟨word, hw, hd⟩, hm⟩
    refine ⟨⟨word, hplus.mem_iff.2 hw, (mem_PostingIds srv word d).1 hd⟩, ?_⟩
    intro word hw
    have h1 := hm word ((mem_MinusTerms srv raw_query word).2
      ((ParseQuery_minus_words srv raw_query query hparse word).1 hw))
    by_contra hne
    exact (of_decide_eq_true h1) ((mem_PostingIds srv word d).2 hne)
  · rintro ⟨⟨word, hw, hd⟩, hm⟩
    refine ⟨⟨word, hplus.mem_iff.1 hw, (mem_PostingIds srv word d).2 hd⟩, ?_⟩
    intro word hw
    have h1 := hm word ((ParseQuery_minus_words srv raw_query query hparse word).2
      ((mem_MinusTerms srv raw_query word).1 hw))
    apply decide_eq_true
    intro hin
    exact ((mem_PostingIds srv word d).1 hin) h1

theorem MatchingIds_nodup (srv : SearchServer α) (raw_query : Str) :
    (MatchingIds srv raw_query).Nodup :=
  (List.nodup_dedup _).filter _

/-- Under a fair policy `FindAll` returns the same results as the sequenced
`FindAll`, up to their order. -/
theorem FindAll_perm_seq [LinearOrderedField α] (log : α → α) (srv : SearchServer α)
    (policy : ExecutionPolicy α) (hfair : policy.Fair) (query : Query) :
    (ConvertToResults (srv.EraseDocumentsWithMinusWords (PlusWordsMap log srv policy query)
        query.minus_words)).Perm
      (ConvertToResults (srv.EraseDocumentsWithMinusWords (PlusWordsMap log srv .seq query)
        query.minus_words)) := by
  cases policy with
  | seq => exact List.Perm.refl _
  | par interleave bucket_count =>
    obtain ⟨hb, hi⟩ := hfair
    have hmaps : (PlusWordsMap log srv (.par interleave bucket_count) query).Perm
        (PlusWordsMap log srv .seq query) :=
      UnorderedMap.perm_of_find_eq _ _ (PlusWordsMap_keys_nodup log srv _ query)
        (PlusWordsMap_keys_nodup log srv _ query)
        (find_PlusWordsMap_par log srv query interleave bucket_count hb hi)
    exact (EraseDocumentsWithMinusWords_perm srv query.minus_words _ _ hmaps).map _

/-- The results of `FindAll` are one result for each matching document. -/
theorem FindAll_ids_perm_MatchingIds [LinearOrderedField α] (log : α → α)
    (srv : SearchServer α) (policy : ExecutionPolicy α) (hfair : policy.Fair)
    (raw_query : Str) (query : Query) (hparse : srv.ParseQuery raw_query = .ok query) :
    ((ConvertToResults (srv.EraseDocumentsWithMinusWords (PlusWordsMap log srv policy query)
        query.minus_words)).map fun r => r.id).Perm (MatchingIds srv raw_query) := by
  rw [List.perm_ext_iff_of_nodup (FindAll_ids_nodup log srv policy query)
    (MatchingIds_nodup srv raw_query)]
  intro d
  rw [mem_MatchingIds srv raw_query query hparse d, ← mem_FindAll_ids log srv query d]
  exact ((FindAll_perm_seq log srv policy hfair query).map _).mem_iff

end SearchServer

/-! ## A token added at the end of a query -/

namespace SearchServer

variable {α : Type}

end SearchServer

namespace SearchServer

variable {α : Type}

end SearchServer

/-! ## The claims -/

open SearchServer

/-- C1, at the code: for every state, every identifier that is not stored and
every text with an invalid word, `AddDocument` throws, but the document has
been emplaced into `documents_` before the words were validated and stays
there, so the state (and the document count) after the call differs from the
state before it. -/
theorem AddDocument_invalid_word_keeps_document [LinearOrderedField α]
    (srv : SearchServer α) (document_id : DocumentId) (document : Str)
    (hfresh : document_id ∉ srv.StoredIds) (hbad : HasInvalidWord document) :
    (∃ e, (srv.AddDocument document_id document).1 = .error e) ∧
    (srv.AddDocument document_id document).2.documents_ = (document_id, document) :: srv.documents_ ∧
    UnorderedMap.size (srv.AddDocument document_id document).2.documents_
      = UnorderedMap.size srv.documents_ + 1 ∧
    (srv.AddDocument document_id document).2 ≠ srv := by
  have hcount : ¬ UnorderedMap.count srv.documents_ document_id > 0 := by
    rw [UnorderedMap.count_pos_iff]; exact hfresh
  have hfind : UnorderedMap.find srv.documents_ document_id = none :=
    (UnorderedMap.find_eq_none_iff _ _).2 hfresh
  obtain ⟨e, he⟩ := SplitIntoWordsNoStop_invalid
    ({ srv with documents_ := UnorderedMap.emplace srv.documents_ document_id document }) document hbad
  have hstate : srv.AddDocument document_id document
      = (.error e, { srv with documents_ := (document_id, document) :: srv.documents_ }) := by
    unfold AddDocument
    rw [if_neg hcount]
    simp only [he]
    simp [UnorderedMap.emplace, hfind]
  rw [hstate]
  refine ⟨⟨e, rfl⟩, rfl, by simp [UnorderedMap.size], ?_⟩
  intro h
  have := congrArg (fun s => s.documents_.length) h
  simp at this

/-- Witness of C1: the empty server, identifier 0 and a text with the word
`a\x01`. -/
theorem AddDocument_invalid_word_keeps_document_witness :
    (0 ∉ ({} : SearchServer ℚ).StoredIds ∧ HasInvalidWord ['a', '\x01']) ∧
    (∃ e, ((({} : SearchServer ℚ).AddDocument 0 ['a', '\x01']).1 = .error e)) ∧
    (({} : SearchServer ℚ).AddDocument 0 ['a', '\x01']).2.documents_ = [(0, ['a', '\x01'])] ∧
    UnorderedMap.size (({} : SearchServer ℚ).AddDocument 0 ['a', '\x01']).2.documents_ = 0 + 1 ∧
    (({} : SearchServer ℚ).AddDocument 0 ['a', '\x01']).2 ≠ {} :=
  ⟨⟨by decide, ['a', '\x01'], by decide, '\x01', by decide, by decide⟩,
    AddDocument_invalid_word_keeps_document ({} : SearchServer ℚ) 0 ['a', '\x01']
      (by decide) ⟨['a', '\x01'], by decide, '\x01', by decide, by decide⟩⟩

/-- C2, refuted as stated: on the server built with the stop words `the a`
that holds only document 0 = `the cat sat`, `Find("cat", 1)` does not return a
single result of relevance greater than 0. -/
theorem Find_cat_relevance_not_positive :
    (SearchServer.create "the a".toList : Except Exception (SearchServer ℝ))
      = .ok { stop_words_ := ["the".toList, "a".toList] } ∧
    ¬ ∃ r : Result ℝ,
        ((({ stop_words_ := ["the".toList, "a".toList] } : SearchServer ℝ).AddDocument 0
            "the cat sat".toList).2.Find Real.log "cat".toList 1 = .ok [r]) ∧
        r.id = 0 ∧ r.relevance > 0 := by
  refine ⟨rfl, ?_⟩
  have h : (({ stop_words_ := ["the".toList, "a".toList] } : SearchServer ℝ).AddDocument 0
      "the cat sat".toList).2.Find Real.log "cat".toList 1
      = .ok (LeaveTopResults
          [⟨0, 0 + (0 + 1 / ((2 : ℕ) : ℝ)) * Real.log (((1 : ℕ) : ℝ) * 1 / ((1 : ℕ) : ℝ))⟩] 1) := rfl
  rw [h]
  rintro ⟨r, hr, -, hpos⟩
  simp [LeaveTopResults, sort, sortInsert] at hr
  rw [← hr] at hpos
  simp at hpos

/-- C2, amended: the constructor with the stop words `the a` succeeds, adding
document 0 = `the cat sat` to that server succeeds, and then `Find("cat", k)`
returns for every `k >= 1` exactly one result, with id 0 and relevance exactly
0 (the only document holds the term, so its IDF is `log (1 / 1) = 0`). -/
theorem Find_cat_single_result_zero (k : ℕ) (hk : 1 ≤ k) :
    (SearchServer.create "the a".toList : Except Exception (SearchServer ℝ))
      = .ok { stop_words_ := ["the".toList, "a".toList] } ∧
    (({ stop_words_ := ["the".toList, "a".toList] } : SearchServer ℝ).AddDocument 0
        "the cat sat".toList).1 = .ok () ∧
    (({ stop_words_ := ["the".toList, "a".toList] } : SearchServer ℝ).AddDocument 0
        "the cat sat".toList).2.Find Real.log "cat".toList k = .ok [⟨0, 0⟩] := by
  refine ⟨rfl, rfl, ?_⟩
  have h : (({ stop_words_ := ["the".toList, "a".toList] } : SearchServer ℝ).AddDocument 0
      "the cat sat".toList).2.Find Real.log "cat".toList k
      = .ok (LeaveTopResults
          [⟨0, 0 + (0 + 1 / ((2 : ℕ) : ℝ)) * Real.log (((1 : ℕ) : ℝ) * 1 / ((1 : ℕ) : ℝ))⟩] k) := rfl
  rw [h]
  simp [LeaveTopResults, sort, sortInsert]
  omega

/-- Witness of C2 as amended, at `k = 1`. -/
theorem Find_cat_single_result_zero_witness :
    1 ≤ 1 ∧
    (SearchServer.create "the a".toList : Except Exception (SearchServer ℝ))
      = .ok { stop_words_ := ["the".toList, "a".toList] } ∧
    (({ stop_words_ := ["the".toList, "a".toList] } : SearchServer ℝ).AddDocument 0
        "the cat sat".toList).1 = .ok () ∧
    (({ stop_words_ := ["the".toList, "a".toList] } : SearchServer ℝ).AddDocument 0
        "the cat sat".toList).2.Find Real.log "cat".toList 1 = .ok [⟨0, 0⟩] :=
  ⟨le_refl 1, Find_cat_single_result_zero 1 (le_refl 1)⟩

/-- C3, refuted as stated: `AddDocument` succeeds on a text without words and on
a text of stop words only, and then no term frequency at all is recorded for
the identifier, so the sum is 0 and not 1. -/
theorem AddDocument_no_words_term_freq_sum :
    ((({} : SearchServer ℚ).AddDocument 0 []).1 = .ok () ∧
      TermFreqSum (({} : SearchServer ℚ).AddDocument 0 []).2 0 ≠ 1) ∧
    ((({ stop_words_ := ["the".toList] } : SearchServer ℚ).AddDocument 7 "the the".toList).1
        = .ok () ∧
      TermFreqSum (({ stop_words_ := ["the".toList] } : SearchServer ℚ).AddDocument 7
        "the the".toList).2 7 ≠ 1) := by
  decide

/-- C3, amended: for every reachable state, every identifier and every text
with at least one word that is not a stop word, if `AddDocument` succeeds then
the sum over all terms of the term frequencies recorded for that identifier is
exactly 1. -/
theorem AddDocument_term_freq_sum [LinearOrderedField α]
    (srv : SearchServer α) (document_id : DocumentId) (document : Str)
    (hreach : Reachable srv)
    (hok : (srv.AddDocument document_id document).1 = .ok ())
    (hword : ∃ word ∈ SplitIntoWords document, srv.IsStopWord word = false) :
    TermFreqSum (srv.AddDocument document_id document).2 document_id = 1 := by
  rcases AddDocument_cases srv document_id document with
    ⟨_, h⟩ | ⟨_, e, _, h⟩ | ⟨hfresh, words_sv, hsplit, h⟩
  · rw [h] at hok; cases hok
  · rw [h] at hok; cases hok
  · rw [h]
    have hlen := SplitIntoWordsNoStopLoop_length srv _ _ _ hsplit
    have hpos : 0 < words_sv.length := by
      rw [hlen]
      obtain ⟨word, hw, hs⟩ := hword
      have : word ∈ (SplitIntoWords document).filter fun w => !srv.IsStopWord w := by
        simp [List.mem_filter, hw, hs]
      have := List.length_pos_of_mem this
      omega
    have hne : (words_sv.length : α) ≠ 0 := by
      exact_mod_cast (Nat.pos_iff_ne_zero.1 hpos)
    have hzero := TermFreqSum_eq_zero srv hreach.postingsStored document_id hfresh
    unfold TermFreqSum at hzero ⊢
    simp only [TermFreq_sum_foldl, hzero]
    field_simp

/-- Witness of C3 as amended: document 0 = `the cat sat` on the server with the
stop words `the a`. -/
theorem AddDocument_term_freq_sum_witness :
    Reachable ({ stop_words_ := ["the".toList, "a".toList] } : SearchServer ℚ) ∧
    (({ stop_words_ := ["the".toList, "a".toList] } : SearchServer ℚ).AddDocument 0
      "the cat sat".toList).1 = .ok () ∧
    (∃ word ∈ SplitIntoWords "the cat sat".toList,
      ({ stop_words_ := ["the".toList, "a".toList] } : SearchServer ℚ).IsStopWord word = false) ∧
    TermFreqSum (({ stop_words_ := ["the".toList, "a".toList] } : SearchServer ℚ).AddDocument 0
      "the cat sat".toList).2 0 = 1 :=
  ⟨Reachable.create "the a".toList _ rfl, rfl, ⟨"cat".toList, by decide, by decide⟩,
    AddDocument_term_freq_sum ({ stop_words_ := ["the".toList, "a".toList] } : SearchServer ℚ) 0
      "the cat sat".toList (Reachable.create "the a".toList _ rfl) rfl
      ⟨"cat".toList, by decide, by decide⟩⟩

/-- C4: for every state, every policy, every query that parses and every
`results_num`, the minus words of the parsed query are the tokens with a
leading minus sign (without the sign) that are not stop words, `Find` returns
a result, and no returned result has an id that occurs in the postings of a
minus word (whether or not the same word is also a plus word). -/
theorem Find_excludes_minus_words [LinearOrderedField α] (log : α → α)
    (srv : SearchServer α) (policy : ExecutionPolicy α) (raw_query : Str) (results_num : Nat)
    (query : Query) (hparse : srv.ParseQuery raw_query = .ok query) :
    (∀ word, word ∈ query.minus_words ↔
      ('-' :: word) ∈ SplitIntoWords raw_query ∧ srv.IsStopWord word = false) ∧
    ∃ results, srv.FindWith log policy raw_query results_num = .ok results ∧
      ∀ r ∈ results, ∀ word ∈ query.minus_words, ∀ postings,
        UnorderedMap.find srv.word_to_document_freqs_ word = some postings →
        r.id ∉ postings.map Prod.fst := by
  refine ⟨ParseQuery_minus_words srv raw_query query hparse, _,
    FindWith_eq log srv policy raw_query results_num query hparse, ?_⟩
  intro r hr
  rw [LeaveTopResults_eq] at hr
  have hsorted := List.mem_of_mem_take hr
  have hall := (sort_perm _ _).subset hsorted
  rw [mem_ConvertToResults, mem_EraseDocumentsWithMinusWords] at hall
  exact hall.2

/-- Witness of C4: documents 0 = `cat dog` and 1 = `cat`, query `cat -dog -cat`,
where `cat` is both a plus word and a minus word. -/
theorem Find_excludes_minus_words_witness :
    ((({} : SearchServer ℝ).AddDocument 0 "cat dog".toList).2.AddDocument 1
        "cat".toList).2.ParseQuery "cat -dog -cat".toList
      = .ok ⟨["cat".toList], ["cat".toList, "dog".toList]⟩ ∧
    (∀ word, word ∈ ["cat".toList, "dog".toList] ↔
      ('-' :: word) ∈ SplitIntoWords "cat -dog -cat".toList ∧
      ((({} : SearchServer ℝ).AddDocument 0 "cat dog".toList).2.AddDocument 1
        "cat".toList).2.IsStopWord word = false) ∧
    ∃ results,
      ((({} : SearchServer ℝ).AddDocument 0 "cat dog".toList).2.AddDocument 1 "cat".toList).2.FindWith
          Real.log .seq "cat -dog -cat".toList 5 = .ok results ∧
      ∀ r ∈ results, ∀ word ∈ ["cat".toList, "dog".toList], ∀ postings,
        UnorderedMap.find
          ((({} : SearchServer ℝ).AddDocument 0 "cat dog".toList).2.AddDocument 1
            "cat".toList).2.word_to_document_freqs_ word = some postings →
        r.id ∉ postings.map Prod.fst :=
  ⟨by decide, Find_excludes_minus_words Real.log
    ((({} : SearchServer ℝ).AddDocument 0 "cat dog".toList).2.AddDocument 1 "cat".toList).2
    .seq "cat -dog -cat".toList 5 ⟨["cat".toList], ["cat".toList, "dog".toList]⟩ (by decide)⟩

/-- C5: for every state, every policy, every query that parses and every
`results_num`, `Find` returns a sequence of at most `results_num` results whose
relevances do not increase from first to last; with `results_num = 0` it is
empty. -/
theorem Find_at_most_results_num_sorted [LinearOrderedField α] (log : α → α)
    (srv : SearchServer α) (policy : ExecutionPolicy α) (raw_query : Str) (results_num : Nat)
    (query : Query) (hparse : srv.ParseQuery raw_query = .ok query) :
    ∃ results, srv.FindWith log policy raw_query results_num = .ok results ∧
      results.length ≤ results_num ∧
      results.Pairwise (fun a b => a.relevance ≥ b.relevance) ∧
      (results_num = 0 → results = []) := by
  refine ⟨_, FindWith_eq log srv policy raw_query results_num query hparse, ?_, ?_, ?_⟩
  · rw [LeaveTopResults_eq, List.length_take]
    exact Nat.min_le_left _ _
  · rw [LeaveTopResults_eq]
    exact (sort_pairwise _).sublist (List.take_sublist _ _)
  · intro h0
    rw [LeaveTopResults_eq, h0, List.take_zero]

/-- Witness of C5: three documents match the query `cat` and two are asked for. -/
theorem Find_at_most_results_num_sorted_witness :
    (((({} : SearchServer ℝ).AddDocument 0 "cat dog".toList).2.AddDocument 1
        "cat".toList).2.AddDocument 2 "cat a b".toList).2.ParseQuery "cat".toList
      = .ok ⟨["cat".toList], []⟩ ∧
    ∃ results,
      (((({} : SearchServer ℝ).AddDocument 0 "cat dog".toList).2.AddDocument 1
          "cat".toList).2.AddDocument 2 "cat a b".toList).2.FindWith
          Real.log .seq "cat".toList 2 = .ok results ∧
      results.length ≤ 2 ∧
      results.Pairwise (fun a b => a.relevance ≥ b.relevance) ∧
      (2 = 0 → results = []) :=
  ⟨by decide, Find_at_most_results_num_sorted Real.log
    (((({} : SearchServer ℝ).AddDocument 0 "cat dog".toList).2.AddDocument 1
      "cat".toList).2.AddDocument 2 "cat a b".toList).2
    .seq "cat".toList 2 ⟨["cat".toList], []⟩ (by decide)⟩

/-- C6: for every state, every policy, every query that parses and every
`results_num`, `Find` returns the top results of `FindAll`.  The returned
results followed by a remainder `rest` are, up to their order, the results of
`FindAll`; exactly `min results_num m` results are returned, `m` being the
number of results of `FindAll`; their ids are pairwise distinct; and every
result that is not returned has a relevance less than or equal to the
relevance of every returned result.  Under a fair policy (the sequenced one,
or the parallel one with at least one bucket and every update taking effect
once) the results of `FindAll` are one result for each matching document
(`MatchingIds`: the documents in the postings of some plus term and of no
minus term), so that `m` is the number of the documents left after the
exclusion of the minus terms. -/
theorem Find_top_results [LinearOrderedField α] (log : α → α)
    (srv : SearchServer α) (policy : ExecutionPolicy α) (raw_query : Str) (results_num : Nat)
    (query : Query) (hparse : srv.ParseQuery raw_query = .ok query) :
    ∃ all results rest, srv.FindAll log policy query = .ok all ∧
      srv.FindWith log policy raw_query results_num = .ok results ∧
      (results ++ rest).Perm all ∧
      results.length = min results_num all.length ∧
      (results.map fun r => r.id).Nodup ∧
      (∀ r ∈ rest, ∀ r' ∈ results, r.relevance ≤ r'.relevance) ∧
      (∀ r ∈ all, r ∉ results → ∀ r' ∈ results, r.relevance ≤ r'.relevance) ∧
      (policy.Fair →
        (all.map fun r => r.id).Perm (MatchingIds srv raw_query) ∧
        results.length = min results_num (MatchingIds srv raw_query).length) := by
  have hsplit := List.take_append_drop results_num
    (sort (fun lhs rhs : Result α => decide (lhs.relevance > rhs.relevance))
      (ConvertToResults (srv.EraseDocumentsWithMinusWords (PlusWordsMap log srv policy query)
        query.minus_words)))
  have hp := sort_pairwise (ConvertToResults
    (srv.EraseDocumentsWithMinusWords (PlusWordsMap log srv policy query) query.minus_words))
  rw [← hsplit, List.pairwise_append] at hp
  refine ⟨_, _, List.drop results_num
      (sort (fun lhs rhs : Result α => decide (lhs.relevance > rhs.relevance))
        (ConvertToResults (srv.EraseDocumentsWithMinusWords
          (PlusWordsMap log srv policy query) query.minus_words))),
    FindAll_eq log srv policy query,
    FindWith_eq log srv policy raw_query results_num query hparse, ?_, ?_, ?_, ?_, ?_, ?_⟩
  · rw [LeaveTopResults_eq, hsplit]
    exact sort_perm _ _
  · rw [LeaveTopResults_eq, List.length_take, (sort_perm _ _).length_eq]
  · rw [LeaveTopResults_eq]
    exact (((List.take_sublist _ _).map _).nodup
      (((sort_perm _ _).map _).nodup_iff.2 (FindAll_ids_nodup log srv policy query)))
  · intro r hr r' hr'
    rw [LeaveTopResults_eq] at hr'
    exact hp.2.2 r' hr' r hr
  · intro r hall hnot r' hr'
    rw [LeaveTopResults_eq] at hnot hr'
    have hsorted := (sort_perm (fun lhs rhs : Result α => decide (lhs.relevance > rhs.relevance))
      _).symm.subset hall
    rw [← hsplit] at hsorted
    rcases List.mem_append.1 hsorted with h | h
    · exact absurd h hnot
    · exact hp.2.2 r' hr' r h
  · intro hfair
    have hids := FindAll_ids_perm_MatchingIds log srv policy hfair raw_query query hparse
    refine ⟨hids, ?_⟩
    rw [LeaveTopResults_eq, List.length_take, (sort_perm _ _).length_eq, ← hids.length_eq,
      List.length_map]

/-- Witness of C6: on the server with the documents 0 = `cat dog`, 1 = `cat`,
2 = `cat a b`, 3 = `emu cat` and 4 = `fox`, the query `cat -emu` has the three
matching documents 2, 1 and 0; with `results_num = 2` the sequenced `Find`
returns document 1 with relevance `ln (5 / 4)` and then document 0 with
relevance `1 / 2 * ln (5 / 4)`. -/
theorem Find_top_results_witness :
    (rankServer ℝ).ParseQuery "cat -emu".toList = .ok ⟨["cat".toList], ["emu".toList]⟩ ∧
    MatchingIds (rankServer ℝ) "cat -emu".toList = [2, 1, 0] ∧
    (rankServer ℝ).FindWith Real.log .seq "cat -emu".toList 2
      = .ok [⟨1, Real.log (5 / 4)⟩, ⟨0, 1 / 2 * Real.log (5 / 4)⟩] ∧
    ∃ all results rest,
      (rankServer ℝ).FindAll Real.log .seq ⟨["cat".toList], ["emu".toList]⟩ = .ok all ∧
      (rankServer ℝ).FindWith Real.log .seq "cat -emu".toList 2 = .ok results ∧
      (results ++ rest).Perm all ∧
      results.length = min 2 all.length ∧
      (results.map fun r => r.id).Nodup ∧
      (∀ r ∈ rest, ∀ r' ∈ results, r.relevance ≤ r'.relevance) ∧
      (∀ r ∈ all, r ∉ results → ∀ r' ∈ results, r.relevance ≤ r'.relevance) ∧
      ((ExecutionPolicy.seq : ExecutionPolicy ℝ).Fair →
        (all.map fun r => r.id).Perm (MatchingIds (rankServer ℝ) "cat -emu".toList) ∧
        results.length = min 2 (MatchingIds (rankServer ℝ) "cat -emu".toList).length) := by
  refine ⟨by decide, by decide, ?_,
    Find_top_results Real.log (rankServer ℝ) .seq "cat -emu".toList 2
      ⟨["cat".toList], ["emu".toList]⟩ (by decide)⟩
  have h : (rankServer ℝ).FindWith Real.log .seq "cat -emu".toList 2
      = .ok (LeaveTopResults
          [⟨0, 0 + (0 + 1 / ((2 : ℕ) : ℝ)) * Real.log (((5 : ℕ) : ℝ) * 1 / ((4 : ℕ) : ℝ))⟩,
           ⟨1, 0 + (0 + 1 / ((1 : ℕ) : ℝ)) * Real.log (((5 : ℕ) : ℝ) * 1 / ((4 : ℕ) : ℝ))⟩,
           ⟨2, 0 + (0 + 1 / ((3 : ℕ) : ℝ)) * Real.log (((5 : ℕ) : ℝ) * 1 / ((4 : ℕ) : ℝ))⟩]
          2) := rfl
  rw [h]
  have hL : 0 < Real.log (5 / 4) := Real.log_pos (by norm_num)
  have h1 : (3 : ℝ)⁻¹ * Real.log (5 / 4) < Real.log (5 / 4) := by linarith
  have h2 : (3 : ℝ)⁻¹ * Real.log (5 / 4) < 2⁻¹ * Real.log (5 / 4) := by linarith
  have h3 : (2 : ℝ)⁻¹ * Real.log (5 / 4) < Real.log (5 / 4) := by linarith
  simp [LeaveTopResults, sort, sortInsert, h1, h2, h3, not_lt_of_lt h1, not_lt_of_lt h2,
    not_lt_of_lt h3]

/-- C8, refuted as stated: on the server with the documents 0 = `a`, 1 = `a`,
2 = `b`, the query `a` with `results_num = 1` gives document 0 in sequential
mode and document 1 in parallel mode (100 buckets, the updates taking effect in
the order of the tasks); the two documents have the same relevance and the two
modes enumerate them in different orders. -/
theorem Find_par_seq_differ :
    (tieServer ℝ).Find Real.log "a".toList 1 = .ok [⟨0, Real.log (3 / 2)⟩] ∧
    (tieServer ℝ).FindWith Real.log (.par id 100) "a".toList 1 = .ok [⟨1, Real.log (3 / 2)⟩] ∧
    (⟨1, Real.log (3 / 2)⟩ : Result ℝ) ∉ [(⟨0, Real.log (3 / 2)⟩ : Result ℝ)] := by
  refine ⟨?_, ?_, ?_⟩
  · rw [Find, FindWith_eq Real.log (tieServer ℝ) .seq "a".toList 1 ⟨["a".toList], []⟩ (by decide)]
    have h : ConvertToResults ((tieServer ℝ).EraseDocumentsWithMinusWords
        (PlusWordsMap Real.log (tieServer ℝ) .seq ⟨["a".toList], []⟩) [])
        = [⟨0, 0 + (0 + 1 / ((1 : ℕ) : ℝ)) * Real.log (((3 : ℕ) : ℝ) * 1 / ((2 : ℕ) : ℝ))⟩,
           ⟨1, 0 + (0 + 1 / ((1 : ℕ) : ℝ)) * Real.log (((3 : ℕ) : ℝ) * 1 / ((2 : ℕ) : ℝ))⟩] := rfl
    rw [h]
    simp [LeaveTopResults, sort, sortInsert]
  · rw [FindWith_eq Real.log (tieServer ℝ) (.par id 100) "a".toList 1 ⟨["a".toList], []⟩
      (by decide)]
    have h : ConvertToResults ((tieServer ℝ).EraseDocumentsWithMinusWords
        (PlusWordsMap Real.log (tieServer ℝ) (.par id 100) ⟨["a".toList], []⟩) [])
        = [⟨1, 0 + (0 + 1 / ((1 : ℕ) : ℝ)) * Real.log (((3 : ℕ) : ℝ) * 1 / ((2 : ℕ) : ℝ))⟩,
           ⟨0, 0 + (0 + 1 / ((1 : ℕ) : ℝ)) * Real.log (((3 : ℕ) : ℝ) * 1 / ((2 : ℕ) : ℝ))⟩] := rfl
    rw [h]
    simp [LeaveTopResults, sort, sortInsert]
  · simp

/-- C8, amended: for every state, query, `results_num`, bucket count of at least
1 and schedule that rearranges the updates, either `Find` throws the same
exception in both modes, or `FindAll` returns the same set of results in both
modes and `Find` returns in both modes sequences with the same relevances
position by position; every result of the parallel `Find` is a result of the
sequential `FindAll`, and when `results_num` is at least the number of results
of `FindAll` the two modes of `Find` return the same set of results. -/
theorem Find_par_seq_agree [LinearOrderedField α] (log : α → α) (srv : SearchServer α)
    (raw_query : Str) (results_num : Nat)
    (interleave : List (DocumentId × α) → List (DocumentId × α)) (bucket_count : Nat)
    (hbuckets : 1 ≤ bucket_count)
    (hinterleave : ∀ updates, (interleave updates).Perm updates) :
    (∃ e, srv.FindWith log .seq raw_query results_num = .error e ∧
      srv.FindWith log (.par interleave bucket_count) raw_query results_num = .error e) ∨
    (∃ query all_seq all_par results_seq results_par,
      srv.ParseQuery raw_query = .ok query ∧
      srv.FindAll log .seq query = .ok all_seq ∧
      srv.FindAll log (.par interleave bucket_count) query = .ok all_par ∧
      srv.FindWith log .seq raw_query results_num = .ok results_seq ∧
      srv.FindWith log (.par interleave bucket_count) raw_query results_num = .ok results_par ∧
      (∀ r, r ∈ all_par ↔ r ∈ all_seq) ∧
      results_par.map (fun r => r.relevance) = results_seq.map (fun r => r.relevance) ∧
      (∀ r ∈ results_par, r ∈ all_seq) ∧
      (all_seq.length ≤ results_num → ∀ r, r ∈ results_par ↔ r ∈ results_seq)) := by
  cases hparse : srv.ParseQuery raw_query with
  | error e =>
    left
    exact ⟨e, FindWith_error log srv _ raw_query results_num e hparse,
      FindWith_error log srv _ raw_query results_num e hparse⟩
  | ok query =>
    right
    have hmaps : (PlusWordsMap log srv (.par interleave bucket_count) query).Perm
        (PlusWordsMap log srv .seq query) :=
      UnorderedMap.perm_of_find_eq _ _ (PlusWordsMap_keys_nodup log srv _ query)
        (PlusWordsMap_keys_nodup log srv _ query)
        (find_PlusWordsMap_par log srv query interleave bucket_count hbuckets hinterleave)
    have hall : (ConvertToResults (srv.EraseDocumentsWithMinusWords
          (PlusWordsMap log srv (.par interleave bucket_count) query) query.minus_words)).Perm
        (ConvertToResults (srv.EraseDocumentsWithMinusWords
          (PlusWordsMap log srv .seq query) query.minus_words)) :=
      (EraseDocumentsWithMinusWords_perm srv query.minus_words _ _ hmaps).map _
    refine ⟨query, _, _, _, _, rfl, FindAll_eq log srv .seq query,
      FindAll_eq log srv (.par interleave bucket_count) query,
      FindWith_eq log srv .seq raw_query results_num query hparse,
      FindWith_eq log srv (.par interleave bucket_count) raw_query results_num query hparse,
      fun r => hall.mem_iff, ?_, ?_, ?_⟩
    · rw [LeaveTopResults_eq, LeaveTopResults_eq, List.map_take, List.map_take,
        sort_relevance_eq_of_perm _ _ hall]
    · intro r hr
      rw [LeaveTopResults_eq] at hr
      exact hall.subset ((sort_perm _ _).subset (List.mem_of_mem_take hr))
    · intro hlen r
      have hlen' : (ConvertToResults (srv.EraseDocumentsWithMinusWords
          (PlusWordsMap log srv (.par interleave bucket_count) query) query.minus_words)).length
          ≤ results_num := by rw [hall.length_eq]; exact hlen
      rw [LeaveTopResults_eq, LeaveTopResults_eq,
        List.take_of_length_le (by rw [(sort_perm _ _).length_eq]; exact hlen'),
        List.take_of_length_le (by rw [(sort_perm _ _).length_eq]; exact hlen)]
      exact (((sort_perm _ _).trans hall).trans (sort_perm _ _).symm).mem_iff

/-- Witness of C8 as amended: the server of the scenario, the query `a b`, 100
buckets and the updates taking effect in reverse order. -/
theorem Find_par_seq_agree_witness :
    1 ≤ 100 ∧ (∀ updates : List (DocumentId × ℝ), (List.reverse updates).Perm updates) ∧
    ((∃ e, (tieServer ℝ).FindWith Real.log .seq "a b".toList 2 = .error e ∧
      (tieServer ℝ).FindWith Real.log (.par List.reverse 100) "a b".toList 2 = .error e) ∨
    (∃ query all_seq all_par results_seq results_par,
      (tieServer ℝ).ParseQuery "a b".toList = .ok query ∧
      (tieServer ℝ).FindAll Real.log .seq query = .ok all_seq ∧
      (tieServer ℝ).FindAll Real.log (.par List.reverse 100) query = .ok all_par ∧
      (tieServer ℝ).FindWith Real.log .seq "a b".toList 2 = .ok results_seq ∧
      (tieServer ℝ).FindWith Real.log (.par List.reverse 100) "a b".toList 2 = .ok results_par ∧
      (∀ r, r ∈ all_par ↔ r ∈ all_seq) ∧
      results_par.map (fun r => r.relevance) = results_seq.map (fun r => r.relevance) ∧
      (∀ r ∈ results_par, r ∈ all_seq) ∧
      (all_seq.length ≤ 2 → ∀ r, r ∈ results_par ↔ r ∈ results_seq))) :=
  ⟨by decide, fun updates => List.reverse_perm updates,
    Find_par_seq_agree Real.log (tieServer ℝ) "a b".toList 2 List.reverse 100 (by decide)
      (fun updates => List.reverse_perm updates)⟩

/-- C9: for every state, every identifier that is already stored and every
text, `AddDocument` throws `invalid_argument` and leaves the whole state, in
particular the inverted mapping and the stored documents, as it was. -/
theorem AddDocument_duplicate_id [LinearOrderedField α]
    (srv : SearchServer α) (document_id : DocumentId) (document : Str)
    (hstored : document_id ∈ srv.StoredIds) :
    (srv.AddDocument document_id document).1 = .error (.invalid_argument "Invalid document_id") ∧
    (srv.AddDocument document_id document).2.word_to_document_freqs_ = srv.word_to_document_freqs_ ∧
    (srv.AddDocument document_id document).2.documents_ = srv.documents_ ∧
    (srv.AddDocument document_id document).2 = srv := by
  have hcount : UnorderedMap.count srv.documents_ document_id > 0 := by
    rw [UnorderedMap.count_pos_iff]; exact hstored
  unfold AddDocument
  rw [if_pos hcount]
  exact ⟨rfl, rfl, rfl, rfl⟩

/-- Witness of C9: document 0 is added twice to the empty server. -/
theorem AddDocument_duplicate_id_witness :
    0 ∈ (({} : SearchServer ℚ).AddDocument 0 ['a']).2.StoredIds ∧
    ((({} : SearchServer ℚ).AddDocument 0 ['a']).2.AddDocument 0 ['b']).1
      = .error (.invalid_argument "Invalid document_id") ∧
    ((({} : SearchServer ℚ).AddDocument 0 ['a']).2.AddDocument 0 ['b']).2.word_to_document_freqs_
      = (({} : SearchServer ℚ).AddDocument 0 ['a']).2.word_to_document_freqs_ ∧
    ((({} : SearchServer ℚ).AddDocument 0 ['a']).2.AddDocument 0 ['b']).2.documents_
      = (({} : SearchServer ℚ).AddDocument 0 ['a']).2.documents_ ∧
    ((({} : SearchServer ℚ).AddDocument 0 ['a']).2.AddDocument 0 ['b']).2
      = (({} : SearchServer ℚ).AddDocument 0 ['a']).2 :=
  ⟨by decide,
    AddDocument_duplicate_id (({} : SearchServer ℚ).AddDocument 0 ['a']).2 0 ['b'] (by decide)⟩

/-- C10: for every state, policy, query string and `results_num`, `Find` throws
if and only if some token of the query is `-`, begins with `--` or has a
control character; a call returns results if and only if no token is
malformed, and otherwise it throws an `invalid_argument` and returns none.
In particular the queries `--x` and `-` fail on every server, the query `-the`
fails on none, and on a server with the stop word `the` it yields no result. -/
theorem Find_fails_iff_malformed_token [LinearOrderedField α] (log : α → α)
    (srv : SearchServer α) (policy : ExecutionPolicy α) (raw_query : Str) (results_num : Nat) :
    ((∃ e, srv.FindWith log policy raw_query results_num = .error e)
      ↔ ∃ word ∈ SplitIntoWords raw_query, MalformedToken word) ∧
    ((∃ results, srv.FindWith log policy raw_query results_num = .ok results)
      ↔ ¬ ∃ word ∈ SplitIntoWords raw_query, MalformedToken word) ∧
    ((∃ results, srv.FindWith log policy raw_query results_num = .ok results) ∨
      ∃ what, srv.FindWith log policy raw_query results_num = .error (.invalid_argument what)) ∧
    (∃ e, srv.FindWith log policy "--x".toList results_num = .error e) ∧
    (∃ e, srv.FindWith log policy "-".toList results_num = .error e) ∧
    (∃ results, srv.FindWith log policy "-the".toList results_num = .ok results) ∧
    ({ stop_words_ := ["the".toList] } : SearchServer α).Find log "-the".toList results_num
      = .ok [] := by
  have key : ∀ raw : Str,
      ((∃ word ∈ SplitIntoWords raw, MalformedToken word) ∧
        ∃ what, srv.FindWith log policy raw results_num = .error (.invalid_argument what)) ∨
      ((¬ ∃ word ∈ SplitIntoWords raw, MalformedToken word) ∧
        ∃ results, srv.FindWith log policy raw results_num = .ok results) := by
    intro raw
    have hparse : (∃ query, srv.ParseQuery raw = .ok query) ∨
        (∃ what, srv.ParseQuery raw = .error (.invalid_argument what)) :=
      ParseQueryLoop_ok_or_invalid srv (SplitIntoWords raw) [] []
    rcases hparse with ⟨q, hq⟩ | ⟨what, hw⟩
    · right
      refine ⟨?_, _, FindWith_eq log srv policy raw results_num q hq⟩
      intro hbad
      obtain ⟨what, hw⟩ := (ParseQuery_error_iff srv raw).2 hbad
      rw [hq] at hw
      cases hw
    · left
      exact ⟨(ParseQuery_error_iff srv raw).1 ⟨what, hw⟩, what,
        FindWith_error log srv policy raw results_num _ hw⟩
  refine ⟨?_, ?_, ?_, ?_, ?_, ?_, ?_⟩
  · rcases key raw_query with ⟨hbad, what, hf⟩ | ⟨hgood, results, hf⟩
    · exact ⟨fun _ => hbad, fun _ => ⟨_, hf⟩⟩
    · constructor
      · rintro ⟨e, he⟩
        rw [hf] at he
        cases he
      · intro hbad
        exact absurd hbad hgood
  · rcases key raw_query with ⟨hbad, what, hf⟩ | ⟨hgood, results, hf⟩
    · constructor
      · rintro ⟨results, hr⟩
        rw [hf] at hr
        cases hr
      · intro hgood
        exact absurd hbad hgood
    · exact ⟨fun _ => hgood, fun _ => ⟨_, hf⟩⟩
  · rcases key raw_query with ⟨_, what, hf⟩ | ⟨_, results, hf⟩
    · exact Or.inr ⟨what, hf⟩
    · exact Or.inl ⟨results, hf⟩
  · rcases key "--x".toList with ⟨_, what, hf⟩ | ⟨hgood, _⟩
    · exact ⟨_, hf⟩
    · exact absurd ⟨"--x".toList, by decide, Or.inr (Or.inl ⟨['x'], rfl⟩)⟩ hgood
  · rcases key "-".toList with ⟨_, what, hf⟩ | ⟨hgood, _⟩
    · exact ⟨_, hf⟩
    · exact absurd ⟨"-".toList, by decide, Or.inl rfl⟩ hgood
  · rcases key "-the".toList with ⟨⟨word, hw, hbad⟩, _⟩ | ⟨_, hf⟩
    · have hword : word = "-the".toList := by
        have : SplitIntoWords "-the".toList = ["-the".toList] := by decide
        rw [this] at hw
        simpa using hw
      subst hword
      rcases hbad with h | ⟨r, h⟩ | ⟨c, hc, hlt⟩
      · cases h
      · cases h
      · have : ∀ c ∈ "-the".toList, ¬ c.toNat < 32 := by decide
        exact absurd hlt (this c hc)
    · exact hf
  · rfl

/-- C11, refuted as stated: in the arithmetic of `double`, `AddDocument` on the
empty server with document 0 = `a a a a a a a a a` returns and records for the
word `a` the term frequency `(2 ^ 52 + 1) * 2 ^ (-52)` = 1.0000000000000002,
which is `1.0 / 9` added nine times: it is greater than 1 and is not the
quotient of the 9 occurrences by the 9 words, which is 1.  For document
1 = `a a a a a a` it records `(2 ^ 53 - 1) * 2 ^ (-53)` = 0.9999999999999999,
not the quotient of 6 by 6. -/
theorem AddDocument_term_freq_rounded :
    (({} : SearchServer Double).AddDocument 0 "a a a a a a a a a".toList).1 = .ok () ∧
    PostingOf (({} : SearchServer Double).AddDocument 0
        "a a a a a a a a a".toList).2.word_to_document_freqs_ "a".toList 0
      = some ⟨4503599627370497, -52⟩ ∧
    (1 : Double) < ⟨4503599627370497, -52⟩ ∧
    (((SplitIntoWords "a a a a a a a a a".toList).count "a".toList : Nat) : Double)
        / (((SplitIntoWords "a a a a a a a a a".toList).filter
            fun w => !({} : SearchServer Double).IsStopWord w).length : Nat)
      = (⟨4503599627370496, -52⟩ : Double) ∧
    (1 : Double) = ⟨4503599627370496, -52⟩ ∧
    (({} : SearchServer Double).AddDocument 1 "a a a a a a".toList).1 = .ok () ∧
    PostingOf (({} : SearchServer Double).AddDocument 1
        "a a a a a a".toList).2.word_to_document_freqs_ "a".toList 1
      = some ⟨9007199254740991, -53⟩ ∧
    (⟨9007199254740991, -53⟩ : Double) < 1 := by
  refine ⟨by decide, ?_, by decide, ?_, by decide, by decide, ?_, by decide⟩
  · set_option maxRecDepth 100000 in decide
  · set_option maxRecDepth 100000 in decide
  · set_option maxRecDepth 100000 in decide

/-- C11, amended: in exact arithmetic, for every reachable state, every call of
`AddDocument` that succeeds and every word `w` of the text that is not a stop
word, the term frequency recorded for `(w, id)` is the number of occurrences
of `w` among the words of the text divided by the number of words of the text
that are not stop words, and it is greater than 0 and at most 1; a posting for
`id` is recorded under no other term. -/
theorem AddDocument_term_freq [LinearOrderedField α]
    (srv : SearchServer α) (document_id : DocumentId) (document : Str)
    (hreach : Reachable srv)
    (hok : (srv.AddDocument document_id document).1 = .ok ()) :
    (∀ w ∈ SplitIntoWords document, srv.IsStopWord w = false →
      PostingOf (srv.AddDocument document_id document).2.word_to_document_freqs_ w document_id
        = some (((SplitIntoWords document).count w : α)
            / (((SplitIntoWords document).filter fun w => !srv.IsStopWord w).length : α)) ∧
      0 < ((SplitIntoWords document).count w : α)
            / (((SplitIntoWords document).filter fun w => !srv.IsStopWord w).length : α) ∧
      ((SplitIntoWords document).count w : α)
            / (((SplitIntoWords document).filter fun w => !srv.IsStopWord w).length : α) ≤ 1) ∧
    (∀ w, PostingOf (srv.AddDocument document_id document).2.word_to_document_freqs_ w
        document_id ≠ none →
      w ∈ SplitIntoWords document ∧ srv.IsStopWord w = false) := by
  rcases AddDocument_cases srv document_id document with
    ⟨_, h⟩ | ⟨_, e, _, h⟩ | ⟨hfresh, words_sv, hsplit, h⟩
  · rw [h] at hok; cases hok
  · rw [h] at hok; cases hok
  · rw [h]
    simp only
    obtain ⟨hwords, _⟩ := SplitIntoWordsNoStop_ok srv document words_sv hsplit
    have hnone := PostingOf_eq_none_of_fresh srv hreach.postingsStored document_id hfresh
    have hmem : ∀ w, w ∈ words_sv ↔ w ∈ SplitIntoWords document ∧ srv.IsStopWord w = false := by
      intro w
      rw [hwords, List.mem_filter]
      simp
    constructor
    · intro w hw hs
      have hin : w ∈ words_sv := (hmem w).2 ⟨hw, hs⟩
      have hcount : (SplitIntoWords document).count w = words_sv.count w := by
        rw [hwords, List.count_filter (by simp [hs])]
      have hcpos : 0 < words_sv.count w := List.count_pos_iff.2 hin
      have hcle : words_sv.count w ≤ words_sv.length := List.count_le_length _ _
      have hnpos : (0 : α) < (words_sv.length : α) := by
        exact_mod_cast lt_of_lt_of_le hcpos hcle
      rw [← hwords, hcount]
      refine ⟨?_, ?_, ?_⟩
      · rw [PostingOf_foldl_AddWordFreq, if_pos ⟨hin, rfl⟩, hnone]
        simp only [Option.getD_none, zero_add]
        congr 1
        field_simp
      · apply div_pos _ hnpos
        exact_mod_cast hcpos
      · rw [div_le_one hnpos]
        exact_mod_cast hcle
    · intro w hw
      rw [PostingOf_foldl_AddWordFreq] at hw
      by_cases hin : w ∈ words_sv
      · exact (hmem w).1 hin
      · rw [if_neg (fun hc => hin hc.1), hnone] at hw
        exact absurd rfl hw

/-- Witness of C11 as amended: document 1 = `the cat sat on the cat` with the stop words
`the a` on a server that holds document 0 = `cat dog`. -/
theorem AddDocument_term_freq_witness :
    Reachable (({ stop_words_ := ["the".toList, "a".toList] } : SearchServer ℚ).AddDocument 0
      "cat dog".toList).2 ∧
    ((({ stop_words_ := ["the".toList, "a".toList] } : SearchServer ℚ).AddDocument 0
      "cat dog".toList).2.AddDocument 1 "the cat sat on the cat".toList).1 = .ok () ∧
    PostingOf ((({ stop_words_ := ["the".toList, "a".toList] } : SearchServer ℚ).AddDocument 0
      "cat dog".toList).2.AddDocument 1 "the cat sat on the cat".toList).2.word_to_document_freqs_
      "cat".toList 1 = some (2 / 4) :=
  ⟨Reachable.AddDocument _ _ _ (Reachable.create "the a".toList _ rfl), rfl,
    ((AddDocument_term_freq
      (({ stop_words_ := ["the".toList, "a".toList] } : SearchServer ℚ).AddDocument 0
        "cat dog".toList).2 1 "the cat sat on the cat".toList
      (Reachable.AddDocument _ _ _ (Reachable.create "the a".toList _ rfl)) rfl).1
      "cat".toList (by decide) (by decide)).1⟩

/-- C12: for every state, every identifier and every text with an invalid
word, wherever that word stands in the text, `AddDocument` throws and the
inverted mapping after the call is the inverted mapping before the call: no
posting has been written. -/
theorem AddDocument_invalid_word_keeps_postings [LinearOrderedField α]
    (srv : SearchServer α) (document_id : DocumentId) (document : Str)
    (hbad : HasInvalidWord document) :
    (∃ e, (srv.AddDocument document_id document).1 = .error e) ∧
    (srv.AddDocument document_id document).2.word_to_document_freqs_
      = srv.word_to_document_freqs_ := by
  rcases AddDocument_cases srv document_id document with
    ⟨_, h⟩ | ⟨_, e, _, h⟩ | ⟨_, words_sv, hsplit, h⟩
  · rw [h]; exact ⟨⟨_, rfl⟩, rfl⟩
  · rw [h]; exact ⟨⟨_, rfl⟩, rfl⟩
  · obtain ⟨e, he⟩ := SplitIntoWordsNoStop_invalid srv document hbad
    rw [he] at hsplit
    cases hsplit

/-- Witness of C12: the server that holds document 0 = `cat dog`, and a text
whose last word has the control character of code 1. -/
theorem AddDocument_invalid_word_keeps_postings_witness :
    HasInvalidWord "cat emu b\x01d".toList ∧
    (∃ e, ((({} : SearchServer ℚ).AddDocument 0 "cat dog".toList).2.AddDocument 1
      "cat emu b\x01d".toList).1 = .error e) ∧
    ((({} : SearchServer ℚ).AddDocument 0 "cat dog".toList).2.AddDocument 1
      "cat emu b\x01d".toList).2.word_to_document_freqs_
      = (({} : SearchServer ℚ).AddDocument 0 "cat dog".toList).2.word_to_document_freqs_ :=
  ⟨⟨"b\x01d".toList, by decide, '\x01', by decide, by decide⟩,
    AddDocument_invalid_word_keeps_postings
      (({} : SearchServer ℚ).AddDocument 0 "cat dog".toList).2 1 "cat emu b\x01d".toList
      ⟨"b\x01d".toList, by decide, '\x01', by decide, by decide⟩⟩

/-- C13: `SplitIntoWords` is a total function (it cannot throw), and for every
string it returns, in their order, the pieces of the string split at every
space character with the empty pieces removed; every returned word is
non-empty and has no space; tabs and line feeds do not delimit. -/
theorem SplitIntoWords_spec (str : Str) :
    SplitIntoWords str = (str.splitOn ' ').filter (fun piece => decide (piece ≠ [])) ∧
    (∀ word ∈ SplitIntoWords str, word ≠ [] ∧ ' ' ∉ word) ∧
    SplitIntoWords "  a\tb\nc   d ".toList = ["a\tb\nc".toList, "d".toList] :=
  ⟨SplitIntoWords_eq str,
    fun word h => ⟨SplitIntoWords_ne_nil str word h, SplitIntoWords_no_space str word h⟩,
    by decide⟩

/-- C14: the constructor with the stop-word string `stop_words` throws if and
only if some word of the string has a control character (code 0..31);
otherwise, and only then, it returns a server, and on that server `IsStopWord`
holds exactly for the words of the string, compared character by character,
each stop word being stored once. -/
theorem create_spec {α : Type} (stop_words : Str) :
    ((∃ e, (create stop_words : Except Exception (SearchServer α)) = .error e)
      ↔ HasInvalidWord stop_words) ∧
    ((∃ srv : SearchServer α, create stop_words = .ok srv ∧
        (∀ word, srv.IsStopWord word = true ↔ word ∈ SplitIntoWords stop_words) ∧
        srv.stop_words_.Nodup)
      ↔ ¬ HasInvalidWord stop_words) := by
  rcases create_cases (α := α) stop_words with ⟨hbad, h⟩ | ⟨hgood, srv, h, hmem, hnd, _, _⟩
  · refine ⟨⟨fun _ => hbad, fun _ => ⟨_, h⟩⟩, ⟨?_, fun hg => absurd hbad hg⟩⟩
    rintro ⟨srv, hs, _⟩
    rw [h] at hs
    cases hs
  · refine ⟨⟨?_, fun hb => absurd hb hgood⟩, ⟨fun _ => hgood, fun _ =>
      ⟨srv, h, fun word => (IsStopWord_iff srv word).trans (hmem word), hnd⟩⟩⟩
    rintro ⟨e, he⟩
    rw [h] at he
    cases he

/-- C15, refuted as stated: the term `-` of the document 0 = `-` has as many
postings as there are documents, but the query `-` throws; and on the server
with the documents 0 = `a b c` and 1 = `a b` the query `a` with
`results_num = 1` returns one document, not both. -/
theorem Find_ubiquitous_term_fails :
    (∃ postings, UnorderedMap.find (minusDocServer ℝ).word_to_document_freqs_ "-".toList
        = some postings ∧
      UnorderedMap.size postings = UnorderedMap.size (minusDocServer ℝ).documents_) ∧
    (minusDocServer ℝ).Find Real.log "-".toList 5
      = .error (.invalid_argument "Query word  is invalid") ∧
    (twoDocServer ℝ).Find Real.log "a".toList 1 = .ok [⟨0, 0⟩] := by
  refine ⟨⟨_, rfl, rfl⟩, by decide, ?_⟩
  have h : (twoDocServer ℝ).Find Real.log "a".toList 1
      = .ok (LeaveTopResults
          [⟨0, 0 + (0 + 1 / ((3 : ℕ) : ℝ)) * Real.log (((2 : ℕ) : ℝ) * 1 / ((2 : ℕ) : ℝ))⟩,
           ⟨1, 0 + (0 + 1 / ((2 : ℕ) : ℝ)) * Real.log (((2 : ℕ) : ℝ) * 1 / ((2 : ℕ) : ℝ))⟩]
          1) := rfl
  rw [h]
  simp [LeaveTopResults, sort, sortInsert]

/-- C15, amended: let `log 1 = 0`. For every reachable state, every term of the
inverted mapping that does not begin with a minus sign and has as many
postings as there are stored documents, and every `results_num`, the query
that is the term alone does not throw, every result it returns is a document
of the postings of the term with relevance exactly 0, and when `results_num`
is at least the number of those postings every such document is returned.
On the server with the documents 0 = `a b c` and 1 = `a b`, `Find("a", k)`
returns for every `k >= 2` both documents and nothing else, each with
relevance 0. -/
theorem Find_ubiquitous_term [LinearOrderedField α] (log : α → α) (srv : SearchServer α)
    (word : Str) (postings : List (DocumentId × α)) (results_num : Nat)
    (hlog : log 1 = 0) (hreach : Reachable srv)
    (hfind : UnorderedMap.find srv.word_to_document_freqs_ word = some postings)
    (hall : UnorderedMap.size postings = UnorderedMap.size srv.documents_)
    (hplus : word.head? ≠ some '-') :
    (∃ results, srv.Find log word results_num = .ok results ∧
      (∀ r ∈ results, r.relevance = 0 ∧ r.id ∈ postings.map Prod.fst) ∧
      (UnorderedMap.size postings ≤ results_num →
        ∀ d ∈ postings.map Prod.fst, (⟨d, 0⟩ : Result α) ∈ results)) ∧
    (∀ k, 2 ≤ k → ∃ results, (twoDocServer α).Find log "a".toList k = .ok results ∧
      results.length = 2 ∧ (⟨0, 0⟩ : Result α) ∈ results ∧ (⟨1, 0⟩ : Result α) ∈ results) := by
  refine ⟨hreach.Find_term_in_all_documents log hlog word postings results_num hfind hall hplus, ?_⟩
  intro k hk
  have h : (twoDocServer α).Find log "a".toList k
      = .ok (LeaveTopResults
          [⟨0, 0 + (0 + 1 / ((3 : ℕ) : α)) * log (((2 : ℕ) : α) * 1 / ((2 : ℕ) : α))⟩,
           ⟨1, 0 + (0 + 1 / ((2 : ℕ) : α)) * log (((2 : ℕ) : α) * 1 / ((2 : ℕ) : α))⟩]
          k) := rfl
  have hone : ((2 : ℕ) : α) * 1 / ((2 : ℕ) : α) = 1 := by
    rw [mul_one, div_self]
    exact_mod_cast (by decide : (2 : ℕ) ≠ 0)
  rw [h, hone, hlog]
  refine ⟨[⟨0, 0⟩, ⟨1, 0⟩], ?_, rfl, by simp, by simp⟩
  have hk' : ¬ 2 > k := by omega
  simp [LeaveTopResults, sort, sortInsert, hk']

/-- Witness of C15 as amended: the natural logarithm, the server with the
documents 0 = `a b c` and 1 = `a b`, the term `b` and `results_num = 2`. -/
theorem Find_ubiquitous_term_witness :
    Real.log 1 = 0 ∧ Reachable (twoDocServer ℝ) ∧
    UnorderedMap.find (twoDocServer ℝ).word_to_document_freqs_ "b".toList
      = some [(1, 0 + 1 / ((2 : ℕ) : ℝ)), (0, 0 + 1 / ((3 : ℕ) : ℝ))] ∧
    (∃ results, (twoDocServer ℝ).Find Real.log "b".toList 2 = .ok results ∧
      (∀ r ∈ results, r.relevance = 0 ∧
        r.id ∈ [(1, 0 + 1 / ((2 : ℕ) : ℝ)), (0, 0 + 1 / ((3 : ℕ) : ℝ))].map Prod.fst) ∧
      (UnorderedMap.size [(1, 0 + 1 / ((2 : ℕ) : ℝ)), (0, 0 + 1 / ((3 : ℕ) : ℝ))] ≤ 2 →
        ∀ d ∈ [(1, 0 + 1 / ((2 : ℕ) : ℝ)), (0, 0 + 1 / ((3 : ℕ) : ℝ))].map Prod.fst,
          (⟨d, 0⟩ : Result ℝ) ∈ results)) ∧
    (∀ k, 2 ≤ k → ∃ results, (twoDocServer ℝ).Find Real.log "a".toList k = .ok results ∧
      results.length = 2 ∧ (⟨0, 0⟩ : Result ℝ) ∈ results ∧ (⟨1, 0⟩ : Result ℝ) ∈ results) :=
  ⟨Real.log_one, Reachable.AddDocument _ _ _ (Reachable.AddDocument _ _ _ Reachable.default),
    rfl,
    Find_ubiquitous_term Real.log (twoDocServer ℝ) "b".toList
      [(1, 0 + 1 / ((2 : ℕ) : ℝ)), (0, 0 + 1 / ((3 : ℕ) : ℝ))] 2 Real.log_one
      (Reachable.AddDocument _ _ _ (Reachable.AddDocument _ _ _ Reachable.default))
      rfl rfl (by decide)⟩

/-- C16: for every function `log` that is non-negative from 1 on and every
state reachable from a constructed server by calls of `AddDocument`
(returning or throwing), every term of the inverted mapping has at least 1 and
at most `documents_.size()` postings, so the divisor of the IDF is not zero,
`ComputeWordInverseDocumentFreq` does not throw for the term and gives an IDF
that is at least 0; and every call of `Find` either throws `invalid_argument`
for the query or returns results whose relevances are all at least 0. -/
theorem idf_well_defined [LinearOrderedField α] (log : α → α) (srv : SearchServer α)
    (hlog : ∀ x, 1 ≤ x → 0 ≤ log x) (hreach : Reachable srv) :
    (∀ e ∈ srv.word_to_document_freqs_,
      1 ≤ UnorderedMap.size e.2 ∧
      UnorderedMap.size e.2 ≤ UnorderedMap.size srv.documents_ ∧
      (UnorderedMap.size e.2 : α) ≠ 0 ∧
      ∃ idf, srv.ComputeWordInverseDocumentFreq log e.1 = .ok idf ∧ 0 ≤ idf) ∧
    (∀ raw_query results_num,
      (∃ what, srv.Find log raw_query results_num = .error (.invalid_argument what)) ∨
      ∃ results, srv.Find log raw_query results_num = .ok results ∧
        ∀ r ∈ results, 0 ≤ r.relevance) := by
  constructor
  · intro e he
    obtain ⟨h1, h2⟩ := hreach.postings_length e he
    refine ⟨h1, h2, ?_, ?_⟩
    · have : 0 < e.2.length := h1
      simp only [UnorderedMap.size]
      exact_mod_cast (Nat.pos_iff_ne_zero.1 this)
    · have hkey : e.1 ∈ srv.word_to_document_freqs_.map Prod.fst :=
        List.mem_map_of_mem Prod.fst he
      cases hf : UnorderedMap.find srv.word_to_document_freqs_ e.1 with
      | none => exact absurd hkey ((UnorderedMap.find_eq_none_iff _ _).1 hf)
      | some postings =>
        refine ⟨_, ComputeWordInverseDocumentFreq_eq log srv e.1 postings hf, ?_⟩
        exact hlog _ (hreach.one_le_ratio (e.1, postings)
          (UnorderedMap.mem_of_find_eq_some _ _ _ hf))
  · intro raw_query results_num
    have hparse : (∃ query, srv.ParseQuery raw_query = .ok query) ∨
        (∃ what, srv.ParseQuery raw_query = .error (.invalid_argument what)) :=
      ParseQueryLoop_ok_or_invalid srv (SplitIntoWords raw_query) [] []
    rcases hparse with ⟨query, hq⟩ | ⟨what, hw⟩
    · right
      refine ⟨_, FindWith_eq log srv .seq raw_query results_num query hq, ?_⟩
      intro r hr
      have hmem := (mem_PlusWordsMap_of_mem_Find log srv .seq results_num query r hr).1
      rw [find_foldl_applyUpdate _ _ _ hmem]
      exact Total_nonneg _ (hreach.updates_nonneg log hlog query.plus_words) r.id
    · left
      exact ⟨what, FindWith_error log srv .seq raw_query results_num _ hw⟩

/-- Witness of C16: the natural logarithm and the server that holds the
documents 0 = `cat dog` and 1 = `cat`, after a call of `AddDocument` that
threw. -/
theorem idf_well_defined_witness :
    (∀ x : ℝ, 1 ≤ x → 0 ≤ Real.log x) ∧
    Reachable (((({} : SearchServer ℝ).AddDocument 0 "cat dog".toList).2.AddDocument 7
      "b\x01".toList).2.AddDocument 1 "cat".toList).2 ∧
    ((∀ e ∈ (((({} : SearchServer ℝ).AddDocument 0 "cat dog".toList).2.AddDocument 7
        "b\x01".toList).2.AddDocument 1 "cat".toList).2.word_to_document_freqs_,
      1 ≤ UnorderedMap.size e.2 ∧
      UnorderedMap.size e.2 ≤ UnorderedMap.size (((({} : SearchServer ℝ).AddDocument 0
        "cat dog".toList).2.AddDocument 7 "b\x01".toList).2.AddDocument 1
        "cat".toList).2.documents_ ∧
      (UnorderedMap.size e.2 : ℝ) ≠ 0 ∧
      ∃ idf, (((({} : SearchServer ℝ).AddDocument 0 "cat dog".toList).2.AddDocument 7
        "b\x01".toList).2.AddDocument 1 "cat".toList).2.ComputeWordInverseDocumentFreq
          Real.log e.1 = .ok idf ∧ 0 ≤ idf) ∧
    (∀ raw_query results_num,
      (∃ what, (((({} : SearchServer ℝ).AddDocument 0 "cat dog".toList).2.AddDocument 7
        "b\x01".toList).2.AddDocument 1 "cat".toList).2.Find Real.log raw_query results_num
          = .error (.invalid_argument what)) ∨
      ∃ results, (((({} : SearchServer ℝ).AddDocument 0 "cat dog".toList).2.AddDocument 7
        "b\x01".toList).2.AddDocument 1 "cat".toList).2.Find Real.log raw_query results_num
          = .ok results ∧
        ∀ r ∈ results, 0 ≤ r.relevance)) :=
  ⟨fun _ hx => Real.log_nonneg hx,
    Reachable.AddDocument _ _ _ (Reachable.AddDocument _ _ _
      (Reachable.AddDocument _ _ _ Reachable.default)),
    idf_well_defined Real.log _ (fun _ hx => Real.log_nonneg hx)
      (Reachable.AddDocument _ _ _ (Reachable.AddDocument _ _ _
        (Reachable.AddDocument _ _ _ Reachable.default)))⟩

/-- C17: for every state, every `results_num` and every query that parses to an
empty set of plus words, `Find` returns the empty result, and the raw query
has then no token without a leading minus sign that is not a stop word. On
the server built with the stop words `the a` that holds only document
0 = `the cat sat`, the queries `the`, `-cat` and the empty query give the
empty result. -/
theorem Find_without_plus_words [LinearOrderedField α] (log : α → α) (srv : SearchServer α)
    (raw_query : Str) (results_num : Nat) (query : Query)
    (hparse : srv.ParseQuery raw_query = .ok query) (hplus : query.plus_words = []) :
    srv.Find log raw_query results_num = .ok [] ∧
    PlusTerms srv raw_query = [] ∧
    (SearchServer.create "the a".toList : Except Exception (SearchServer α))
      = .ok { stop_words_ := ["the".toList, "a".toList] } ∧
    (catServer α).Find log "the".toList results_num = .ok [] ∧
    (catServer α).Find log "-cat".toList results_num = .ok [] ∧
    (catServer α).Find log [] results_num = .ok [] := by
  refine ⟨Find_of_plus_words_nil log srv raw_query results_num query hparse hplus, ?_, rfl,
    Find_of_plus_words_nil log (catServer α) "the".toList results_num ⟨[], []⟩ rfl rfl,
    Find_of_plus_words_nil log (catServer α) "-cat".toList results_num ⟨[], ["cat".toList]⟩
      rfl rfl,
    Find_of_plus_words_nil log (catServer α) [] results_num ⟨[], []⟩ rfl rfl⟩
  have hperm := ParseQuery_plus_words_perm srv raw_query query hparse
  rw [hplus] at hperm
  exact List.Perm.nil_eq hperm |>.symm

/-- Witness of C17: the query `-cat  the` on the server of the scenario. -/
theorem Find_without_plus_words_witness :
    (catServer ℝ).ParseQuery "-cat  the".toList = .ok ⟨[], ["cat".toList]⟩ ∧
    (catServer ℝ).Find Real.log "-cat  the".toList 5 = .ok [] ∧
    PlusTerms (catServer ℝ) "-cat  the".toList = [] ∧
    (SearchServer.create "the a".toList : Except Exception (SearchServer ℝ))
      = .ok { stop_words_ := ["the".toList, "a".toList] } ∧
    (catServer ℝ).Find Real.log "the".toList 5 = .ok [] ∧
    (catServer ℝ).Find Real.log "-cat".toList 5 = .ok [] ∧
    (catServer ℝ).Find Real.log [] 5 = .ok [] :=
  ⟨by decide, Find_without_plus_words Real.log (catServer ℝ) "-cat  the".toList 5
    ⟨[], ["cat".toList]⟩ (by decide) rfl⟩

/-- C18: for every reachable state, distinct ids `i` and `j` and texts `a` and
`b` such that `AddDocument(i, a)` followed by `AddDocument(j, b)` succeeds,
the insertions succeed in the other order too, and the two final states hold
the same stop words, the same stored documents and the same inverted mapping
as finite maps (`SameIndex`); hence every query parses alike in both states,
every document has the same TF-IDF relevance under every query, and `FindAll`
returns the same set of results (id and relevance) in both states. -/
theorem AddDocument_order_irrelevant [LinearOrderedField α] (srv : SearchServer α)
    (i j : DocumentId) (a b : Str) (hreach : Reachable srv) (hij : i ≠ j)
    (h₁ : (srv.AddDocument i a).1 = .ok ())
    (h₂ : ((srv.AddDocument i a).2.AddDocument j b).1 = .ok ()) :
    (srv.AddDocument j b).1 = .ok () ∧
    ((srv.AddDocument j b).2.AddDocument i a).1 = .ok () ∧
    SameIndex ((srv.AddDocument i a).2.AddDocument j b).2
      ((srv.AddDocument j b).2.AddDocument i a).2 ∧
    (∀ raw_query, ((srv.AddDocument i a).2.AddDocument j b).2.ParseQuery raw_query
      = ((srv.AddDocument j b).2.AddDocument i a).2.ParseQuery raw_query) ∧
    (∀ (log : α → α) raw_query d,
      FormulaRelevance log ((srv.AddDocument i a).2.AddDocument j b).2 raw_query d
        = FormulaRelevance log ((srv.AddDocument j b).2.AddDocument i a).2 raw_query d) ∧
    (∀ (log : α → α) query, ∃ all₁ all₂,
      ((srv.AddDocument i a).2.AddDocument j b).2.FindAll log .seq query = .ok all₁ ∧
      ((srv.AddDocument j b).2.AddDocument i a).2.FindAll log .seq query = .ok all₂ ∧
      ∀ r, r ∈ all₁ ↔ r ∈ all₂) := by
  have hr₁ : Reachable ((srv.AddDocument i a).2.AddDocument j b).2 :=
    Reachable.AddDocument _ _ _ (Reachable.AddDocument _ _ _ hreach)
  have hr₂ : Reachable ((srv.AddDocument j b).2.AddDocument i a).2 :=
    Reachable.AddDocument _ _ _ (Reachable.AddDocument _ _ _ hreach)
  obtain ⟨hi, ha⟩ := (AddDocument_ok_iff srv i a).1 h₁
  have hsa := AddDocument_ok_state srv i a h₁
  obtain ⟨hj', hb⟩ := (AddDocument_ok_iff _ j b).1 h₂
  have hs₁ := AddDocument_ok_state _ j b h₂
  rw [hsa] at hj' hs₁ hr₁
  have hj : j ∉ srv.StoredIds := fun h => hj' (List.mem_cons_of_mem _ h)
  have h₃ : (srv.AddDocument j b).1 = .ok () := (AddDocument_ok_iff srv j b).2 ⟨hj, hb⟩
  have hsb := AddDocument_ok_state srv j b h₃
  have hi' : i ∉ (srv.Added j b).StoredIds := by
    intro h
    rcases List.mem_cons.1 h with h | h
    · exact hij h
    · exact hi h
  have h₄ : ((srv.AddDocument j b).2.AddDocument i a).1 = .ok () := by
    rw [hsb]
    exact (AddDocument_ok_iff _ i a).2 ⟨hi', ha⟩
  have hs₂ := AddDocument_ok_state _ i a h₄
  rw [hsb] at hs₂ hr₂
  rw [hs₁] at hr₁
  rw [hs₂] at hr₂
  have hsame : SameIndex ((srv.AddDocument i a).2.AddDocument j b).2
      ((srv.AddDocument j b).2.AddDocument i a).2 := by
    rw [hsa, hs₁, hsb, hs₂]
    exact Added_comm srv i j a b hij hr₁.postingsNodup hr₂.postingsNodup
  refine ⟨h₃, h₄, hsame, hsame.ParseQuery_eq, fun log raw_query d =>
    hsame.FormulaRelevance_eq log raw_query d, ?_⟩
  intro log query
  exact ⟨_, _, FindAll_eq log _ .seq query, FindAll_eq log _ .seq query,
    fun r => hsame.mem_FindAll log query r⟩

/-- Witness of C18: the documents 0 = `cat dog` and 1 = `cat emu` added in both
orders to the server that holds document 5 = `dog`. -/
theorem AddDocument_order_irrelevant_witness :
    Reachable (({} : SearchServer ℝ).AddDocument 5 "dog".toList).2 ∧ (0 : DocumentId) ≠ 1 ∧
    ((({} : SearchServer ℝ).AddDocument 5 "dog".toList).2.AddDocument 0 "cat dog".toList).1
      = .ok () ∧
    (((({} : SearchServer ℝ).AddDocument 5 "dog".toList).2.AddDocument 0
      "cat dog".toList).2.AddDocument 1 "cat emu".toList).1 = .ok () ∧
    ((({} : SearchServer ℝ).AddDocument 5 "dog".toList).2.AddDocument 1 "cat emu".toList).1
      = .ok () ∧
    (((({} : SearchServer ℝ).AddDocument 5 "dog".toList).2.AddDocument 1
      "cat emu".toList).2.AddDocument 0 "cat dog".toList).1 = .ok () ∧
    SameIndex
      (((({} : SearchServer ℝ).AddDocument 5 "dog".toList).2.AddDocument 0
        "cat dog".toList).2.AddDocument 1 "cat emu".toList).2
      (((({} : SearchServer ℝ).AddDocument 5 "dog".toList).2.AddDocument 1
        "cat emu".toList).2.AddDocument 0 "cat dog".toList).2 ∧
    (∀ raw_query,
      (((({} : SearchServer ℝ).AddDocument 5 "dog".toList).2.AddDocument 0
        "cat dog".toList).2.AddDocument 1 "cat emu".toList).2.ParseQuery raw_query
      = (((({} : SearchServer ℝ).AddDocument 5 "dog".toList).2.AddDocument 1
        "cat emu".toList).2.AddDocument 0 "cat dog".toList).2.ParseQuery raw_query) ∧
    (∀ (log : ℝ → ℝ) raw_query d,
      FormulaRelevance log
        (((({} : SearchServer ℝ).AddDocument 5 "dog".toList).2.AddDocument 0
          "cat dog".toList).2.AddDocument 1 "cat emu".toList).2 raw_query d
      = FormulaRelevance log
        (((({} : SearchServer ℝ).AddDocument 5 "dog".toList).2.AddDocument 1
          "cat emu".toList).2.AddDocument 0 "cat dog".toList).2 raw_query d) ∧
    (∀ (log : ℝ → ℝ) query, ∃ all₁ all₂,
      (((({} : SearchServer ℝ).AddDocument 5 "dog".toList).2.AddDocument 0
        "cat dog".toList).2.AddDocument 1 "cat emu".toList).2.FindAll log .seq query
        = .ok all₁ ∧
      (((({} : SearchServer ℝ).AddDocument 5 "dog".toList).2.AddDocument 1
        "cat emu".toList).2.AddDocument 0 "cat dog".toList).2.FindAll log .seq query
        = .ok all₂ ∧
      ∀ r, r ∈ all₁ ↔ r ∈ all₂) :=
  ⟨Reachable.AddDocument _ _ _ Reachable.default, by decide, rfl, rfl,
    AddDocument_order_irrelevant (({} : SearchServer ℝ).AddDocument 5 "dog".toList).2 0 1
      "cat dog".toList "cat emu".toList (Reachable.AddDocument _ _ _ Reachable.default)
      (by decide) rfl rfl⟩

/-- C20: for every reachable state and every query that parses, the ids of the
results of `Find` are pairwise distinct, and when `results_num` is at least the
number of stored documents, an id is returned if and only if it has a posting
under some token of the query without a leading minus sign that is not a stop
word, and has no posting under any token with a leading minus sign (taken
without the sign) that is not a stop word. -/
theorem Find_exact_match_set [LinearOrderedField α] (log : α → α) (srv : SearchServer α)
    (raw_query : Str) (results_num : Nat) (query : Query)
    (hreach : Reachable srv) (hparse : srv.ParseQuery raw_query = .ok query) :
    ∃ results, srv.Find log raw_query results_num = .ok results ∧
      (results.map fun r => r.id).Nodup ∧
      (UnorderedMap.size srv.documents_ ≤ results_num →
        ∀ d, d ∈ results.map (fun r => r.id) ↔
          (∃ word ∈ SplitIntoWords raw_query, word.head? ≠ some '-' ∧
            srv.IsStopWord word = false ∧
            PostingOf srv.word_to_document_freqs_ word d ≠ none) ∧
          (∀ word, ('-' :: word) ∈ SplitIntoWords raw_query → srv.IsStopWord word = false →
            PostingOf srv.word_to_document_freqs_ word d = none)) := by
  refine ⟨_, FindWith_eq log srv .seq raw_query results_num query hparse, ?_, ?_⟩
  · rw [LeaveTopResults_eq]
    exact (((List.take_sublist _ _).map _).nodup
      (((sort_perm _ _).map _).nodup_iff.2 (FindAll_ids_nodup log srv .seq query)))
  · intro hnum d
    have hlen := hreach.FindAll_length_le log query
    rw [LeaveTopResults_eq, List.take_of_length_le
      (by rw [(sort_perm _ _).length_eq]; exact le_trans hlen hnum),
      ((sort_perm _ _).map _).mem_iff, mem_FindAll_ids]
    have hplus := (ParseQueryLoop_plus_words srv _ _ _ _ hparse).1
    have hminus := ParseQuery_minus_words srv raw_query query hparse
    constructor
    · rintro ⟨⟨word, hw, hp⟩, hm⟩
      refine ⟨?_, ?_⟩
      · rcases (hplus word).1 hw with hnil | ⟨h1, h2, h3⟩
        · simp at hnil
        · exact ⟨word, h1, h2, h3, hp⟩
      · intro word hw hs
        exact hm word ((hminus word).2 ⟨hw, hs⟩)
    · rintro ⟨⟨word, h1, h2, h3, hp⟩, hm⟩
      refine ⟨⟨word, (hplus word).2 (Or.inr ⟨h1, h2, h3⟩), hp⟩, ?_⟩
      intro word hw
      obtain ⟨h1, h2⟩ := (hminus word).1 hw
      exact hm word h1 h2

/-- Witness of C20: the documents 0 = `cat dog`, 1 = `cat` and 2 = `emu`, and
the query `cat emu -dog`. -/
theorem Find_exact_match_set_witness :
    Reachable (((({} : SearchServer ℝ).AddDocument 0 "cat dog".toList).2.AddDocument 1
      "cat".toList).2.AddDocument 2 "emu".toList).2 ∧
    (((({} : SearchServer ℝ).AddDocument 0 "cat dog".toList).2.AddDocument 1
      "cat".toList).2.AddDocument 2 "emu".toList).2.ParseQuery "cat emu -dog".toList
      = .ok ⟨["emu".toList, "cat".toList], ["dog".toList]⟩ ∧
    ∃ results, (((({} : SearchServer ℝ).AddDocument 0 "cat dog".toList).2.AddDocument 1
        "cat".toList).2.AddDocument 2 "emu".toList).2.Find Real.log "cat emu -dog".toList 3
        = .ok results ∧
      (results.map fun r => r.id).Nodup ∧
      (UnorderedMap.size (((({} : SearchServer ℝ).AddDocument 0 "cat dog".toList).2.AddDocument 1
        "cat".toList).2.AddDocument 2 "emu".toList).2.documents_ ≤ 3 →
        ∀ d, d ∈ results.map (fun r => r.id) ↔
          (∃ word ∈ SplitIntoWords "cat emu -dog".toList, word.head? ≠ some '-' ∧
            (((({} : SearchServer ℝ).AddDocument 0 "cat dog".toList).2.AddDocument 1
              "cat".toList).2.AddDocument 2 "emu".toList).2.IsStopWord word = false ∧
            PostingOf (((({} : SearchServer ℝ).AddDocument 0 "cat dog".toList).2.AddDocument 1
              "cat".toList).2.AddDocument 2 "emu".toList).2.word_to_document_freqs_ word d
              ≠ none) ∧
          (∀ word, ('-' :: word) ∈ SplitIntoWords "cat emu -dog".toList →
            (((({} : SearchServer ℝ).AddDocument 0 "cat dog".toList).2.AddDocument 1
              "cat".toList).2.AddDocument 2 "emu".toList).2.IsStopWord word = false →
            PostingOf (((({} : SearchServer ℝ).AddDocument 0 "cat dog".toList).2.AddDocument 1
              "cat".toList).2.AddDocument 2 "emu".toList).2.word_to_document_freqs_ word d
              = none)) :=
  ⟨Reachable.AddDocument _ _ _ (Reachable.AddDocument _ _ _
      (Reachable.AddDocument _ _ _ Reachable.default)),
    by decide,
    Find_exact_match_set Real.log _ "cat emu -dog".toList 3
      ⟨["emu".toList, "cat".toList], ["dog".toList]⟩
      (Reachable.AddDocument _ _ _ (Reachable.AddDocument _ _ _
        (Reachable.AddDocument _ _ _ Reachable.default)))
      (by decide)⟩

end CppSearchServer
